import Mathlib

/-! The package paraminf: a typed parameter store and a hierarchical YAML codec.

A shallow embedding of `paraminf::ParameterInterface`
(`include/paraminf/parameter_interface.h`, `src/parameter_interface.cpp`) and of
`paraminf::YamlIOHandler` (`src/yaml_io_handler.cpp`), followed by theorems about them.

Modelling conventions.
* `std::any` restricted to the value types the repository uses is a dependent pair of a
  type tag `Ty` and a value of the denoted type; `typeid` comparison is equality of tags.
* `int` values are mathematical integers; conversions out of `int` wrap explicitly.
* a finite `double` is the rational number it denotes; the conversion `int -> double`
  is exact.
* `std::map<std::string, std::any>` is an association list kept in ascending key order by
  the insertion routine, exactly the iteration order of the C++ container.
* a function that can throw returns, next to the store it has mutated so far, a flag
  telling whether it completed without an exception.
-/

namespace paraminf

/-! ## Value types -/

/-- The C++ value types that occur as `ValueType` in this development. -/
inductive Ty where
  | int
  | double
  | bool
  | string
  | char
  | size_t
  | vec (elem : Ty)
  deriving DecidableEq, Repr

/-- A finite `double`, represented by the rational number it denotes. -/
abbrev CDouble := ℚ

/-- The Lean type of the values of a C++ type. -/
def Ty.denote : Ty → Type
  | .int => Int
  | .double => CDouble
  | .bool => Bool
  | .string => String
  | .char => Int
  | .size_t => Nat
  | .vec e => List e.denote

/-- Decidable equality of values, by recursion on the type tag. -/
def Ty.decEq : (T : Ty) → DecidableEq T.denote
  | .int => inferInstanceAs (DecidableEq Int)
  | .double => inferInstanceAs (DecidableEq ℚ)
  | .bool => inferInstanceAs (DecidableEq Bool)
  | .string => inferInstanceAs (DecidableEq String)
  | .char => inferInstanceAs (DecidableEq Int)
  | .size_t => inferInstanceAs (DecidableEq Nat)
  | .vec e => @List.hasDecEq _ (Ty.decEq e)

instance (T : Ty) : DecidableEq T.denote := Ty.decEq T

/-- The value a default-initialised object of class type has; scalars are set to zero here,
in C++ they are indeterminate. -/
def Ty.default_init : (T : Ty) → T.denote
  | .int => (0 : Int)
  | .double => (0 : ℚ)
  | .bool => false
  | .string => ""
  | .char => (0 : Int)
  | .size_t => (0 : Nat)
  | .vec _ => []

/-- The trait `std::is_convertible_v<int, T>`: true for the arithmetic types, false for
`std::string` and for every `std::vector` (its size constructor is explicit). -/
def is_convertible_int : Ty → Bool
  | .int => true
  | .double => true
  | .bool => true
  | .char => true
  | .size_t => true
  | .string => false
  | .vec _ => false

/-- The conversion `static_cast<T>(i)` of an `int`, for the types `int` converts to:
exact to `double`, non-zero test to `bool`, wrap-around to the 8-bit signed `char` and to
the 64-bit unsigned `size_t`. -/
def static_cast_int : (T : Ty) → is_convertible_int T = true → Int → T.denote
  | .int, _, i => i
  | .double, _, i => (i : ℚ)
  | .bool, _, i => decide (i ≠ 0)
  | .char, _, i => (i + 128) % 256 - 128
  | .size_t, _, i => (i % 2 ^ 64).toNat
  | .string, h, _ => (Bool.false_ne_true h).elim
  | .vec _, h, _ => (Bool.false_ne_true h).elim

/-- A `std::any` holding a value of one of the modelled types. -/
structure StdAny where
  ty : Ty
  val : ty.denote

/-- Decidable equality of `std::any` values: equal tags and equal contents. -/
instance : DecidableEq StdAny := fun a b =>
  match a, b with
  | ⟨ta, va⟩, ⟨tb, vb⟩ =>
    if h : ta = tb then
      if hv : h ▸ va = vb then isTrue (by subst h; subst hv; rfl)
      else isFalse (by intro hc; cases hc; exact hv rfl)
    else isFalse (by intro hc; cases hc; exact h rfl)

/-- Wrap a value of type `T` into a `std::any`. -/
def StdAny.of {T : Ty} (v : T.denote) : StdAny := ⟨T, v⟩

/-- The check `to_check.type() == typeid(ValueType)` of `ParameterInterface::isType`. -/
def isType (T : Ty) (to_check : StdAny) : Bool := decide (to_check.ty = T)

/-- The cast `std::any_cast<T>` of a value whose dynamic type is `T`. -/
def any_cast (T : Ty) (a : StdAny) (h : isType T a = true) : T.denote :=
  (of_decide_eq_true h : a.ty = T) ▸ a.val

/-! ## Ordering of names and the map container -/

/-- Lexicographic comparison of character sequences, the order of `std::string::operator<`. -/
def chars_less : List Char → List Char → Bool
  | [], [] => false
  | [], _ :: _ => true
  | _ :: _, [] => false
  | a :: as, b :: bs =>
    if a.toNat < b.toNat then true
    else if b.toNat < a.toNat then false
    else chars_less as bs

/-- The comparison `std::less<std::string>` used by `std::map` and by `std::sort`. -/
def string_less (a b : String) : Bool := chars_less a.data b.data

/-- The lookup `std::map::find`: the value stored under a key, if any. -/
def map_find : List (String × StdAny) → String → Option StdAny
  | [], _ => none
  | (k, v) :: rest, key => if k = key then some v else map_find rest key

/-- The assignment `m[key] = value` of `std::map`: overwrite the entry of an existing key,
otherwise insert a new entry at its place in key order. -/
def map_assign : List (String × StdAny) → String → StdAny → List (String × StdAny)
  | [], key, value => [(key, value)]
  | (k, v) :: rest, key, value =>
    if k = key then (key, value) :: rest
    else if string_less key k then (key, value) :: (k, v) :: rest
    else (k, v) :: map_assign rest key value

/-- Insert a name into an ascending list, before the first greater element. -/
def sort_insert (x : String) : List String → List String
  | [] => [x]
  | y :: ys => if string_less y x then y :: sort_insert x ys else x :: y :: ys

/-- The call `sort(begin, end)` on a vector of strings: the ascending rearrangement. -/
def sort : List String → List String
  | [] => []
  | x :: xs => sort_insert x (sort xs)

/-! ## ParameterInterface -/

/-- The state of a `ParameterInterface`: the update flag and the name-keyed map. -/
structure ParameterInterface where
  has_been_updated_ : Bool
  parameter_set_ : List (String × StdAny)
  deriving DecidableEq

namespace ParameterInterface

/-- A freshly constructed interface: flag false, no entries. -/
def fresh : ParameterInterface := ⟨false, []⟩

/-- The member `setParam`: assign the entry, set the update flag. -/
def setParam {T : Ty} (self : ParameterInterface) (parameter_name : String)
    (parameter_value : T.denote) : ParameterInterface :=
  { parameter_set_ := map_assign self.parameter_set_ parameter_name (StdAny.of parameter_value)
    has_been_updated_ := true }

/-- The member `getParamImpl`: the result flag and the content of the reference argument
after the call.  In the branch for types `int` converts to, the assignment is guarded by
the stored type being `int` and the `return true` is not. -/
def getParamImpl (T : Ty) (self : ParameterInterface) (parameter_name : String)
    (parameter_value : T.denote) : Bool × T.denote :=
  match map_find self.parameter_set_ parameter_name with
  | none => (false, parameter_value)
  | some a =>
    if h : isType T a = true then (true, any_cast T a h)
    else if hc : is_convertible_int T = true then
      (true,
        if hi : isType Ty.int a = true then static_cast_int T hc (any_cast Ty.int a hi)
        else parameter_value)
    else (false, parameter_value)

/-- The two-argument member `getParam(name, value&)`. -/
def getParam (T : Ty) (self : ParameterInterface) (parameter_name : String)
    (parameter_value : T.denote) : Bool × T.denote :=
  getParamImpl T self parameter_name parameter_value

/-- The one-argument member `getParam(name)`, which throws `std::invalid_argument`;
`uninit` is the content of the default-initialised local `parameter_value`. -/
def getParamOrThrow (T : Ty) (self : ParameterInterface) (parameter_name : String)
    (uninit : T.denote) : Except String T.denote :=
  let r := getParamImpl T self parameter_name uninit
  if !r.1 then Except.error ("Parameter \"" ++ parameter_name ++ " was not found")
  else Except.ok r.2

/-- The member `hasParam`. -/
def hasParam (self : ParameterInterface) (parameter_name : String) : Bool :=
  (map_find self.parameter_set_ parameter_name).isSome

/-- The member `hasParamOfType<T>`. -/
def hasParamOfType (T : Ty) (self : ParameterInterface) (parameter_name : String) : Bool :=
  match map_find self.parameter_set_ parameter_name with
  | none => false
  | some a => isType T a || (is_convertible_int T && isType Ty.int a)

/-- The member `getAllParameterNames`: the keys in iteration order, then sorted. -/
def getAllParameterNames (self : ParameterInterface) : List String :=
  sort (self.parameter_set_.map Prod.fst)

/-- The member `hasBeenUpdated`. -/
def hasBeenUpdated (self : ParameterInterface) : Bool := self.has_been_updated_

/-- The member `resetUpdateFlag`. -/
def resetUpdateFlag (self : ParameterInterface) : ParameterInterface :=
  { self with has_been_updated_ := false }

end ParameterInterface

/-! ## The YAML library interface -/

/-- A parsed YAML node (`YAML::Node`): null, a scalar with its text, a sequence, or a map
whose entries are kept in document order. -/
inductive Node where
  | null
  | scalar (text : String)
  | sequence (items : List Node)
  | map (entries : List (Node × Node))
  deriving Repr

/-- The member `Node::IsScalar`. -/
def Node.IsScalar : Node → Bool
  | .scalar _ => true
  | _ => false

/-- The member `Node::IsSequence`. -/
def Node.IsSequence : Node → Bool
  | .sequence _ => true
  | _ => false

/-- The member `Node::IsMap`. -/
def Node.IsMap : Node → Bool
  | .map _ => true
  | _ => false

/-- The children a sequence node iterates over (`begin()` to `end()`); `size()` is their
number. -/
def Node.seq_items : Node → List Node
  | .sequence items => items
  | _ => []

/-- The scalar conversions of the YAML library, taken as parameters: `node.as<T>()` for
the four probed types (`none` when the conversion throws), and the text the emitter writes
for a `double` passed to it directly. -/
structure YamlLib where
  as_int : Node → Option Int
  as_double : Node → Option CDouble
  as_bool : Node → Option Bool
  as_string : Node → Option String
  emit_double : CDouble → String

/-- The conversion `node.as<T>()` at a type `T`; only the four probed scalar types are
ever instantiated. -/
def YamlLib.node_as (L : YamlLib) : (T : Ty) → Node → Option T.denote
  | .int => L.as_int
  | .double => L.as_double
  | .bool => L.as_bool
  | .string => L.as_string
  | .char => fun _ => none
  | .size_t => fun _ => none
  | .vec _ => fun _ => none

/-- What is passed to the `YAML::Emitter`, in order: structure manipulators and scalar
texts.  A YAML text is identified with the sequence of these it encodes. -/
inductive Emit where
  | BeginMap
  | EndMap
  | BeginSeq
  | EndSeq
  | Key
  | Value
  | Null
  | Scalar (text : String)
  deriving DecidableEq, Repr

/-- A YAML document text, as the token sequence it encodes. -/
abbrev YamlText := List Emit

/-- A collection under construction while a text is loaded: a map with the entries read so
far and the key waiting for its value, or a sequence with the items read so far. -/
inductive Frame where
  | map (entries : List (Node × Node)) (key : Option Node)
  | seq (items : List Node)

/-- The loader state: the open collections, innermost first, and the finished documents. -/
structure Builder where
  stack : List Frame
  docs : List Node

/-- Hand a finished node to the innermost open collection, or finish a document. -/
def Builder.deliver (n : Node) : Builder → Builder
  | ⟨[], docs⟩ => ⟨[], docs ++ [n]⟩
  | ⟨Frame.map es none :: st, docs⟩ => ⟨Frame.map es (some n) :: st, docs⟩
  | ⟨Frame.map es (some k) :: st, docs⟩ => ⟨Frame.map (es ++ [(k, n)]) none :: st, docs⟩
  | ⟨Frame.seq items :: st, docs⟩ => ⟨Frame.seq (items ++ [n]) :: st, docs⟩

/-- One loader step; `none` is a parser exception (a collection end that closes nothing). -/
def Builder.step (b : Builder) : Emit → Option Builder
  | .BeginMap => some ⟨Frame.map [] none :: b.stack, b.docs⟩
  | .BeginSeq => some ⟨Frame.seq [] :: b.stack, b.docs⟩
  | .EndMap =>
    match b.stack with
    | Frame.map es none :: st => some (Builder.deliver (Node.map es) ⟨st, b.docs⟩)
    | _ => none
  | .EndSeq =>
    match b.stack with
    | Frame.seq items :: st => some (Builder.deliver (Node.sequence items) ⟨st, b.docs⟩)
    | _ => none
  | .Key => some b
  | .Value => some b
  | .Null => some (Builder.deliver Node.null b)
  | .Scalar t => some (Builder.deliver (Node.scalar t) b)

/-- Run the loader over a text. -/
def Builder.run : Builder → YamlText → Option Builder
  | b, [] => some b
  | b, e :: rest =>
    match Builder.step b e with
    | none => none
    | some b1 => Builder.run b1 rest

/-- Modelled from the spec: the external YAML library's `YAML::LoadAll`, which the spec
only assumes to provide the node trees of a text.  It returns the documents of the text in
order, or `none` for a parser exception (ill-nested text). -/
def LoadAll (text : YamlText) : Option (List Node) :=
  match Builder.run ⟨[], []⟩ text with
  | some ⟨[], docs⟩ => some docs
  | _ => none

/-! ## YamlIOHandler: the read path -/

namespace YamlIOHandler

open ParameterInterface

/-- The template `tryParse<T>`: the result flag and the content of `val` after the call. -/
def tryParse (L : YamlLib) (T : Ty) (node : Node) (val : T.denote) : Bool × T.denote :=
  match L.node_as T node with
  | some v => (true, v)
  | none => (false, val)

/-- The template `addSingleParameterIfTypeCorrect<T>`: the result flag and the store. -/
def addSingleParameterIfTypeCorrect (L : YamlLib) (T : Ty) (parameter_name : String)
    (value_node : Node) (parameter_interface : ParameterInterface) :
    Bool × ParameterInterface :=
  let r := tryParse L T value_node T.default_init
  if r.1 then (true, parameter_interface.setParam parameter_name r.2)
  else (false, parameter_interface)

/-- The function `readAndAddSingleParameter`: probe int, double, bool, string in that order;
the flag is false when the final `throw` is reached. -/
def readAndAddSingleParameter (L : YamlLib) (parameter_name : String) (value_node : Node)
    (parameter_interface : ParameterInterface) : Bool × ParameterInterface :=
  let r1 := addSingleParameterIfTypeCorrect L Ty.int parameter_name value_node parameter_interface
  if r1.1 then (true, r1.2) else
  let r2 := addSingleParameterIfTypeCorrect L Ty.double parameter_name value_node r1.2
  if r2.1 then (true, r2.2) else
  let r3 := addSingleParameterIfTypeCorrect L Ty.bool parameter_name value_node r2.2
  if r3.1 then (true, r3.2) else
  let r4 := addSingleParameterIfTypeCorrect L Ty.string parameter_name value_node r3.2
  if r4.1 then (true, r4.2) else
  (false, r4.2)

/-- The element loop of `addParameterVectorIfTypeCorrect<T>`: each parsed element is
written at index `element_count`; `none` is the early `return false`. -/
def vector_loop (L : YamlLib) (T : Ty) :
    List Node → List T.denote → Nat → Option (List T.denote)
  | [], new_parameter_vector, _ => some new_parameter_vector
  | it :: rest, new_parameter_vector, element_count =>
    let r := tryParse L T it T.default_init
    if r.1 then vector_loop L T rest (new_parameter_vector.set element_count r.2) (element_count + 1)
    else none

/-- The template `addParameterVectorIfTypeCorrect<T>`. -/
def addParameterVectorIfTypeCorrect (L : YamlLib) (T : Ty) (parameter_name : String)
    (vector_node : Node) (parameter_interface : ParameterInterface) :
    Bool × ParameterInterface :=
  match vector_loop L T vector_node.seq_items
      (List.replicate vector_node.seq_items.length T.default_init) 0 with
  | some new_parameter_vector =>
    (true, parameter_interface.setParam (T := Ty.vec T) parameter_name new_parameter_vector)
  | none => (false, parameter_interface)

/-- The function `readAndAddParameterVector`. -/
def readAndAddParameterVector (L : YamlLib) (parameter_name : String) (vector_node : Node)
    (parameter_interface : ParameterInterface) : Bool × ParameterInterface :=
  let r1 := addParameterVectorIfTypeCorrect L Ty.int parameter_name vector_node parameter_interface
  if r1.1 then (true, r1.2) else
  let r2 := addParameterVectorIfTypeCorrect L Ty.double parameter_name vector_node r1.2
  if r2.1 then (true, r2.2) else
  let r3 := addParameterVectorIfTypeCorrect L Ty.bool parameter_name vector_node r2.2
  if r3.1 then (true, r3.2) else
  let r4 := addParameterVectorIfTypeCorrect L Ty.string parameter_name vector_node r3.2
  if r4.1 then (true, r4.2) else
  (false, r4.2)

mutual
/-- The function `evaluateNode`: the flag is false when an exception leaves the walk; the
store holds every parameter set before that point. -/
def evaluateNode (L : YamlLib) : Node → String → ParameterInterface → Bool × ParameterInterface
  | .map entries, pfx, parameter_interface => evaluateEntries L entries pfx parameter_interface
  | .null, _, parameter_interface => (true, parameter_interface)
  | .scalar _, _, parameter_interface => (true, parameter_interface)
  | .sequence _, _, parameter_interface => (true, parameter_interface)
/-- The loop of `evaluateNode` over the key-value pairs of a map node; `as_string` of the
key is `node_pair.first.as<std::string>()`, which may throw. -/
def evaluateEntries (L : YamlLib) :
    List (Node × Node) → String → ParameterInterface → Bool × ParameterInterface
  | [], _, parameter_interface => (true, parameter_interface)
  | (first, second) :: rest, pfx, parameter_interface =>
    let r : Bool × ParameterInterface :=
      if second.IsScalar then
        match L.as_string first with
        | some key => readAndAddSingleParameter L (pfx ++ key) second parameter_interface
        | none => (false, parameter_interface)
      else if second.IsSequence then
        match L.as_string first with
        | some key => readAndAddParameterVector L (pfx ++ key) second parameter_interface
        | none => (false, parameter_interface)
      else if second.IsMap then
        match L.as_string first with
        | some key => evaluateNode L second (pfx ++ key ++ "/") parameter_interface
        | none => (false, parameter_interface)
      else (false, parameter_interface)
    if r.1 then evaluateEntries L rest pfx r.2 else r
end

/-- The loop `for (auto& node : parameter_nodes) evaluateNode(node, "", ...)`. -/
def evaluateNodes (L : YamlLib) :
    List Node → ParameterInterface → Bool × ParameterInterface
  | [], parameter_interface => (true, parameter_interface)
  | node :: rest, parameter_interface =>
    let r := evaluateNode L node "" parameter_interface
    if r.1 then evaluateNodes L rest r.2 else r

/-- The entry point `readAndAddParametersFromNode`: the returned flag and the store. -/
def readAndAddParametersFromNode (L : YamlLib) (node : Node)
    (parameter_interface : ParameterInterface) : Bool × ParameterInterface :=
  evaluateNode L node "" parameter_interface

/-- The entry point `readAndAddParametersFromString`: a parser exception of `LoadAll` and
an exception of the walk both give false. -/
def readAndAddParametersFromString (L : YamlLib) (yaml_input_string : YamlText)
    (parameter_interface : ParameterInterface) : Bool × ParameterInterface :=
  match LoadAll yaml_input_string with
  | none => (false, parameter_interface)
  | some parameter_nodes => evaluateNodes L parameter_nodes parameter_interface

/-- The entry point `readAndAddParametersFromFile`; the file content is `none` when the
file cannot be opened, which makes `LoadAllFromFile` throw. -/
def readAndAddParametersFromFile (L : YamlLib) (yaml_file : Option YamlText)
    (parameter_interface : ParameterInterface) : Bool × ParameterInterface :=
  match yaml_file with
  | none => (false, parameter_interface)
  | some content => readAndAddParametersFromString L content parameter_interface

/-! ### The write path -/

/-- The split of a character sequence at every `/`, empty tokens kept: there is always at
least one token. -/
def split_chars : List Char → List (List Char)
  | [] => [[]]
  | c :: cs =>
    if c = '/' then [] :: split_chars cs
    else
      match split_chars cs with
      | t :: ts => (c :: t) :: ts
      | [] => [[c]]

/-- The call `boost::split(new_tokens, param_name, boost::is_any_of("/"))`. -/
def split (param_name : String) : List String :=
  (split_chars param_name.data).map String.mk

/-- The `size_t` expression `v.size() - 1`: it wraps around to `2 ^ 64 - 1` for an empty
vector. -/
def size_minus_one (v : List String) : Nat := if v.length = 0 then 2 ^ 64 - 1 else v.length - 1

/-- The first loop of the writer, which counts the leading tokens shared by the open path
and the new name without its last token.  The arguments are the remaining iteration
budget, the loop index `i` and the current `nr_of_same_tokens`; at most
`open_tokens.size()` iterations can pass the loop condition. -/
def nr_of_same_tokens_loop (open_tokens new_tokens : List String) : Nat → Nat → Nat → Nat
  | 0, _, nr_of_same_tokens => nr_of_same_tokens
  | budget + 1, i, nr_of_same_tokens =>
    if i < open_tokens.length ∧ i < size_minus_one new_tokens ∧
        new_tokens.get? i = open_tokens.get? i then
      nr_of_same_tokens_loop open_tokens new_tokens budget (i + 1) (i + 1)
    else nr_of_same_tokens

/-- The value of `nr_of_same_tokens` after the first loop. -/
def nr_of_same_tokens (open_tokens new_tokens : List String) : Nat :=
  nr_of_same_tokens_loop open_tokens new_tokens open_tokens.length 0 0

/-- The text the emitter writes for an `int`: its decimal digits. -/
def emit_int (i : Int) : String := toString i

/-- The text the emitter writes for a `bool` under `TrueFalseBool` and `LowerCase`. -/
def emit_bool (b : Bool) : String := if b then "true" else "false"

/-- The test `fmod(d, 1) == 0`: the value has no fractional part. -/
def fmod_one_is_zero (d : CDouble) : Bool := decide (d.den = 1)

/-- The text `std::fixed << std::setprecision(1) << d` of a value without fractional part:
its integer digits followed by `.0`. -/
def fixed_precision_one (d : CDouble) : String := toString d.num ++ ".0"

/-- The text `emitDouble` passes to the emitter. -/
def double_text (L : YamlLib) (d : CDouble) : String :=
  if fmod_one_is_zero d then fixed_precision_one d else L.emit_double d

/-- The function `emitDouble`. -/
def emitDouble (L : YamlLib) (d : CDouble) : List Emit := [Emit.Scalar (double_text L d)]

/-- The function `emitDoubleVec`. -/
def emitDoubleVec (L : YamlLib) (double_vec : List CDouble) : List Emit :=
  [Emit.BeginSeq] ++ double_vec.flatMap (emitDouble L) ++ [Emit.EndSeq]

/-- The library operator `emitter << std::vector<T>`: begin a sequence, emit every element,
end the sequence; `text` is the text of one element. -/
def emit_vector {α : Type} (text : α → String) (v : List α) : List Emit :=
  [Emit.BeginSeq] ++ v.flatMap (fun x => [Emit.Scalar (text x)]) ++ [Emit.EndSeq]

/-- Pass the value of the throwing getter to the emitter; an exception propagates. -/
def emit_got {α : Type} (r : Except String α) (emit : α → List Emit) : Option (List Emit) :=
  match r with
  | Except.ok v => some (emit v)
  | Except.error _ => none

/-- The function `appendParameterToYaml`: what is passed to the emitter, or `none` when an
exception is thrown.  The leading `getParam` into `value_as_string` has no effect on it. -/
def appendParameterToYaml (L : YamlLib) (parameter_name : String)
    (parameter_interface : ParameterInterface) : Option (List Emit) :=
  if parameter_interface.hasParamOfType Ty.int parameter_name then
    emit_got (parameter_interface.getParamOrThrow Ty.int parameter_name Ty.int.default_init)
      (fun (v : Int) => [Emit.Scalar (emit_int v)])
  else if parameter_interface.hasParamOfType Ty.double parameter_name then
    emit_got (parameter_interface.getParamOrThrow Ty.double parameter_name Ty.double.default_init)
      (emitDouble L)
  else if parameter_interface.hasParamOfType Ty.string parameter_name then
    emit_got (parameter_interface.getParamOrThrow Ty.string parameter_name Ty.string.default_init)
      (fun (v : String) => [Emit.Scalar v])
  else if parameter_interface.hasParamOfType Ty.bool parameter_name then
    emit_got (parameter_interface.getParamOrThrow Ty.bool parameter_name Ty.bool.default_init)
      (fun (v : Bool) => [Emit.Scalar (emit_bool v)])
  else if parameter_interface.hasParamOfType (Ty.vec Ty.int) parameter_name then
    emit_got (parameter_interface.getParamOrThrow (Ty.vec Ty.int) parameter_name [])
      (fun (v : List Int) => emit_vector emit_int v)
  else if parameter_interface.hasParamOfType (Ty.vec Ty.double) parameter_name then
    emit_got (parameter_interface.getParamOrThrow (Ty.vec Ty.double) parameter_name [])
      (emitDoubleVec L)
  else if parameter_interface.hasParamOfType (Ty.vec Ty.bool) parameter_name then
    emit_got (parameter_interface.getParamOrThrow (Ty.vec Ty.bool) parameter_name [])
      (fun (v : List Bool) => emit_vector emit_bool v)
  else if parameter_interface.hasParamOfType (Ty.vec Ty.string) parameter_name then
    emit_got (parameter_interface.getParamOrThrow (Ty.vec Ty.string) parameter_name [])
      (fun (v : List String) => emit_vector id v)
  else none

/-- The state of the writer loop: what has been passed to the emitter, and `open_tokens`. -/
structure Writer where
  yaml : List Emit
  open_tokens : List String

/-- The tokens closing the maps that are not part of the new path (second loop). -/
def close_maps (open_tokens : List String) (nr : Nat) : List Emit :=
  List.replicate (open_tokens.length - nr) Emit.EndMap

/-- The tokens opening the maps the new path needs (third loop), for `i` from `nr` up to
`new_tokens.size() - 1`. -/
def open_maps (new_tokens : List String) (nr : Nat) : List Emit :=
  (List.range' nr (size_minus_one new_tokens - nr)).flatMap
    (fun i => [Emit.Key, Emit.Scalar (new_tokens.getD i ""), Emit.Value, Emit.BeginMap])

/-- One iteration of the loop over `parameter_names` in `writeParametersToFile`. -/
def write_parameter (L : YamlLib) (parameter_interface : ParameterInterface) (w : Writer)
    (param_name : String) : Option Writer :=
  let new_tokens := split param_name
  let nr := nr_of_same_tokens w.open_tokens new_tokens
  let path := close_maps w.open_tokens nr ++ open_maps new_tokens nr ++
    [Emit.Key, Emit.Scalar (new_tokens.getD (size_minus_one new_tokens) ""), Emit.Value]
  match appendParameterToYaml L param_name parameter_interface with
  | none => none
  | some value => some ⟨w.yaml ++ path ++ value, new_tokens.dropLast⟩

/-- The loop over `parameter_names`. -/
def write_parameters (L : YamlLib) (parameter_interface : ParameterInterface) :
    Writer → List String → Option Writer
  | w, [] => some w
  | w, param_name :: rest =>
    match write_parameter L parameter_interface w param_name with
    | none => none
    | some w1 => write_parameters L parameter_interface w1 rest

/-- The emitter content `yaml.c_str()` at the end of the `try` block of
`writeParametersToFile`, or `none` when an exception was thrown. -/
def yaml_stream (L : YamlLib) (parameter_interface : ParameterInterface) : Option YamlText :=
  match write_parameters L parameter_interface ⟨[Emit.BeginMap], []⟩
      parameter_interface.getAllParameterNames with
  | none => none
  | some w => some (w.yaml ++ List.replicate w.open_tokens.length Emit.EndMap ++ [Emit.EndMap])

/-- The entry point `writeParametersToFile`: the returned flag and the content of the file
afterwards (`none`: nothing was written).  `file_opens` tells whether the output file can
be opened; a stream that failed to open ignores the write and throws nothing. -/
def writeParametersToFile (L : YamlLib) (file_opens : Bool)
    (parameter_interface : ParameterInterface) : Bool × Option YamlText :=
  match yaml_stream L parameter_interface with
  | none => (false, none)
  | some text => (true, if file_opens then some text else none)

end YamlIOHandler

/-! ## A reference instance of the YAML library -/

/-- The value of a decimal digit character. -/
def digit_value (c : Char) : Option Nat :=
  if 48 ≤ c.toNat ∧ c.toNat ≤ 57 then some (c.toNat - 48) else none

/-- Read a run of decimal digits onto an accumulator. -/
def parse_digits : List Char → Nat → Option Nat
  | [], acc => some acc
  | c :: cs, acc =>
    match digit_value c with
    | some d => parse_digits cs (acc * 10 + d)
    | none => none

/-- A non-empty run of decimal digits. -/
def parse_nat (cs : List Char) : Option Nat :=
  match cs with
  | [] => none
  | _ :: _ => parse_digits cs 0

/-- An optional minus sign followed by decimal digits, within the range of a 32-bit `int`. -/
def parse_int (cs : List Char) : Option Int :=
  let r : Option Int :=
    match cs with
    | '-' :: rest => (parse_nat rest).map (fun n => - (n : Int))
    | _ => (parse_nat cs).map (fun n => (n : Int))
  match r with
  | some i => if - 2 ^ 31 ≤ i ∧ i < 2 ^ 31 then some i else none
  | none => none

/-- An unsigned decimal number with an optional fraction part. -/
def parse_decimal (cs : List Char) : Option ℚ :=
  match parse_nat (cs.takeWhile (fun c => c ≠ '.')), cs.dropWhile (fun c => c ≠ '.') with
  | some n, [] => some (n : ℚ)
  | some n, _ :: fs =>
    match parse_nat fs with
    | some f => some ((n : ℚ) + (f : ℚ) / (10 : ℚ) ^ fs.length)
    | none => none
  | none, _ => none

/-- An optional minus sign followed by a decimal number. -/
def parse_double (cs : List Char) : Option ℚ :=
  match cs with
  | '-' :: rest => (parse_decimal rest).map (fun q => - q)
  | _ => parse_decimal cs

/-- The digits of a fraction `r / d` by long division, at most `budget` of them. -/
def fraction_digits : Nat → Nat → Nat → List Char
  | 0, _, _ => []
  | budget + 1, r, d =>
    if r = 0 then [] else Char.ofNat (48 + r * 10 / d) :: fraction_digits budget (r * 10 % d) d

/-- Decimal text of a rational with up to seventeen fraction digits. -/
def decimal_text (q : ℚ) : String :=
  (if q < 0 then "-" else "") ++ toString (q.num.natAbs / q.den) ++ "." ++
    String.mk (fraction_digits 17 (q.num.natAbs % q.den) q.den)

/-- Modelled from the spec: an instance of the external YAML library's scalar conversions.
A scalar is an `int` when its text is a decimal integer, a `double` when it is a decimal
number, a `bool` when it is `true` or `false`, and always a string; no other node
converts. -/
def reference_lib : YamlLib where
  as_int := fun n =>
    match n with
    | .scalar t => parse_int t.data
    | _ => none
  as_double := fun n =>
    match n with
    | .scalar t => parse_double t.data
    | _ => none
  as_bool := fun n =>
    match n with
    | .scalar t => if t = "true" then some true else if t = "false" then some false else none
    | _ => none
  as_string := fun n =>
    match n with
    | .scalar t => some t
    | _ => none
  emit_double := decimal_text

/-! ## Vocabulary for the write-read round trip -/

/-- The invariant of `std::map`: the keys are strictly ascending, each one smaller than
every later one. -/
def ParameterInterface.valid (p : ParameterInterface) : Prop :=
  (p.parameter_set_.map Prod.fst).Pairwise (fun a b => string_less a b = true)

instance (p : ParameterInterface) : Decidable p.valid := by
  unfold ParameterInterface.valid
  infer_instance

/-- The node a stored value of a supported type is loaded as after it has been written: a
scalar with the emitted text, or a sequence of such scalars. -/
def value_node (L : YamlLib) : StdAny → Option Node
  | ⟨.int, i⟩ => some (Node.scalar (YamlIOHandler.emit_int i))
  | ⟨.double, d⟩ => some (Node.scalar (YamlIOHandler.double_text L d))
  | ⟨.string, s⟩ => some (Node.scalar s)
  | ⟨.bool, b⟩ => some (Node.scalar (YamlIOHandler.emit_bool b))
  | ⟨.vec .int, l⟩ =>
    some (Node.sequence (List.map (fun i => Node.scalar (YamlIOHandler.emit_int i)) l))
  | ⟨.vec .double, l⟩ =>
    some (Node.sequence (List.map (fun d => Node.scalar (YamlIOHandler.double_text L d)) l))
  | ⟨.vec .bool, l⟩ =>
    some (Node.sequence (List.map (fun b => Node.scalar (YamlIOHandler.emit_bool b)) l))
  | ⟨.vec .string, l⟩ => some (Node.sequence (List.map (fun s => Node.scalar s) l))
  | _ => none

/-- The token of a sequence item. -/
def item_token : Node → Emit
  | .scalar t => Emit.Scalar t
  | _ => Emit.Null

/-- The tokens of a scalar or of a sequence of scalars. -/
def value_tokens : Node → List Emit
  | .scalar t => [Emit.Scalar t]
  | .sequence items => [Emit.BeginSeq] ++ items.map item_token ++ [Emit.EndSeq]
  | _ => []

/-- A stored value is read back unchanged: its emitted text is accepted by the probe of its
own type with the same value, and rejected by every earlier probe (for a vector: by every
earlier probe on at least one element, so a vector read back under a later type than int
is not empty). -/
def round_trips (L : YamlLib) : StdAny → Bool
  | ⟨.int, i⟩ => decide (L.as_int (Node.scalar (YamlIOHandler.emit_int i)) = some i)
  | ⟨.double, d⟩ =>
    decide (L.as_int (Node.scalar (YamlIOHandler.double_text L d)) = none) &&
    decide (L.as_double (Node.scalar (YamlIOHandler.double_text L d)) = some d)
  | ⟨.bool, b⟩ =>
    decide (L.as_int (Node.scalar (YamlIOHandler.emit_bool b)) = none) &&
    decide (L.as_double (Node.scalar (YamlIOHandler.emit_bool b)) = none) &&
    decide (L.as_bool (Node.scalar (YamlIOHandler.emit_bool b)) = some b)
  | ⟨.string, s⟩ =>
    decide (L.as_int (Node.scalar s) = none) &&
    decide (L.as_double (Node.scalar s) = none) &&
    decide (L.as_bool (Node.scalar s) = none)
  | ⟨.vec .int, l⟩ =>
    List.all l (fun i => decide (L.as_int (Node.scalar (YamlIOHandler.emit_int i)) = some i))
  | ⟨.vec .double, l⟩ =>
    List.any l (fun d => decide (L.as_int (Node.scalar (YamlIOHandler.double_text L d)) = none)) &&
    List.all l (fun d =>
      decide (L.as_double (Node.scalar (YamlIOHandler.double_text L d)) = some d))
  | ⟨.vec .bool, l⟩ =>
    List.any l (fun b => decide (L.as_int (Node.scalar (YamlIOHandler.emit_bool b)) = none)) &&
    List.any l (fun b => decide (L.as_double (Node.scalar (YamlIOHandler.emit_bool b)) = none)) &&
    List.all l (fun b => decide (L.as_bool (Node.scalar (YamlIOHandler.emit_bool b)) = some b))
  | ⟨.vec .string, l⟩ =>
    List.any l (fun s => decide (L.as_int (Node.scalar s) = none)) &&
    List.any l (fun s => decide (L.as_double (Node.scalar s) = none)) &&
    List.any l (fun s => decide (L.as_bool (Node.scalar s) = none))
  | _ => false

/-- An empty vector of one of the four supported element types. -/
def empty_vector : StdAny → Bool
  | ⟨.vec .int, l⟩ => List.isEmpty l
  | ⟨.vec .double, l⟩ => List.isEmpty l
  | ⟨.vec .bool, l⟩ => List.isEmpty l
  | ⟨.vec .string, l⟩ => List.isEmpty l
  | _ => false

/-- Sequencing of two steps of the tree walk: the second runs only if the first did not
throw. -/
def and_then (r : Bool × ParameterInterface)
    (f : ParameterInterface → Bool × ParameterInterface) : Bool × ParameterInterface :=
  if r.1 then f r.2 else r

/-- What `evaluateNode` does with a map entry whose value is a scalar or a sequence, under
the full name of the entry. -/
def read_value (L : YamlLib) (name : String) (nd : Node) (q : ParameterInterface) :
    Bool × ParameterInterface :=
  if nd.IsScalar then YamlIOHandler.readAndAddSingleParameter L name nd q
  else YamlIOHandler.readAndAddParameterVector L name nd q

/-- One iteration of the loop of `evaluateNode` over the entries of a map. -/
def read_entry (L : YamlLib) (pfx : String) (e : Node × Node) (q : ParameterInterface) :
    Bool × ParameterInterface :=
  if e.2.IsScalar then
    match L.as_string e.1 with
    | some key => YamlIOHandler.readAndAddSingleParameter L (pfx ++ key) e.2 q
    | none => (false, q)
  else if e.2.IsSequence then
    match L.as_string e.1 with
    | some key => YamlIOHandler.readAndAddParameterVector L (pfx ++ key) e.2 q
    | none => (false, q)
  else if e.2.IsMap then
    match L.as_string e.1 with
    | some key => YamlIOHandler.evaluateNode L e.2 (pfx ++ key ++ "/") q
    | none => (false, q)
  else (false, q)

/-- The assignment `parameter_set_[name] = a` with the update flag set: `setParam` at the
type of `a`. -/
def set_any (q : ParameterInterface) (name : String) (a : StdAny) : ParameterInterface :=
  q.setParam name a.val

/-- The open map frames below the innermost one, innermost first: the entries read so far
and the key under which the next inner map will be stored. -/
def frames (lower : List (List (Node × Node) × String)) : List Frame :=
  lower.map (fun f => Frame.map f.1 (some (Node.scalar f.2)))

/-- The keys of the open maps, outermost first. -/
def dir_tokens (lower : List (List (Node × Node) × String)) : List String :=
  (lower.map Prod.snd).reverse

/-- The name prefix of a directory path: every token followed by `/`. -/
def dir_path (tokens : List String) : String :=
  tokens.foldl (fun acc t => acc ++ t ++ "/") ""

/-- The effect of walking the entries of all open frames, outermost first, each under the
prefix of its path. -/
def read_lower (L : YamlLib) :
    List (List (Node × Node) × String) → ParameterInterface → Bool × ParameterInterface
  | [], q => (true, q)
  | (es, _) :: ls, q =>
    and_then (read_lower L ls q) (YamlIOHandler.evaluateEntries L es (dir_path (dir_tokens ls)))

/-- The effect of walking the innermost frame after all frames below it. -/
def read_stack (L : YamlLib) (es : List (Node × Node))
    (lower : List (List (Node × Node) × String)) (q : ParameterInterface) :
    Bool × ParameterInterface :=
  and_then (read_lower L lower q) (YamlIOHandler.evaluateEntries L es (dir_path (dir_tokens lower)))

/-- A node the writer can produce for a value: a scalar, or a sequence of scalars. -/
def Node.simple : Node → Bool
  | .scalar _ => true
  | .sequence items => items.all Node.IsScalar
  | _ => false

/-- The inverse of `split_chars`: the tokens joined by `/`. -/
def unsplit_chars : List (List Char) → List Char
  | [] => []
  | [t] => t
  | t :: t2 :: ts => t ++ '/' :: unsplit_chars (t2 :: ts)

/-- The tree walk over a list of leaves in document order: each name read from its value
node, stopping at the first exception. -/
def seq_read (L : YamlLib) (nd : String → Node) :
    List String → ParameterInterface → Bool × ParameterInterface
  | [], q => (true, q)
  | n :: rest, q => and_then (read_value L n (nd n) q) (seq_read L nd rest)

/-- The invariant of the writer loop: the tokens emitted so far load into a stack of open
maps whose keys are `open_tokens`, and walking these maps reads exactly the names written
so far. -/
def writer_inv (L : YamlLib) (nd : String → Node) (w : YamlIOHandler.Writer)
    (done : List String) : Prop :=
  ∃ es lower,
    Builder.run ⟨[], []⟩ w.yaml = some ⟨Frame.map es none :: frames lower, []⟩ ∧
    dir_tokens lower = w.open_tokens ∧
    ∀ q, read_stack L es lower q = seq_read L nd done q

/-- The elements of a sequence converted to `T`, when every conversion succeeds. -/
def parse_all (L : YamlLib) (T : Ty) : List Node → Option (List T.denote)
  | [] => some []
  | it :: rest =>
    match L.node_as T it, parse_all L T rest with
    | some v, some vs => some (v :: vs)
    | _, _ => none

/-- The value a written value is read back as, when it is read back unchanged or is an
empty vector: an empty vector of any supported type is read back as an empty vector of
int. -/
def reread (a : StdAny) : StdAny :=
  if empty_vector a then ⟨Ty.vec Ty.int, ([] : List Int)⟩ else a

/-- The value found under a name of the store. -/
def stored (p : ParameterInterface) (n : String) : StdAny :=
  (map_find p.parameter_set_ n).getD ⟨Ty.int, (0 : Int)⟩

/-- The store after setting, in order, every listed name to the image under `f` of the
value `p` holds for it. -/
def set_all (f : StdAny → StdAny) (p : ParameterInterface) :
    List String → ParameterInterface → ParameterInterface
  | [], q => q
  | n :: rest, q => set_all f p rest (set_any q n (f (stored p n)))

/-- The value `readAndAddSingleParameter` stores for a node: the result of the first
successful conversion in the order int, double, bool, string. -/
def probe_scalar (L : YamlLib) (nd : Node) : Option StdAny :=
  match L.as_int nd, L.as_double nd, L.as_bool nd, L.as_string nd with
  | some i, _, _, _ => some ⟨Ty.int, i⟩
  | none, some d, _, _ => some ⟨Ty.double, d⟩
  | none, none, some b, _ => some ⟨Ty.bool, b⟩
  | none, none, none, some s => some ⟨Ty.string, s⟩
  | none, none, none, none => none

/-- The value `readAndAddParameterVector` stores for the items of a sequence: the vector
of the first type, in the order int, double, bool, string, that converts every item. -/
def probe_vector (L : YamlLib) (items : List Node) : Option StdAny :=
  match parse_all L Ty.int items, parse_all L Ty.double items, parse_all L Ty.bool items,
    parse_all L Ty.string items with
  | some v, _, _, _ => some ⟨Ty.vec Ty.int, v⟩
  | none, some v, _, _ => some ⟨Ty.vec Ty.double, v⟩
  | none, none, some v, _ => some ⟨Ty.vec Ty.bool, v⟩
  | none, none, none, some v => some ⟨Ty.vec Ty.string, v⟩
  | none, none, none, none => none

/-- The value the read path stores for a scalar or sequence node. -/
def probe (L : YamlLib) : Node → Option StdAny
  | .scalar t => probe_scalar L (Node.scalar t)
  | .sequence items => probe_vector L items
  | _ => none

/-- The tokens `appendParameterToYaml` emits for a stored value of a supported type. -/
def emitted (L : YamlLib) (a : StdAny) : Option (List Emit) :=
  (value_node L a).map value_tokens

/-- The value a written value is read back as (the value itself when it is not of a
supported type or no probe accepts its text). -/
def read_back (L : YamlLib) (a : StdAny) : StdAny :=
  ((value_node L a).bind (probe L)).getD a

/-- A stored value is re-emitted unchanged: it is of a supported type, the read path
accepts its emitted text, and emitting the value it is read back as gives the same
tokens. -/
def reemits (L : YamlLib) (a : StdAny) : Bool :=
  match value_node L a with
  | none => false
  | some nd =>
    match probe L nd with
    | none => false
    | some a2 => decide (emitted L a2 = emitted L a)

/-! ## Stores used as concrete inputs -/

/-- A store with an int, a vector of bool, a string and a double under nested names. -/
def sample_store : ParameterInterface :=
  (((ParameterInterface.fresh.setParam (T := Ty.int) "a/b" (1 : Int)).setParam
    (T := Ty.vec Ty.bool) "a/c" [true, false]).setParam
    (T := Ty.string) "d" "x").setParam (T := Ty.double) "e" (4 : ℚ)

/-- A store whose only entry is an empty vector of double. -/
def empty_vector_store : ParameterInterface :=
  ParameterInterface.fresh.setParam (T := Ty.vec Ty.double) "v" ([] : List ℚ)

/-- A store whose only entry is the string `42`. -/
def numeric_string_store : ParameterInterface :=
  ParameterInterface.fresh.setParam (T := Ty.string) "s" "42"

/-- A store whose only entry is the string `4.00`. -/
def padded_string_store : ParameterInterface :=
  ParameterInterface.fresh.setParam (T := Ty.string) "s" "4.00"

/-- A store with an int, an empty vector of double, a string and a string that is the
text of an int, under nested names. -/
def sample_store_with_empty : ParameterInterface :=
  (((ParameterInterface.fresh.setParam (T := Ty.int) "a/b" (1 : Int)).setParam
    (T := Ty.vec Ty.double) "a/v" ([] : List ℚ)).setParam (T := Ty.string) "d" "x").setParam
    (T := Ty.string) "s" "42"

/-! ## Vocabulary for the tree walk of the read path -/

/-- The keys of a path joined by `/`, with no leading or trailing `/`. -/
def join_names : List String → String
  | [] => ""
  | [k] => k
  | k :: k2 :: rest => k ++ "/" ++ join_names (k2 :: rest)

/-- What the tree walk meets at a map entry: a scalar or sequence value with the keys that
lead to it, or a point where the walk throws (a value that is neither scalar, sequence nor
map, or a key that does not convert to a string). -/
inductive Visit where
  | leaf (path : List String) (value : Node)
  | reject

mutual
/-- The entries `evaluateNode` meets in a node, in document order, below the given path. -/
def visit_node (L : YamlLib) : Node → List String → List Visit
  | .map entries, path => visit_entries L entries path
  | .null, _ => []
  | .scalar _, _ => []
  | .sequence _, _ => []
/-- The entries `evaluateNode` meets in the entries of a map, in document order. -/
def visit_entries (L : YamlLib) : List (Node × Node) → List String → List Visit
  | [], _ => []
  | (first, second) :: rest, path =>
    (if second.IsScalar || second.IsSequence then
      match L.as_string first with
      | some key => [Visit.leaf (path ++ [key]) second]
      | none => [Visit.reject]
    else if second.IsMap then
      match L.as_string first with
      | some key => visit_node L second (path ++ [key])
      | none => [Visit.reject]
    else [Visit.reject]) ++ visit_entries L rest path
end

/-- The entries met in a stream of documents, in document order. -/
def visit_docs (L : YamlLib) (docs : List Node) : List Visit :=
  docs.flatMap (fun d => visit_node L d [])

/-- The name and value the read path stores at a visit, when a probe accepts the value. -/
def Visit.stored (L : YamlLib) : Visit → Option (String × StdAny)
  | .leaf path value => (probe L value).map (fun a => (join_names path, a))
  | .reject => none

/-- The walk over a list of visits: every leaf is read under its joined name, and the walk
stops with an exception at the first rejection or the first value no probe accepts. -/
def read_visits (L : YamlLib) : List Visit → ParameterInterface → Bool × ParameterInterface
  | [], q => (true, q)
  | .reject :: _, q => (false, q)
  | .leaf path value :: rest, q =>
    and_then (read_value L (join_names path) value q) (read_visits L rest)

/-- A sequence of `setParam` calls, each given by its name and its typed value, applied in
order. -/
def set_calls : List (String × StdAny) → ParameterInterface → ParameterInterface
  | [], q => q
  | (n, a) :: rest, q => set_calls rest (set_any q n a)

/-- The value of the last call of a sequence of `setParam` calls that sets a name. -/
def last_set : List (String × StdAny) → String → Option StdAny
  | [], _ => none
  | (m, a) :: rest, n =>
    match last_set rest n with
    | some b => some b
    | none => if m = n then some a else none

/-- A call of a public member of `ParameterInterface`; the two getters, `hasParam`,
`hasParamOfType` and `getAllParameterNames` are `const` members. -/
inductive Call where
  | setParam (name : String) (value : StdAny)
  | resetUpdateFlag
  | getParam (T : Ty) (name : String)
  | getParamOrThrow (T : Ty) (name : String)
  | hasParam (name : String)
  | hasParamOfType (T : Ty) (name : String)
  | getAllParameterNames
  | hasBeenUpdated

/-- The store after a call. -/
def Call.apply : Call → ParameterInterface → ParameterInterface
  | .setParam name value, q => set_any q name value
  | .resetUpdateFlag, q => q.resetUpdateFlag
  | .getParam _ _, q => q
  | .getParamOrThrow _ _, q => q
  | .hasParam _, q => q
  | .hasParamOfType _ _, q => q
  | .getAllParameterNames, q => q
  | .hasBeenUpdated, q => q

/-- The store after a sequence of calls. -/
def run_calls : List Call → ParameterInterface → ParameterInterface
  | [], q => q
  | c :: rest, q => run_calls rest (c.apply q)

/-- A call is a `setParam`. -/
def Call.is_set : Call → Bool
  | .setParam _ _ => true
  | _ => false

/-- A call is a `resetUpdateFlag`. -/
def Call.is_reset : Call → Bool
  | .resetUpdateFlag => true
  | _ => false

/-- The visits of one map entry: the part of `visit_entries` for the entry itself. -/
def visit_entry (L : YamlLib) (e : Node × Node) (path : List String) : List Visit :=
  if e.2.IsScalar || e.2.IsSequence then
    match L.as_string e.1 with
    | some key => [Visit.leaf (path ++ [key]) e.2]
    | none => [Visit.reject]
  else if e.2.IsMap then
    match L.as_string e.1 with
    | some key => visit_node L e.2 (path ++ [key])
    | none => [Visit.reject]
  else [Visit.reject]

/-- The value of a leaf visit is a scalar or a sequence. -/
def Visit.shaped : Visit → Bool
  | .leaf _ value => value.IsScalar || value.IsSequence
  | .reject => true

/-- The names and values the read path stores at the visits a probe accepts. -/
def stored_leaves (L : YamlLib) (vs : List Visit) : List (String × StdAny) :=
  vs.filterMap (Visit.stored L)

/-- A scalar or sequence value is reached from a node through a path of keys: the node is
a map with an entry whose key converts to the first key of the path and whose value is
the leaf, or is a map from which the rest of the path reaches the leaf. -/
inductive Reaches (L : YamlLib) : Node → List String → Node → Prop where
  | leaf (es : List (Node × Node)) (k v : Node) (key : String) :
      (k, v) ∈ es → L.as_string k = some key → (v.IsScalar || v.IsSequence) = true →
      Reaches L (Node.map es) [key] v
  | step (es : List (Node × Node)) (k v : Node) (key : String) (ks : List String)
      (leaf : Node) :
      (k, v) ∈ es → L.as_string k = some key → Reaches L v ks leaf →
      Reaches L (Node.map es) (key :: ks) leaf

mutual
/-- A document of the data model: nested maps with scalar keys whose leaves are scalars or
sequences of scalars. -/
def Node.param_tree : Node → Bool
  | .map entries => Node.param_entries entries
  | .null => false
  | .scalar _ => false
  | .sequence _ => false
/-- The entries of a document of the data model. -/
def Node.param_entries : List (Node × Node) → Bool
  | [] => true
  | (first, second) :: rest =>
    first.IsScalar &&
    (if second.IsMap then Node.param_tree second else second.simple) &&
    Node.param_entries rest
end

/-- The document `a: (b: 1, c: [true, false]), d: x` of the end-to-end scenario. -/
def scenario_doc : Node :=
  Node.map
    [(Node.scalar "a",
        Node.map [(Node.scalar "b", Node.scalar "1"),
          (Node.scalar "c", Node.sequence [Node.scalar "true", Node.scalar "false"])]),
      (Node.scalar "d", Node.scalar "x")]

/-- The document `b: 1, v: ~, c: 2`, whose second value is null. -/
def null_value_doc : Node :=
  Node.map
    [(Node.scalar "b", Node.scalar "1"), (Node.scalar "v", Node.null),
      (Node.scalar "c", Node.scalar "2")]

/-- A stream of two documents, `a: 1, b: x` and then `a: true`. -/
def two_docs_text : YamlText :=
  [Emit.BeginMap, Emit.Key, Emit.Scalar "a", Emit.Value, Emit.Scalar "1",
    Emit.Key, Emit.Scalar "b", Emit.Value, Emit.Scalar "x", Emit.EndMap,
    Emit.BeginMap, Emit.Key, Emit.Scalar "a", Emit.Value, Emit.Scalar "true", Emit.EndMap]

/-- The names and values a document stores when it is read on its own. -/
def doc_stores (L : YamlLib) (d : Node) : List (String × StdAny) :=
  stored_leaves L (visit_node L d [])

/-- The visits of the entries of all open frames below the innermost one, outermost
first. -/
def lower_visits (L : YamlLib) : List (List (Node × Node) × String) → List Visit
  | [] => []
  | (es, _) :: ls => lower_visits L ls ++ visit_entries L es (dir_tokens ls)

/-- The visits of the entries of all open frames, the innermost frame last. -/
def stack_visits (L : YamlLib) (es : List (Node × Node))
    (lower : List (List (Node × Node) × String)) : List Visit :=
  lower_visits L lower ++ visit_entries L es (dir_tokens lower)

/-- The invariant of the writer loop on the loaded tree: the tokens emitted so far load
into a stack of open maps whose keys are `open_tokens`, and the leaves of these maps are,
in order, the names written so far, each under the keys its name splits into. -/
def writer_walk_inv (L : YamlLib) (nd : String → Node) (w : YamlIOHandler.Writer)
    (done : List String) : Prop :=
  ∃ es lower,
    Builder.run ⟨[], []⟩ w.yaml = some ⟨Frame.map es none :: frames lower, []⟩ ∧
    dir_tokens lower = w.open_tokens ∧
    stack_visits L es lower = done.map (fun n => Visit.leaf (YamlIOHandler.split n) (nd n))

/-- The name under which a visit stores its value. -/
def Visit.name : Visit → String
  | .leaf path _ => join_names path
  | .reject => ""

/-- The store of the emission-order example: `b/x`, `a/y`, `a/x` set in that order. -/
def order_store : ParameterInterface :=
  ((ParameterInterface.fresh.setParam (T := Ty.int) "b/x" (1 : Int)).setParam
    (T := Ty.int) "a/y" (2 : Int)).setParam (T := Ty.int) "a/x" (3 : Int)

/-! ## Vocabulary for the writer's event stream -/

/-- The eight value types `appendParameterToYaml` has a branch for. -/
def Ty.supported : Ty → Bool
  | .int => true
  | .double => true
  | .string => true
  | .bool => true
  | .vec .int => true
  | .vec .double => true
  | .vec .bool => true
  | .vec .string => true
  | _ => false

/-- A store whose only entry is a `char`. -/
def char_store : ParameterInterface :=
  ParameterInterface.fresh.setParam (T := Ty.char) "c" (97 : Int)

/-- A store with an int and a `size_t`. -/
def size_t_store : ParameterInterface :=
  (ParameterInterface.fresh.setParam (T := Ty.int) "a" (1 : Int)).setParam
    (T := Ty.size_t) "n" (5 : Nat)

/-- The text `{a: {b: 1, c: [true,false]}, d: "x"}` of the end-to-end scenario, as the
token sequence it encodes. -/
def scenario_text : YamlText :=
  [Emit.BeginMap, Emit.Key, Emit.Scalar "a", Emit.Value, Emit.BeginMap,
    Emit.Key, Emit.Scalar "b", Emit.Value, Emit.Scalar "1",
    Emit.Key, Emit.Scalar "c", Emit.Value, Emit.BeginSeq, Emit.Scalar "true",
    Emit.Scalar "false", Emit.EndSeq, Emit.EndMap,
    Emit.Key, Emit.Scalar "d", Emit.Value, Emit.Scalar "x", Emit.EndMap]

/-- The store of the end-to-end scenario: `a/b` the int 1, `a/c` the vector of bool
`true, false`, `d` the string `x`. -/
def scenario_store : ParameterInterface :=
  ((ParameterInterface.fresh.setParam (T := Ty.int) "a/b" (1 : Int)).setParam
    (T := Ty.vec Ty.bool) "a/c" [true, false]).setParam (T := Ty.string) "d" "x"

/-- Where the emitter is inside the document it lays out. -/
inductive Layout where
  | top
  | entry
  | key
  | value
  | seq_first
  | seq_rest

/-- Modelled from the spec: the character text the external emitter produces for what is
passed to it, under the formatting policy of `setEmitterOptions` as the spec states it:
maps in block style with one `key: value` line per entry and 4 spaces of indent per
nesting level, sequences inline as `[a, b]`, plain scalars as their text.  The arguments
are the nesting depth and the position in the layout. -/
def render : Nat → Layout → YamlText → String
  | _, _, [] => ""
  | d, .top, Emit.BeginMap :: r => render d Layout.entry r
  | d, _, Emit.BeginMap :: r => "\n" ++ render (d + 1) Layout.entry r
  | d, _, Emit.EndMap :: r => render (d - 1) Layout.entry r
  | d, _, Emit.Key :: r => String.mk (List.replicate (4 * d) ' ') ++ render d Layout.key r
  | d, _, Emit.Value :: r => render d Layout.value r
  | d, .key, Emit.Scalar t :: r => t ++ ":" ++ render d Layout.key r
  | d, .seq_first, Emit.Scalar t :: r => t ++ render d Layout.seq_rest r
  | d, .seq_rest, Emit.Scalar t :: r => ", " ++ t ++ render d Layout.seq_rest r
  | d, _, Emit.Scalar t :: r => " " ++ t ++ "\n" ++ render d Layout.entry r
  | d, _, Emit.BeginSeq :: r => " [" ++ render d Layout.seq_first r
  | d, _, Emit.EndSeq :: r => "]\n" ++ render d Layout.entry r
  | d, m, Emit.Null :: r => render d m r

namespace YamlIOHandler

/-- The first loop of the writer with the vector accesses checked: `none` stands for an
access `new_tokens[i]` or `open_tokens[i]` outside the vector. -/
def nr_of_same_tokens_loop_checked (open_tokens new_tokens : List String) :
    Nat → Nat → Nat → Option Nat
  | 0, _, nr_of_same_tokens => some nr_of_same_tokens
  | budget + 1, i, nr_of_same_tokens =>
    if i < open_tokens.length ∧ i < size_minus_one new_tokens then
      match new_tokens.get? i, open_tokens.get? i with
      | some a, some b =>
        if a = b then nr_of_same_tokens_loop_checked open_tokens new_tokens budget (i + 1) (i + 1)
        else some nr_of_same_tokens
      | _, _ => none
    else some nr_of_same_tokens

/-- The value of `nr_of_same_tokens` after the first loop, `none` when the loop reads
outside a vector. -/
def nr_of_same_tokens_checked (open_tokens new_tokens : List String) : Option Nat :=
  nr_of_same_tokens_loop_checked open_tokens new_tokens open_tokens.length 0 0

/-- The third loop of the writer with the accesses `new_tokens[i]` checked. -/
def open_maps_checked (new_tokens : List String) (nr : Nat) : Option (List Emit) :=
  (List.range' nr (size_minus_one new_tokens - nr)).foldr
    (fun i acc =>
      match new_tokens.get? i, acc with
      | some t, some r => some ([Emit.Key, Emit.Scalar t, Emit.Value, Emit.BeginMap] ++ r)
      | _, _ => none)
    (some [])

/-- The access `new_tokens[new_tokens.size() - 1]`, checked. -/
def leaf_key_checked (new_tokens : List String) : Option String :=
  new_tokens.get? (size_minus_one new_tokens)

/-- The call `new_tokens.pop_back()`, which requires a non-empty vector. -/
def pop_back_checked : List String → Option (List String)
  | [] => none
  | t :: ts => some (t :: ts).dropLast

end YamlIOHandler

/-- The number of maps open after a stream of events, starting from `d` open maps; `none`
when a map end or a key is emitted while no map is open. -/
def depth_run : Nat → YamlText → Option Nat
  | d, [] => some d
  | d, Emit.BeginMap :: r => depth_run (d + 1) r
  | d, Emit.EndMap :: r => if d = 0 then none else depth_run (d - 1) r
  | d, Emit.Key :: r => if d = 0 then none else depth_run d r
  | d, Emit.BeginSeq :: r => depth_run d r
  | d, Emit.EndSeq :: r => depth_run d r
  | d, Emit.Value :: r => depth_run d r
  | d, Emit.Null :: r => depth_run d r
  | d, Emit.Scalar _ :: r => depth_run d r

/-- An event stream is well nested: at every point at most as many map ends as map begins
have been emitted, every key is emitted while a map is open, and at the end the two counts
are equal. -/
def well_nested (text : YamlText) : Prop :=
  (∀ pre post, text = pre ++ post → pre.count Emit.EndMap ≤ pre.count Emit.BeginMap) ∧
  (∀ pre post, text = pre ++ Emit.Key :: post →
    pre.count Emit.EndMap < pre.count Emit.BeginMap) ∧
  text.count Emit.EndMap = text.count Emit.BeginMap

/-- The key a map under construction has read and not yet received the value of. -/
def Frame.pending_key : Frame → Option Node
  | .map _ (some k) => some k
  | _ => none

/-- The keys under which the open collections of a loader stack will be stored, outermost
first: for a stack whose innermost map waits for a value, the keys of the open maps below
the root followed by the key waiting for its value. -/
def open_keys (stack : List Frame) : List Node :=
  (stack.filterMap Frame.pending_key).reverse

/-- The maps an event stream opens, in order, each given by the keys that lead to it from
the root (the root map by the empty path). -/
def opened_maps : Builder → YamlText → List (List Node)
  | _, [] => []
  | b, e :: rest =>
    match Builder.step b e with
    | none => []
    | some b1 =>
      (match e with
        | Emit.BeginMap => [open_keys b.stack]
        | _ => []) ++ opened_maps b1 rest

/-- The paths obtained by extending a base path by one more token of a list at a time. -/
def new_dirs (base : List String) : List String → List (List String)
  | [] => []
  | t :: ts => (base ++ [t]) :: new_dirs (base ++ [t]) ts

/-- The directory of a name: its tokens without the last one. -/
def dir_of (name : String) : List String := (YamlIOHandler.split name).dropLast

/-- The directories the third loop of the writer opens for a name, given `open_tokens`: the
prefixes of the name's directory longer than `nr_of_same_tokens`. -/
def step_dirs (open_tokens : List String) (name : String) : List (List String) :=
  new_dirs ((dir_of name).take
      (YamlIOHandler.nr_of_same_tokens open_tokens (YamlIOHandler.split name)))
    ((dir_of name).drop
      (YamlIOHandler.nr_of_same_tokens open_tokens (YamlIOHandler.split name)))

/-- The directories the writer opens over a list of names, in order, starting from the
given `open_tokens`. -/
def opened_dirs : List String → List String → List (List String)
  | _, [] => []
  | open_tokens, name :: rest => step_dirs open_tokens name ++ opened_dirs (dir_of name) rest

/-- The directory prefixes of a name: the non-empty proper prefixes of its token list. -/
def dir_prefixes (name : String) : List (List String) :=
  (dir_of name).inits.filter (fun P => !P.isEmpty)

/-- The distinct directory prefixes of a list of names. -/
def directories (names : List String) : List (List String) :=
  (names.flatMap dir_prefixes).dedup

/-- A store holding an int under each of the given names. -/
def store_of_names (names : List String) : ParameterInterface :=
  ⟨false, names.map (fun n => (n, ⟨Ty.int, (0 : Int)⟩))⟩

/-- The invariant of the writer loop on the loader stack: the tokens emitted so far load
into a stack of open maps whose keys are `open_tokens`, and the maps opened so far are the
root and the given directories. -/
def writer_stack_inv (w : YamlIOHandler.Writer) (dirs : List (List String)) : Prop :=
  ∃ es lower,
    Builder.run ⟨[], []⟩ w.yaml = some ⟨Frame.map es none :: frames lower, []⟩ ∧
    dir_tokens lower = w.open_tokens ∧
    opened_maps ⟨[], []⟩ w.yaml = [] :: dirs.map (List.map Node.scalar)

open ParameterInterface YamlIOHandler

/-! ## Lemmas on the map container and the typed getters -/

theorem any_cast_of {T : Ty} (v : T.denote) (h : isType T (StdAny.of v) = true) :
    any_cast T (StdAny.of v) h = v := rfl

theorem isType_of (T : Ty) (v : T.denote) : isType T (StdAny.of v) = true := by
  simp [isType, StdAny.of]

theorem isType_iff (T : Ty) (a : StdAny) : isType T a = true ↔ a.ty = T := by
  simp [isType]

theorem map_find_assign_self (l : List (String × StdAny)) (k : String) (v : StdAny) :
    map_find (map_assign l k v) k = some v := by
  induction l with
  | nil => simp [map_assign, map_find]
  | cons e rest ih =>
    obtain ⟨k1, v1⟩ := e
    unfold map_assign
    by_cases h1 : k1 = k
    · simp [h1, map_find]
    · by_cases h2 : string_less k k1 = true
      · simp [h1, h2, map_find]
      · simp [h1, h2, map_find, ih]

theorem map_find_assign_other (l : List (String × StdAny)) (k k2 : String) (v : StdAny)
    (hne : k2 ≠ k) : map_find (map_assign l k v) k2 = map_find l k2 := by
  induction l with
  | nil => simp [map_assign, map_find, Ne.symm hne]
  | cons e rest ih =>
    obtain ⟨k1, v1⟩ := e
    unfold map_assign
    by_cases h1 : k1 = k
    · subst h1
      simp [map_find, Ne.symm hne]
    · by_cases h2 : string_less k k1 = true
      · simp [h1, h2, map_find, Ne.symm hne]
      · simp [h1, h2, map_find, ih]

theorem getParamImpl_of_find_none (T : Ty) (p : ParameterInterface) (n : String)
    (out : T.denote) (h : map_find p.parameter_set_ n = none) :
    getParamImpl T p n out = (false, out) := by
  simp [getParamImpl, h]

theorem getParamImpl_of_find_same (T : Ty) (p : ParameterInterface) (n : String)
    (out v : T.denote) (h : map_find p.parameter_set_ n = some (StdAny.of v)) :
    getParamImpl T p n out = (true, v) := by
  simp [getParamImpl, h, isType_of, any_cast_of]

theorem getParamImpl_of_find_int (T : Ty) (p : ParameterInterface) (n : String)
    (out : T.denote) (i : Int) (hT : T ≠ Ty.int) (hc : is_convertible_int T = true)
    (h : map_find p.parameter_set_ n = some (StdAny.of (T := Ty.int) i)) :
    getParamImpl T p n out = (true, static_cast_int T hc i) := by
  have h1 : isType T (StdAny.of (T := Ty.int) i) = false := by
    simp [isType, StdAny.of, Ne.symm hT]
  have h2 : isType Ty.int (StdAny.of (T := Ty.int) i) = true := isType_of Ty.int i
  simp [getParamImpl, h, h1, h2, hc, any_cast_of]

theorem getParamImpl_of_find_other (T : Ty) (p : ParameterInterface) (n : String)
    (out : T.denote) (a : StdAny) (hT : a.ty ≠ T) (hi : a.ty ≠ Ty.int)
    (h : map_find p.parameter_set_ n = some a) :
    getParamImpl T p n out = (is_convertible_int T, out) := by
  have h1 : isType T a = false := by simp [isType, hT]
  have h2 : isType Ty.int a = false := by simp [isType, hi]
  cases hc : is_convertible_int T <;> simp [getParamImpl, h, h1, h2, hc]

theorem getParamImpl_no_convert (T : Ty) (p : ParameterInterface) (n : String)
    (out : T.denote) (a : StdAny) (hT : a.ty ≠ T) (hc : is_convertible_int T = false)
    (h : map_find p.parameter_set_ n = some a) :
    getParamImpl T p n out = (false, out) := by
  have h1 : isType T a = false := by simp [isType, hT]
  simp [getParamImpl, h, h1, hc]

theorem find_setParam_self (T : Ty) (p : ParameterInterface) (n : String) (v : T.denote) :
    map_find (p.setParam n v).parameter_set_ n = some (StdAny.of v) := by
  simp [setParam, map_find_assign_self]

theorem map_find_eq_none_iff (l : List (String × StdAny)) (k : String) :
    map_find l k = none ↔ k ∉ l.map Prod.fst := by
  induction l with
  | nil => simp [map_find]
  | cons e rest ih =>
    obtain ⟨k1, v1⟩ := e
    by_cases h : k1 = k
    · simp [map_find, h]
    · simp [map_find, h, ih, Ne.symm h]

theorem hasParamOfType_iff (T : Ty) (p : ParameterInterface) (n : String) :
    hasParamOfType T p n = true ↔
      ∃ a, map_find p.parameter_set_ n = some a ∧
        (a.ty = T ∨ (a.ty = Ty.int ∧ is_convertible_int T = true)) := by
  unfold hasParamOfType
  cases h : map_find p.parameter_set_ n with
  | none => simp
  | some a =>
    simp only [Bool.or_eq_true, Bool.and_eq_true, isType_iff, Option.some.injEq,
      exists_eq_left']
    tauto

/-! ## The parameter store: typed reads and writes -/

/-- C1: after `setParam(n, v)` with `v` of type `T`, the two-argument `getParam<T>(n, out)`
returns true and leaves `out` equal to `v`, and `hasParam(n)` is true, for every store,
name, type and value. -/
theorem C1_get_after_set (p : ParameterInterface) (n : String) (T : Ty) (v out : T.denote) :
    getParam T (p.setParam n v) n out = (true, v) ∧ hasParam (p.setParam n v) n = true := by
  constructor
  · exact getParamImpl_of_find_same T _ n out v (find_setParam_self T p n v)
  · simp [hasParam, find_setParam_self T]

/-- C2 (the code at the failing input): when `n` holds a `double`, the two-argument
`getParam<int>(n, out)` returns true, not false, and leaves `out` as it was. -/
theorem C2_double_read_as_int (p : ParameterInterface) (n : String) (d : CDouble) (out : Int) :
    getParam Ty.int (p.setParam (T := Ty.double) n d) n out = (true, out) := by
  have h := getParamImpl_of_find_other Ty.int (p.setParam (T := Ty.double) n d) n out
    (StdAny.of (T := Ty.double) d) (by simp [StdAny.of]) (by simp [StdAny.of])
    (find_setParam_self Ty.double p n d)
  simpa [getParam, is_convertible_int] using h

/-- C3: after `setParam(n, i)` with an `int` `i`, `getParam<double>(n, out)` returns true
with `out` the exact conversion of `i` (42 gives 42.0); the read also succeeds, with the
converted value, for `size_t` and `char`, and returns false for `std::string`, leaving
`out` as it was. -/
theorem C3_int_widening (p : ParameterInterface) (n : String) (i : Int) :
    (∀ out : CDouble, getParam Ty.double (p.setParam (T := Ty.int) n i) n out = (true, (i : ℚ))) ∧
    getParam Ty.double (fresh.setParam (T := Ty.int) "test_int" (42 : Int)) "test_int" (0 : ℚ)
      = (true, (42 : ℚ)) ∧
    (∀ out : Nat, getParam Ty.size_t (p.setParam (T := Ty.int) n i) n out
      = (true, (i % 2 ^ 64).toNat)) ∧
    (∀ out : Int, getParam Ty.char (p.setParam (T := Ty.int) n i) n out
      = (true, (i + 128) % 256 - 128)) ∧
    (∀ out : String, getParam Ty.string (p.setParam (T := Ty.int) n i) n out = (false, out)) := by
  refine ⟨fun out => ?_, ?_, fun out => ?_, fun out => ?_, fun out => ?_⟩
  · exact getParamImpl_of_find_int Ty.double _ n out i (by decide) rfl (find_setParam_self Ty.int p n i)
  · have h := getParamImpl_of_find_int Ty.double (fresh.setParam (T := Ty.int) "test_int" (42 : Int))
      "test_int" (0 : ℚ) 42 (by decide) rfl (find_setParam_self Ty.int fresh "test_int" (42 : Int))
    simpa [getParam, static_cast_int] using h
  · exact getParamImpl_of_find_int Ty.size_t _ n out i (by decide) rfl (find_setParam_self Ty.int p n i)
  · exact getParamImpl_of_find_int Ty.char _ n out i (by decide) rfl (find_setParam_self Ty.int p n i)
  · exact getParamImpl_no_convert Ty.string _ n out (StdAny.of (T := Ty.int) i)
      (by simp [StdAny.of]) rfl (find_setParam_self Ty.int p n i)

/-- C4 (the code at the failing inputs): the throwing `getParam<T>(n)` raises no error for
a stored string read as `bool` or a stored `double` read as `int`; it returns the content
of its default-initialised local. -/
theorem C4_no_throw_on_mismatch (p : ParameterInterface) (n : String) :
    (∀ (s : String) (uninit : Bool),
      getParamOrThrow Ty.bool (p.setParam (T := Ty.string) n s) n uninit = Except.ok uninit) ∧
    (∀ (d : CDouble) (uninit : Int),
      getParamOrThrow Ty.int (p.setParam (T := Ty.double) n d) n uninit = Except.ok uninit) := by
  constructor
  · intro s uninit
    have h := getParamImpl_of_find_other Ty.bool (p.setParam (T := Ty.string) n s) n uninit
      (StdAny.of (T := Ty.string) s) (by simp [StdAny.of]) (by simp [StdAny.of])
      (find_setParam_self Ty.string p n s)
    simp [getParamOrThrow, h, is_convertible_int]
  · intro d uninit
    have h := getParamImpl_of_find_other Ty.int (p.setParam (T := Ty.double) n d) n uninit
      (StdAny.of (T := Ty.double) d) (by simp [StdAny.of]) (by simp [StdAny.of])
      (find_setParam_self Ty.double p n d)
    simp [getParamOrThrow, h, is_convertible_int]

/-- C5: for a name that is not a key of the store, `hasParam` is false, the two-argument
`getParam<T>` returns false and leaves `out` as it was, and the throwing `getParam<T>`
raises its error. -/
theorem C5_absent_name (p : ParameterInterface) (name : String) (T : Ty) (out : T.denote)
    (habsent : name ∉ p.parameter_set_.map Prod.fst) :
    hasParam p name = false ∧
    getParam T p name out = (false, out) ∧
    getParamOrThrow T p name out
      = Except.error ("Parameter \"" ++ name ++ " was not found") := by
  have h : map_find p.parameter_set_ name = none := (map_find_eq_none_iff _ _).2 habsent
  refine ⟨by simp [hasParam, h], getParamImpl_of_find_none T p name out h, ?_⟩
  simp [getParamOrThrow, getParamImpl_of_find_none T p name out h]

/-- Witness for C5: the name `missing` in a fresh store, read as `int` into 7. -/
theorem C5_absent_name_witness :
    "missing" ∉ (fresh).parameter_set_.map Prod.fst ∧
    (hasParam fresh "missing" = false ∧
     getParam Ty.int fresh "missing" (7 : Int) = (false, (7 : Int)) ∧
     getParamOrThrow Ty.int fresh "missing" (7 : Int)
       = Except.error ("Parameter \"" ++ "missing" ++ " was not found")) :=
  ⟨by decide, C5_absent_name fresh "missing" Ty.int (7 : Int) (by decide)⟩

/-- C6: `hasParamOfType<T>(n)` is true exactly when `n` is present and its stored type is
`T`, or is `int` with `int` convertible to `T`; on the store of `HasParamTest` it is true
for int on `test_int`, string on `test_string`, vector of int on `test_vector_int`, and
false for string on `test_int`, bool on `test_string`, int and vector of bool on
`test_vector_int`. -/
theorem C6_hasParamOfType :
    (∀ (T : Ty) (p : ParameterInterface) (n : String),
      hasParamOfType T p n = true ↔
        ∃ a, map_find p.parameter_set_ n = some a ∧
          (a.ty = T ∨ (a.ty = Ty.int ∧ is_convertible_int T = true))) ∧
    (let s := ((fresh.setParam (T := Ty.int) "test_int" (42 : Int)).setParam
        (T := Ty.string) "test_string" "test").setParam
        (T := Ty.vec Ty.int) "test_vector_int" ([0, 1, 2, 3] : List Int)
     hasParamOfType Ty.int s "test_int" = true ∧
     hasParamOfType Ty.string s "test_string" = true ∧
     hasParamOfType (Ty.vec Ty.int) s "test_vector_int" = true ∧
     hasParamOfType Ty.string s "test_int" = false ∧
     hasParamOfType Ty.bool s "test_string" = false ∧
     hasParamOfType Ty.int s "test_vector_int" = false ∧
     hasParamOfType (Ty.vec Ty.bool) s "test_vector_int" = false) :=
  ⟨hasParamOfType_iff, by decide⟩

/-- C7: when `n` holds a vector of int, `getParam<vector<double>>(n, out)` returns false,
and when `n` holds an int, `getParam<vector<int>>(n, out)` returns false; `out` is left as
it was in both cases. -/
theorem C7_vectors_never_widen (p : ParameterInterface) (n : String) :
    (∀ (l : List Int) (out : List CDouble),
      map_find p.parameter_set_ n = some (StdAny.of (T := Ty.vec Ty.int) l) →
      getParam (Ty.vec Ty.double) p n out = (false, out)) ∧
    (∀ (i : Int) (out : List Int),
      map_find p.parameter_set_ n = some (StdAny.of (T := Ty.int) i) →
      getParam (Ty.vec Ty.int) p n out = (false, out)) := by
  constructor
  · intro l out h
    exact getParamImpl_no_convert (Ty.vec Ty.double) p n out _ (by simp [StdAny.of]) rfl h
  · intro i out h
    exact getParamImpl_no_convert (Ty.vec Ty.int) p n out _ (by simp [StdAny.of]) rfl h

/-- Witness for C7: a store holding the vector 3, 2, 6 and one holding the int 42. -/
theorem C7_vectors_never_widen_witness :
    getParam (Ty.vec Ty.double)
        (fresh.setParam (T := Ty.vec Ty.int) "n" ([3, 2, 6] : List Int)) "n" [(1 : ℚ)]
      = (false, [(1 : ℚ)]) ∧
    getParam (Ty.vec Ty.int) (fresh.setParam (T := Ty.int) "n" (42 : Int)) "n" [(5 : Int)]
      = (false, [(5 : Int)]) :=
  ⟨(C7_vectors_never_widen (fresh.setParam (T := Ty.vec Ty.int) "n" ([3, 2, 6] : List Int)) "n").1
      ([3, 2, 6] : List Int) [(1 : ℚ)] (by decide),
   (C7_vectors_never_widen (fresh.setParam (T := Ty.int) "n" (42 : Int)) "n").2
      (42 : Int) [(5 : Int)] (by decide)⟩

/-! ## The read path: typed scalar parse -/

theorem addSingle_eq (L : YamlLib) (T : Ty) (name : String) (node : Node)
    (p : ParameterInterface) :
    addSingleParameterIfTypeCorrect L T name node p =
      match L.node_as T node with
      | some v => (true, p.setParam name v)
      | none => (false, p) := by
  unfold addSingleParameterIfTypeCorrect tryParse
  cases L.node_as T node <;> simp

theorem readAndAddSingleParameter_eq (L : YamlLib) (name : String) (node : Node)
    (p : ParameterInterface) :
    readAndAddSingleParameter L name node p =
      match L.as_int node, L.as_double node, L.as_bool node, L.as_string node with
      | some i, _, _, _ => (true, p.setParam (T := Ty.int) name i)
      | none, some d, _, _ => (true, p.setParam (T := Ty.double) name d)
      | none, none, some b, _ => (true, p.setParam (T := Ty.bool) name b)
      | none, none, none, some s => (true, p.setParam (T := Ty.string) name s)
      | none, none, none, none => (false, p) := by
  unfold readAndAddSingleParameter
  simp only [addSingle_eq, YamlLib.node_as]
  cases L.as_int node <;> cases L.as_double node <;> cases L.as_bool node <;>
    cases L.as_string node <;> simp

/-- C10: the typed scalar parse stores the scalar under the first of int, double, bool,
string whose conversion succeeds, by exactly one `setParam` on the given store, and throws
(flag false, store unchanged) when none succeeds; with the reference conversions the text
`42` is stored as int, `1.0` as double, `true` and `false` as bool, `apple` as string. -/
theorem C10_scalar_probe_order :
    (∀ (L : YamlLib) (name : String) (node : Node) (p : ParameterInterface),
      readAndAddSingleParameter L name node p =
        match L.as_int node, L.as_double node, L.as_bool node, L.as_string node with
        | some i, _, _, _ => (true, p.setParam (T := Ty.int) name i)
        | none, some d, _, _ => (true, p.setParam (T := Ty.double) name d)
        | none, none, some b, _ => (true, p.setParam (T := Ty.bool) name b)
        | none, none, none, some s => (true, p.setParam (T := Ty.string) name s)
        | none, none, none, none => (false, p)) ∧
    (∀ p : ParameterInterface,
      readAndAddSingleParameter reference_lib "test_int" (Node.scalar "42") p
        = (true, p.setParam (T := Ty.int) "test_int" (42 : Int)) ∧
      readAndAddSingleParameter reference_lib "test_double" (Node.scalar "1.0") p
        = (true, p.setParam (T := Ty.double) "test_double" (1 : ℚ)) ∧
      readAndAddSingleParameter reference_lib "test_bool" (Node.scalar "true") p
        = (true, p.setParam (T := Ty.bool) "test_bool" true) ∧
      readAndAddSingleParameter reference_lib "test_bool" (Node.scalar "false") p
        = (true, p.setParam (T := Ty.bool) "test_bool" false) ∧
      readAndAddSingleParameter reference_lib "test_string" (Node.scalar "apple") p
        = (true, p.setParam (T := Ty.string) "test_string" "apple")) := by
  refine ⟨readAndAddSingleParameter_eq, fun p => ⟨?_, ?_, ?_, ?_, ?_⟩⟩
  · have h1 : reference_lib.as_int (Node.scalar "42") = some 42 := by decide
    rw [readAndAddSingleParameter_eq, h1]
  · have h1 : reference_lib.as_int (Node.scalar "1.0") = none := by decide
    have h2 : reference_lib.as_double (Node.scalar "1.0") = some 1 := by
      with_unfolding_all decide
    rw [readAndAddSingleParameter_eq, h1, h2]
  · have h1 : reference_lib.as_int (Node.scalar "true") = none := by decide
    have h2 : reference_lib.as_double (Node.scalar "true") = none := by decide
    have h3 : reference_lib.as_bool (Node.scalar "true") = some true := by decide
    rw [readAndAddSingleParameter_eq, h1, h2, h3]
  · have h1 : reference_lib.as_int (Node.scalar "false") = none := by decide
    have h2 : reference_lib.as_double (Node.scalar "false") = none := by decide
    have h3 : reference_lib.as_bool (Node.scalar "false") = some false := by decide
    rw [readAndAddSingleParameter_eq, h1, h2, h3]
  · have h1 : reference_lib.as_int (Node.scalar "apple") = none := by decide
    have h2 : reference_lib.as_double (Node.scalar "apple") = none := by decide
    have h3 : reference_lib.as_bool (Node.scalar "apple") = none := by decide
    have h4 : reference_lib.as_string (Node.scalar "apple") = some "apple" := by decide
    rw [readAndAddSingleParameter_eq, h1, h2, h3, h4]

/-! ## The loader and the tree walk on the writer's token stream -/

theorem and_then_ok (q : ParameterInterface)
    (f : ParameterInterface → Bool × ParameterInterface) : and_then (true, q) f = f q := rfl

theorem and_then_assoc (r : Bool × ParameterInterface)
    (f g : ParameterInterface → Bool × ParameterInterface) :
    and_then (and_then r f) g = and_then r (fun q => and_then (f q) g) := by
  obtain ⟨b, q⟩ := r
  cases b <;> simp [and_then]

theorem and_then_pure (r : Bool × ParameterInterface) :
    and_then r (fun q => (true, q)) = r := by
  obtain ⟨b, q⟩ := r
  cases b <;> simp [and_then]

theorem Builder.run_append (b : Builder) (xs ys : YamlText) :
    Builder.run b (xs ++ ys) = (Builder.run b xs).bind (fun b1 => Builder.run b1 ys) := by
  induction xs generalizing b with
  | nil => simp [Builder.run]
  | cons x xs ih =>
    simp only [List.cons_append, Builder.run]
    cases h : Builder.step b x with
    | none => simp
    | some b1 => simp [ih]

theorem evaluateEntries_nil (L : YamlLib) (pfx : String) (q : ParameterInterface) :
    evaluateEntries L [] pfx q = (true, q) := by
  simp [evaluateEntries]

theorem evaluateEntries_cons (L : YamlLib) (e : Node × Node) (rest : List (Node × Node))
    (pfx : String) (q : ParameterInterface) :
    evaluateEntries L (e :: rest) pfx q
      = and_then (read_entry L pfx e q) (evaluateEntries L rest pfx) := by
  obtain ⟨k, v⟩ := e
  rw [evaluateEntries]
  rfl

theorem evaluateEntries_append (L : YamlLib) (es es2 : List (Node × Node)) (pfx : String)
    (q : ParameterInterface) :
    evaluateEntries L (es ++ es2) pfx q
      = and_then (evaluateEntries L es pfx q) (evaluateEntries L es2 pfx) := by
  induction es generalizing q with
  | nil => simp [evaluateEntries_nil, and_then]
  | cons e es ih =>
    rw [List.cons_append, evaluateEntries_cons, evaluateEntries_cons, and_then_assoc]
    congr 1
    funext q1
    exact ih q1

theorem evaluateEntries_snoc (L : YamlLib) (es : List (Node × Node)) (e : Node × Node)
    (pfx : String) (q : ParameterInterface) :
    evaluateEntries L (es ++ [e]) pfx q
      = and_then (evaluateEntries L es pfx q) (read_entry L pfx e) := by
  rw [evaluateEntries_append]
  congr 1
  funext q1
  rw [evaluateEntries_cons]
  have h : evaluateEntries L [] pfx = fun q => (true, q) := by
    funext q2
    exact evaluateEntries_nil L pfx q2
  rw [h]
  exact and_then_pure _

theorem evaluateNode_map (L : YamlLib) (es : List (Node × Node)) (pfx : String)
    (q : ParameterInterface) :
    evaluateNode L (Node.map es) pfx q = evaluateEntries L es pfx q := by
  rw [evaluateNode]

/-! ### Splitting a name and joining it again -/

theorem split_chars_ne_nil (cs : List Char) : split_chars cs ≠ [] := by
  induction cs with
  | nil => simp [split_chars]
  | cons c cs ih =>
    unfold split_chars
    split
    · simp
    · split <;> simp

theorem unsplit_split_chars (cs : List Char) : unsplit_chars (split_chars cs) = cs := by
  induction cs with
  | nil => simp [split_chars, unsplit_chars]
  | cons c cs ih =>
    unfold split_chars
    by_cases hc : c = '/'
    · simp only [hc, if_true]
      cases h : split_chars cs with
      | nil => exact absurd h (split_chars_ne_nil cs)
      | cons t ts =>
        rw [h] at ih
        simp [unsplit_chars, ih]
    · simp only [hc, if_false]
      cases h : split_chars cs with
      | nil => exact absurd h (split_chars_ne_nil cs)
      | cons t ts =>
        rw [h] at ih
        cases ts with
        | nil =>
          simp only [unsplit_chars] at ih ⊢
          rw [ih]
        | cons t2 ts2 =>
          simp only [unsplit_chars] at ih ⊢
          rw [← ih]
          simp

theorem unsplit_chars_eq (ts : List (List Char)) (h : ts ≠ []) :
    unsplit_chars ts
      = (ts.dropLast.flatMap (fun t => t ++ ['/'])) ++ ts.getLast h := by
  induction ts with
  | nil => exact absurd rfl h
  | cons t ts ih =>
    cases ts with
    | nil => simp [unsplit_chars]
    | cons t2 ts2 =>
      have ih2 := ih (by simp)
      simp only [unsplit_chars, List.dropLast_cons₂, List.flatMap_cons, List.getLast_cons_cons]
        at ih2 ⊢
      rw [ih2]
      simp

theorem dir_path_data_aux (toks : List String) (acc : String) :
    (toks.foldl (fun acc t => acc ++ t ++ "/") acc).data
      = acc.data ++ toks.flatMap (fun t => t.data ++ ['/']) := by
  induction toks generalizing acc with
  | nil => simp
  | cons t ts ih =>
    simp only [List.foldl_cons, List.flatMap_cons]
    rw [ih]
    simp [String.data_append]

theorem dir_path_data (toks : List String) :
    (dir_path toks).data = toks.flatMap (fun t => t.data ++ ['/']) := by
  unfold dir_path
  rw [dir_path_data_aux]
  simp

theorem split_ne_nil (s : String) : split s ≠ [] := by
  simp [split, split_chars_ne_nil]

theorem dir_path_split (s : String) :
    dir_path (split s).dropLast ++ (split s).getLast (split_ne_nil s) = s := by
  apply String.ext
  rw [String.data_append, dir_path_data]
  have h := unsplit_chars_eq (split_chars s.data) (split_chars_ne_nil _)
  rw [unsplit_split_chars] at h
  conv_rhs => rw [h]
  simp only [split, ← List.map_dropLast, List.flatMap_map, List.getLast_map]

/-! ### The three loops of the writer -/

theorem size_minus_one_eq (v : List String) (h : v ≠ []) : size_minus_one v = v.length - 1 := by
  unfold size_minus_one
  have : v.length ≠ 0 := by simpa using h
  simp [this]

theorem nr_loop_spec (open_tokens new_tokens : List String) (hn : new_tokens ≠ []) :
    ∀ budget i : Nat, i ≤ open_tokens.length → i ≤ new_tokens.length - 1 →
      open_tokens.take i = new_tokens.take i →
      nr_of_same_tokens_loop open_tokens new_tokens budget i i ≤ open_tokens.length ∧
      nr_of_same_tokens_loop open_tokens new_tokens budget i i ≤ new_tokens.length - 1 ∧
      open_tokens.take (nr_of_same_tokens_loop open_tokens new_tokens budget i i)
        = new_tokens.take (nr_of_same_tokens_loop open_tokens new_tokens budget i i) := by
  intro budget
  induction budget with
  | zero =>
    intro i h1 h2 h3
    simp only [nr_of_same_tokens_loop]
    exact ⟨h1, h2, h3⟩
  | succ b ih =>
    intro i h1 h2 h3
    simp only [nr_of_same_tokens_loop]
    split
    · rename_i hc
      obtain ⟨hc1, hc2, hc3⟩ := hc
      rw [size_minus_one_eq _ hn] at hc2
      apply ih (i + 1) hc1 hc2
      rw [List.take_succ, List.take_succ, h3]
      simp only [List.get?_eq_getElem?] at hc3
      rw [hc3]
    · exact ⟨h1, h2, h3⟩

theorem nr_of_same_tokens_spec (open_tokens new_tokens : List String) (hn : new_tokens ≠ []) :
    nr_of_same_tokens open_tokens new_tokens ≤ open_tokens.length ∧
    nr_of_same_tokens open_tokens new_tokens ≤ new_tokens.length - 1 ∧
    open_tokens.take (nr_of_same_tokens open_tokens new_tokens)
      = new_tokens.take (nr_of_same_tokens open_tokens new_tokens) :=
  nr_loop_spec open_tokens new_tokens hn open_tokens.length 0 (Nat.zero_le _) (Nat.zero_le _)
    (by simp)

theorem range_getD_eq (l : List String) (a b : Nat) (hb : b ≤ l.length) :
    (List.range' a (b - a)).map (fun i => l.getD i "") = (l.take b).drop a := by
  apply List.ext_getElem
  · simp
    omega
  · intro i h1 h2
    simp only [List.length_map, List.length_range'] at h1
    simp only [List.getElem_map, List.getElem_range', List.getElem_drop, List.getElem_take]
    have h3 : a + i < l.length := by omega
    simp [List.getElem?_eq_getElem h3]

theorem open_maps_eq (new_tokens : List String) (nr : Nat) (hn : new_tokens ≠ []) :
    open_maps new_tokens nr
      = (new_tokens.dropLast.drop nr).flatMap
          (fun t => [Emit.Key, Emit.Scalar t, Emit.Value, Emit.BeginMap]) := by
  unfold open_maps
  rw [size_minus_one_eq _ hn, List.dropLast_eq_take,
    ← range_getD_eq new_tokens nr (new_tokens.length - 1) (Nat.sub_le _ _), List.flatMap_map]

theorem leaf_getD_eq (new_tokens : List String) (hn : new_tokens ≠ []) :
    new_tokens.getD (size_minus_one new_tokens) "" = new_tokens.getLast hn := by
  rw [size_minus_one_eq _ hn, List.getLast_eq_getElem]
  have : new_tokens.length - 1 < new_tokens.length := by
    have : new_tokens.length ≠ 0 := by simpa using hn
    omega
  exact List.getD_eq_getElem _ _ this

/-! ### Loader steps on a stack of open maps, and what the tree walk sees -/

theorem dir_path_snoc (toks : List String) (tok : String) :
    dir_path (toks ++ [tok]) = dir_path toks ++ tok ++ "/" := by
  simp [dir_path, List.foldl_append]

theorem dir_tokens_cons (es : List (Node × Node)) (tok : String)
    (ls : List (List (Node × Node) × String)) :
    dir_tokens ((es, tok) :: ls) = dir_tokens ls ++ [tok] := by
  simp [dir_tokens]

theorem dir_tokens_drop (lower : List (List (Node × Node) × String)) (k : Nat) :
    dir_tokens (lower.drop k) = (dir_tokens lower).take (lower.length - k) := by
  unfold dir_tokens
  rw [List.map_drop, List.reverse_drop]
  simp

theorem read_entry_map (L : YamlLib) (hstr : ∀ s, L.as_string (Node.scalar s) = some s)
    (pfx tok : String) (es : List (Node × Node)) (q : ParameterInterface) :
    read_entry L pfx (Node.scalar tok, Node.map es) q
      = evaluateEntries L es (pfx ++ tok ++ "/") q := by
  simp [read_entry, Node.IsScalar, Node.IsSequence, Node.IsMap, hstr, evaluateNode_map]

theorem read_stack_close (L : YamlLib) (hstr : ∀ s, L.as_string (Node.scalar s) = some s)
    (es es1 : List (Node × Node)) (tok : String) (ls : List (List (Node × Node) × String))
    (q : ParameterInterface) :
    read_stack L (es1 ++ [(Node.scalar tok, Node.map es)]) ls q
      = read_stack L es ((es1, tok) :: ls) q := by
  unfold read_stack
  rw [dir_tokens_cons, dir_path_snoc]
  simp only [read_lower]
  rw [and_then_assoc]
  congr 1
  funext q1
  rw [evaluateEntries_snoc]
  congr 1
  funext q2
  exact read_entry_map L hstr _ _ _ _

theorem run_close (L : YamlLib) (hstr : ∀ s, L.as_string (Node.scalar s) = some s) :
    ∀ (k : Nat) (es : List (Node × Node)) (lower : List (List (Node × Node) × String))
      (docs : List Node), k ≤ lower.length →
      ∃ es2, Builder.run ⟨Frame.map es none :: frames lower, docs⟩ (List.replicate k Emit.EndMap)
          = some ⟨Frame.map es2 none :: frames (lower.drop k), docs⟩ ∧
        ∀ q, read_stack L es2 (lower.drop k) q = read_stack L es lower q := by
  intro k
  induction k with
  | zero =>
    intro es lower docs _
    exact ⟨es, by simp [Builder.run], fun q => by simp⟩
  | succ k ih =>
    intro es lower docs hk
    cases lower with
    | nil => simp at hk
    | cons f ls =>
      obtain ⟨es1, tok⟩ := f
      obtain ⟨es2, h1, h2⟩ := ih (es1 ++ [(Node.scalar tok, Node.map es)]) ls docs
        (by simpa using hk)
      refine ⟨es2, ?_, ?_⟩
      · simp only [List.replicate_succ, Builder.run, Builder.step, frames, List.map_cons,
          Builder.deliver, List.drop_succ_cons]
        exact h1
      · intro q
        rw [List.drop_succ_cons, h2 q, read_stack_close L hstr]

theorem run_open (L : YamlLib) :
    ∀ (toks : List String) (es : List (Node × Node))
      (lower : List (List (Node × Node) × String)) (docs : List Node),
      ∃ es2 lower2,
        Builder.run ⟨Frame.map es none :: frames lower, docs⟩
            (toks.flatMap (fun t => [Emit.Key, Emit.Scalar t, Emit.Value, Emit.BeginMap]))
          = some ⟨Frame.map es2 none :: frames lower2, docs⟩ ∧
        dir_tokens lower2 = dir_tokens lower ++ toks ∧
        ∀ q, read_stack L es2 lower2 q = read_stack L es lower q := by
  intro toks
  induction toks with
  | nil =>
    intro es lower docs
    exact ⟨es, lower, by simp [Builder.run], by simp, fun q => rfl⟩
  | cons t ts ih =>
    intro es lower docs
    obtain ⟨es2, lower2, h1, h2, h3⟩ := ih [] ((es, t) :: lower) docs
    refine ⟨es2, lower2, ?_, ?_, ?_⟩
    · simp only [List.flatMap_cons, List.cons_append, List.nil_append, Builder.run,
        Builder.step, Builder.deliver]
      exact h1
    · rw [h2, dir_tokens_cons]
      simp
    · intro q
      rw [h3 q]
      unfold read_stack
      simp only [read_lower]
      rw [and_then_assoc]
      congr 1
      funext q1
      have h : evaluateEntries L [] (dir_path (dir_tokens ((es, t) :: lower)))
          = fun q => (true, q) := by
        funext q2
        exact evaluateEntries_nil L _ q2
      rw [h]
      exact and_then_pure _

theorem run_items (items acc : List Node) (st : List Frame) (docs : List Node)
    (h : items.all Node.IsScalar = true) :
    Builder.run ⟨Frame.seq acc :: st, docs⟩ (items.map item_token)
      = some ⟨Frame.seq (acc ++ items) :: st, docs⟩ := by
  induction items generalizing acc with
  | nil => simp [Builder.run]
  | cons it rest ih =>
    simp only [List.all_cons, Bool.and_eq_true] at h
    cases it with
    | scalar t =>
      simp only [List.map_cons, item_token, Builder.run, Builder.step, Builder.deliver]
      rw [ih _ h.2]
      simp
    | null => simp [Node.IsScalar] at h
    | sequence _ => simp [Node.IsScalar] at h
    | map _ => simp [Node.IsScalar] at h

theorem run_value (nd : Node) (hs : nd.simple = true) (es : List (Node × Node)) (k : Node)
    (st : List Frame) (docs : List Node) :
    Builder.run ⟨Frame.map es (some k) :: st, docs⟩ (value_tokens nd)
      = some ⟨Frame.map (es ++ [(k, nd)]) none :: st, docs⟩ := by
  cases nd with
  | scalar t => simp [value_tokens, Builder.run, Builder.step, Builder.deliver]
  | sequence items =>
    simp only [Node.simple] at hs
    have h : value_tokens (Node.sequence items)
        = Emit.BeginSeq :: (items.map item_token ++ [Emit.EndSeq]) := by
      simp [value_tokens]
    rw [h]
    simp only [Builder.run, Builder.step]
    rw [Builder.run_append, run_items items [] _ docs hs]
    simp [Builder.run, Builder.step, Builder.deliver]
  | null => simp [Node.simple] at hs
  | map _ => simp [Node.simple] at hs

theorem read_entry_value (L : YamlLib) (hstr : ∀ s, L.as_string (Node.scalar s) = some s)
    (pfx leaf : String) (nd : Node) (hs : nd.simple = true) (q : ParameterInterface) :
    read_entry L pfx (Node.scalar leaf, nd) q = read_value L (pfx ++ leaf) nd q := by
  cases nd with
  | scalar t => simp [read_entry, read_value, Node.IsScalar, hstr]
  | sequence items => simp [read_entry, read_value, Node.IsScalar, Node.IsSequence, hstr]
  | null => simp [Node.simple] at hs
  | map _ => simp [Node.simple] at hs

theorem run_leaf (L : YamlLib) (hstr : ∀ s, L.as_string (Node.scalar s) = some s)
    (leaf : String) (nd : Node) (hs : nd.simple = true) (es : List (Node × Node))
    (lower : List (List (Node × Node) × String)) (docs : List Node) :
    Builder.run ⟨Frame.map es none :: frames lower, docs⟩
        ([Emit.Key, Emit.Scalar leaf, Emit.Value] ++ value_tokens nd)
      = some ⟨Frame.map (es ++ [(Node.scalar leaf, nd)]) none :: frames lower, docs⟩ ∧
    ∀ q, read_stack L (es ++ [(Node.scalar leaf, nd)]) lower q
      = and_then (read_stack L es lower q)
          (read_value L (dir_path (dir_tokens lower) ++ leaf) nd) := by
  constructor
  · simp only [List.cons_append, List.nil_append, Builder.run, Builder.step, Builder.deliver]
    exact run_value nd hs es _ _ docs
  · intro q
    unfold read_stack
    rw [and_then_assoc]
    congr 1
    funext q1
    rw [evaluateEntries_snoc]
    congr 1
    funext q2
    exact read_entry_value L hstr _ _ _ hs _

/-! ### The writer loop -/

theorem seq_read_snoc (L : YamlLib) (nd : String → Node) (names : List String) (n : String)
    (q : ParameterInterface) :
    seq_read L nd (names ++ [n]) q = and_then (seq_read L nd names q) (read_value L n (nd n)) := by
  induction names generalizing q with
  | nil =>
    simp only [List.nil_append, seq_read, and_then_ok]
    exact and_then_pure _
  | cons m rest ih =>
    simp only [List.cons_append, seq_read]
    rw [and_then_assoc]
    congr 1
    funext q1
    exact ih q1

theorem take_dropLast_of_le (l : List String) (n : Nat) (h : n ≤ l.length - 1) :
    l.dropLast.take n = l.take n := by
  rw [List.dropLast_eq_take, List.take_take, Nat.min_eq_left h]

theorem write_parameter_inv (L : YamlLib) (hstr : ∀ s, L.as_string (Node.scalar s) = some s)
    (p : ParameterInterface) (nd : String → Node) (w : Writer) (done : List String)
    (name : String) (hinv : writer_inv L nd w done)
    (hval : appendParameterToYaml L name p = some (value_tokens (nd name)))
    (hs : (nd name).simple = true) :
    ∃ w1, write_parameter L p w name = some w1 ∧ writer_inv L nd w1 (done ++ [name]) := by
  obtain ⟨es, lower, hrun, hdir, hread⟩ := hinv
  have hn := split_ne_nil name
  obtain ⟨hnr1, hnr2, hnr3⟩ := nr_of_same_tokens_spec w.open_tokens (split name) hn
  have hlen : lower.length = w.open_tokens.length := by
    rw [← hdir]
    simp [dir_tokens]
  obtain ⟨es2, hc1, hc2⟩ := run_close L hstr
    (w.open_tokens.length - nr_of_same_tokens w.open_tokens (split name)) es lower []
    (by omega)
  obtain ⟨es3, lower3, ho1, ho2, ho3⟩ := run_open L
    ((split name).dropLast.drop (nr_of_same_tokens w.open_tokens (split name))) es2
    (lower.drop (w.open_tokens.length - nr_of_same_tokens w.open_tokens (split name))) []
  obtain ⟨hl1, hl2⟩ := run_leaf L hstr ((split name).getLast hn) (nd name) hs es3 lower3 []
  have hdir3 : dir_tokens lower3 = (split name).dropLast := by
    rw [ho2, dir_tokens_drop, hdir, hlen]
    have h1 : w.open_tokens.length
        - (w.open_tokens.length - nr_of_same_tokens w.open_tokens (split name))
        = nr_of_same_tokens w.open_tokens (split name) := by omega
    rw [h1, hnr3, ← take_dropLast_of_le _ _ hnr2, List.take_append_drop]
  refine ⟨⟨w.yaml ++ (close_maps w.open_tokens (nr_of_same_tokens w.open_tokens (split name))
      ++ open_maps (split name) (nr_of_same_tokens w.open_tokens (split name))
      ++ [Emit.Key, Emit.Scalar ((split name).getD (size_minus_one (split name)) ""),
          Emit.Value]) ++ value_tokens (nd name), (split name).dropLast⟩, ?_, ?_⟩
  · simp [write_parameter, hval]
  · refine ⟨es3 ++ [(Node.scalar ((split name).getLast hn), nd name)], lower3, ?_, hdir3, ?_⟩
    · simp only [List.append_assoc]
      rw [Builder.run_append, hrun, Option.some_bind]
      unfold close_maps
      rw [Builder.run_append, hc1, Option.some_bind, open_maps_eq _ _ hn, Builder.run_append,
        ho1, Option.some_bind, leaf_getD_eq _ hn]
      exact hl1
    · intro q
      rw [hl2 q, ho3 q, hc2 q, hread q, seq_read_snoc, hdir3, dir_path_split]

theorem write_parameters_inv (L : YamlLib) (hstr : ∀ s, L.as_string (Node.scalar s) = some s)
    (p : ParameterInterface) (nd : String → Node) :
    ∀ (names : List String) (w : Writer) (done : List String), writer_inv L nd w done →
      (∀ n ∈ names, appendParameterToYaml L n p = some (value_tokens (nd n)) ∧
        (nd n).simple = true) →
      ∃ w1, write_parameters L p w names = some w1 ∧ writer_inv L nd w1 (done ++ names) := by
  intro names
  induction names with
  | nil =>
    intro w done hinv _
    exact ⟨w, rfl, by simpa using hinv⟩
  | cons n rest ih =>
    intro w done hinv hall
    obtain ⟨h1, h2⟩ := hall n (List.mem_cons_self _ _)
    obtain ⟨w1, hw1, hinv1⟩ := write_parameter_inv L hstr p nd w done n hinv h1 h2
    obtain ⟨w2, hw2, hinv2⟩ := ih w1 (done ++ [n]) hinv1
      (fun m hm => hall m (List.mem_cons_of_mem _ hm))
    refine ⟨w2, ?_, ?_⟩
    · simp [write_parameters, hw1, hw2]
    · simpa using hinv2

theorem writer_inv_init (L : YamlLib) (nd : String → Node) :
    writer_inv L nd ⟨[Emit.BeginMap], []⟩ [] := by
  refine ⟨[], [], ?_, rfl, ?_⟩
  · simp [Builder.run, Builder.step, frames]
  · intro q
    simp [read_stack, read_lower, and_then_ok, evaluateEntries_nil, seq_read]

theorem yaml_stream_read (L : YamlLib) (hstr : ∀ s, L.as_string (Node.scalar s) = some s)
    (p : ParameterInterface) (nd : String → Node)
    (hall : ∀ n ∈ p.getAllParameterNames,
      appendParameterToYaml L n p = some (value_tokens (nd n)) ∧ (nd n).simple = true) :
    ∃ text, yaml_stream L p = some text ∧
      ∀ q, readAndAddParametersFromString L text q
        = seq_read L nd p.getAllParameterNames q := by
  obtain ⟨w1, hw1, es, lower, hrun, hdir, hread⟩ :=
    write_parameters_inv L hstr p nd p.getAllParameterNames ⟨[Emit.BeginMap], []⟩ []
      (writer_inv_init L nd) hall
  have hlen : lower.length = w1.open_tokens.length := by
    rw [← hdir]
    simp [dir_tokens]
  obtain ⟨es2, hc1, hc2⟩ := run_close L hstr lower.length es lower [] (Nat.le_refl _)
  refine ⟨w1.yaml ++ List.replicate w1.open_tokens.length Emit.EndMap ++ [Emit.EndMap], ?_, ?_⟩
  · simp [yaml_stream, hw1]
  · intro q
    have hload : LoadAll (w1.yaml ++ List.replicate w1.open_tokens.length Emit.EndMap
        ++ [Emit.EndMap]) = some [Node.map es2] := by
      unfold LoadAll
      rw [List.append_assoc, Builder.run_append, hrun, Option.some_bind, Builder.run_append,
        ← hlen, hc1, Option.some_bind]
      simp [Builder.run, Builder.step, Builder.deliver, frames]
    have h2 := hc2 q
    simp only [List.drop_length, List.nil_append] at h2
    have h3 := hread q
    rw [List.nil_append] at h3
    simp only [readAndAddParametersFromString, hload, evaluateNodes, evaluateNode_map]
    rw [← h3, ← h2]
    simp only [read_stack, read_lower, and_then_ok, dir_tokens, List.map_nil, List.reverse_nil,
      dir_path, List.foldl_nil]
    cases evaluateEntries L es2 "" q with
    | mk b q2 => cases b <;> rfl

/-! ## Emission and re-reading of a single value -/

theorem any_cast_mk (T : Ty) (v : T.denote) (h : isType T ⟨T, v⟩ = true) :
    any_cast T ⟨T, v⟩ h = v := rfl

theorem hasParamOfType_of_find (T : Ty) (p : ParameterInterface) (n : String) (a : StdAny)
    (h : map_find p.parameter_set_ n = some a) :
    hasParamOfType T p n = (isType T a || (is_convertible_int T && isType Ty.int a)) := by
  simp [hasParamOfType, h]

theorem getParamOrThrow_of_find (T : Ty) (p : ParameterInterface) (n : String) (v u : T.denote)
    (h : map_find p.parameter_set_ n = some ⟨T, v⟩) :
    getParamOrThrow T p n u = Except.ok v := by
  have h2 := getParamImpl_of_find_same T p n u v h
  simp [getParamOrThrow, h2]

theorem flatMap_singleton {α β : Type} (f : α → β) (l : List α) :
    l.flatMap (fun x => [f x]) = l.map f := by
  induction l with
  | nil => rfl
  | cons x xs ih => simp [List.flatMap_cons, ih]

theorem emit_vector_eq {α : Type} (text : α → String) (v : List α) :
    emit_vector text v = value_tokens (Node.sequence (v.map (fun x => Node.scalar (text x)))) := by
  simp [emit_vector, value_tokens, flatMap_singleton, List.map_map, Function.comp_def,
    item_token]

theorem emitDoubleVec_eq (L : YamlLib) (v : List CDouble) :
    emitDoubleVec L v
      = value_tokens (Node.sequence (v.map (fun d => Node.scalar (double_text L d)))) := by
  have h : emitDouble L = fun d => [Emit.Scalar (double_text L d)] := rfl
  simp [emitDoubleVec, h, value_tokens, flatMap_singleton, List.map_map, Function.comp_def,
    item_token]

theorem all_scalar_map {α : Type} (g : α → String) (l : List α) :
    (l.map (fun x => Node.scalar (g x))).all Node.IsScalar = true := by
  induction l with
  | nil => rfl
  | cons x xs ih => simp [Node.IsScalar, ih]

theorem appendParameterToYaml_eq (L : YamlLib) (p : ParameterInterface) (n : String)
    (a : StdAny) (h : map_find p.parameter_set_ n = some a) :
    appendParameterToYaml L n p = (value_node L a).map value_tokens := by
  obtain ⟨T, v⟩ := a
  unfold appendParameterToYaml
  simp only [hasParamOfType_of_find _ p n _ h]
  cases T with
  | int =>
    simp [isType, is_convertible_int, getParamOrThrow_of_find Ty.int p n v _ h, emit_got,
      value_node, value_tokens]
  | double =>
    simp [isType, is_convertible_int, getParamOrThrow_of_find Ty.double p n v _ h, emit_got,
      value_node, value_tokens, emitDouble]
  | bool =>
    simp [isType, is_convertible_int, getParamOrThrow_of_find Ty.bool p n v _ h, emit_got,
      value_node, value_tokens]
  | string =>
    simp [isType, is_convertible_int, getParamOrThrow_of_find Ty.string p n v _ h, emit_got,
      value_node, value_tokens]
  | char => simp [isType, is_convertible_int, value_node]
  | size_t => simp [isType, is_convertible_int, value_node]
  | vec e =>
    cases e with
    | int =>
      simp [isType, is_convertible_int, getParamOrThrow_of_find (Ty.vec Ty.int) p n v _ h,
        emit_got, value_node, emit_vector_eq]
    | double =>
      simp [isType, is_convertible_int, getParamOrThrow_of_find (Ty.vec Ty.double) p n v _ h,
        emit_got, value_node, emitDoubleVec_eq]
    | bool =>
      simp [isType, is_convertible_int, getParamOrThrow_of_find (Ty.vec Ty.bool) p n v _ h,
        emit_got, value_node, emit_vector_eq]
    | string =>
      simp [isType, is_convertible_int, getParamOrThrow_of_find (Ty.vec Ty.string) p n v _ h,
        emit_got, value_node, emit_vector_eq]
    | char => simp [isType, is_convertible_int, value_node]
    | size_t => simp [isType, is_convertible_int, value_node]
    | vec e2 => simp [isType, is_convertible_int, value_node]

theorem value_node_simple (L : YamlLib) (a : StdAny) (nd : Node)
    (h : value_node L a = some nd) : nd.simple = true := by
  obtain ⟨T, v⟩ := a
  cases T with
  | int => simp [value_node] at h; subst h; rfl
  | double => simp [value_node] at h; subst h; rfl
  | bool => simp [value_node] at h; subst h; rfl
  | string => simp [value_node] at h; subst h; rfl
  | char => simp [value_node] at h
  | size_t => simp [value_node] at h
  | vec e =>
    cases e with
    | int => simp [value_node] at h; subst h; exact all_scalar_map _ _
    | double => simp [value_node] at h; subst h; exact all_scalar_map _ _
    | bool => simp [value_node] at h; subst h; exact all_scalar_map _ _
    | string => simp [value_node] at h; subst h; exact all_scalar_map _ _
    | char => simp [value_node] at h
    | size_t => simp [value_node] at h
    | vec e2 => simp [value_node] at h

theorem take_set_self {α : Type} (l : List α) (k : Nat) (v : α) :
    (l.set k v).take k = l.take k := by
  apply List.ext_getElem?
  intro i
  rw [List.getElem?_take, List.getElem?_take]
  split
  · rename_i h
    rw [List.getElem?_set_ne (by omega)]
  · rfl

theorem vector_loop_eq (L : YamlLib) (T : Ty) :
    ∀ (items : List Node) (vec : List T.denote) (k : Nat), vec.length = k + items.length →
      vector_loop L T items vec k = (parse_all L T items).map (fun vs => vec.take k ++ vs) := by
  intro items
  induction items with
  | nil =>
    intro vec k h
    simp only [List.length_nil, Nat.add_zero] at h
    simp [vector_loop, parse_all, ← h]
  | cons it rest ih =>
    intro vec k h
    simp only [List.length_cons] at h
    simp only [vector_loop, tryParse, parse_all]
    cases h1 : L.node_as T it with
    | none => simp
    | some v =>
      simp only [if_true]
      rw [ih _ _ (by simp; omega)]
      cases h2 : parse_all L T rest with
      | none => simp
      | some vs =>
        simp only [Option.map_some']
        congr 1
        have hk : k < vec.length := by omega
        rw [List.take_succ, take_set_self, List.getElem?_set_self hk]
        simp

theorem addVector_eq (L : YamlLib) (T : Ty) (name : String) (items : List Node)
    (q : ParameterInterface) :
    addParameterVectorIfTypeCorrect L T name (Node.sequence items) q =
      match parse_all L T items with
      | some vs => (true, q.setParam (T := Ty.vec T) name vs)
      | none => (false, q) := by
  unfold addParameterVectorIfTypeCorrect
  simp only [Node.seq_items]
  rw [vector_loop_eq L T items _ 0 (by simp)]
  cases parse_all L T items <;> simp

theorem readAndAddParameterVector_eq (L : YamlLib) (name : String) (items : List Node)
    (q : ParameterInterface) :
    readAndAddParameterVector L name (Node.sequence items) q =
      match parse_all L Ty.int items, parse_all L Ty.double items, parse_all L Ty.bool items,
        parse_all L Ty.string items with
      | some v, _, _, _ => (true, q.setParam (T := Ty.vec Ty.int) name v)
      | none, some v, _, _ => (true, q.setParam (T := Ty.vec Ty.double) name v)
      | none, none, some v, _ => (true, q.setParam (T := Ty.vec Ty.bool) name v)
      | none, none, none, some v => (true, q.setParam (T := Ty.vec Ty.string) name v)
      | none, none, none, none => (false, q) := by
  unfold readAndAddParameterVector
  simp only [addVector_eq]
  cases parse_all L Ty.int items <;> cases parse_all L Ty.double items <;>
    cases parse_all L Ty.bool items <;> cases parse_all L Ty.string items <;> simp

theorem parse_all_map_some (L : YamlLib) (T : Ty) (α : Type) (f : α → Node) (g : α → T.denote)
    (l : List α) (h : ∀ x ∈ l, L.node_as T (f x) = some (g x)) :
    parse_all L T (l.map f) = some (l.map g) := by
  induction l with
  | nil => rfl
  | cons x xs ih =>
    simp only [List.map_cons, parse_all]
    rw [h x (List.mem_cons_self _ _), ih (fun y hy => h y (List.mem_cons_of_mem _ hy))]

theorem parse_all_map_none (L : YamlLib) (T : Ty) {α : Type} (f : α → Node)
    (l : List α) (h : ∃ x ∈ l, L.node_as T (f x) = none) :
    parse_all L T (l.map f) = none := by
  induction l with
  | nil => simp at h
  | cons x xs ih =>
    simp only [List.map_cons, parse_all]
    obtain ⟨y, hy, hn⟩ := h
    rcases List.mem_cons.1 hy with rfl | hy2
    · rw [hn]
    · rw [ih ⟨y, hy2, hn⟩]
      cases L.node_as T (f x) <;> rfl

theorem read_value_scalar (L : YamlLib) (name t : String) (q : ParameterInterface) :
    read_value L name (Node.scalar t) q = readAndAddSingleParameter L name (Node.scalar t) q := by
  simp [read_value, Node.IsScalar]

theorem read_value_sequence (L : YamlLib) (name : String) (items : List Node)
    (q : ParameterInterface) :
    read_value L name (Node.sequence items) q
      = readAndAddParameterVector L name (Node.sequence items) q := by
  simp [read_value, Node.IsScalar]

theorem read_vec_int (L : YamlLib) (name : String) (q : ParameterInterface) (v : List Int)
    (h : ∀ x ∈ v, L.as_int (Node.scalar (emit_int x)) = some x) :
    read_value L name (Node.sequence (v.map (fun i => Node.scalar (emit_int i)))) q
      = (true, set_any q name ⟨Ty.vec Ty.int, v⟩) := by
  rw [read_value_sequence, readAndAddParameterVector_eq,
    parse_all_map_some L Ty.int Int _ (fun i => i) v h]
  simp only [List.map_id']
  rfl

theorem read_vec_double (L : YamlLib) (name : String) (q : ParameterInterface)
    (v : List CDouble)
    (h1 : ∃ x ∈ v, L.as_int (Node.scalar (double_text L x)) = none)
    (h2 : ∀ x ∈ v, L.as_double (Node.scalar (double_text L x)) = some x) :
    read_value L name (Node.sequence (v.map (fun d => Node.scalar (double_text L d)))) q
      = (true, set_any q name ⟨Ty.vec Ty.double, v⟩) := by
  rw [read_value_sequence, readAndAddParameterVector_eq,
    parse_all_map_none L Ty.int _ v h1,
    parse_all_map_some L Ty.double CDouble _ (fun i => i) v h2]
  simp only [List.map_id']
  rfl

theorem read_vec_bool (L : YamlLib) (name : String) (q : ParameterInterface) (v : List Bool)
    (h1 : ∃ x ∈ v, L.as_int (Node.scalar (emit_bool x)) = none)
    (h2 : ∃ x ∈ v, L.as_double (Node.scalar (emit_bool x)) = none)
    (h3 : ∀ x ∈ v, L.as_bool (Node.scalar (emit_bool x)) = some x) :
    read_value L name (Node.sequence (v.map (fun b => Node.scalar (emit_bool b)))) q
      = (true, set_any q name ⟨Ty.vec Ty.bool, v⟩) := by
  rw [read_value_sequence, readAndAddParameterVector_eq,
    parse_all_map_none L Ty.int _ v h1, parse_all_map_none L Ty.double _ v h2,
    parse_all_map_some L Ty.bool Bool _ (fun i => i) v h3]
  simp only [List.map_id']
  rfl

theorem read_vec_string (L : YamlLib) (hstr : ∀ s, L.as_string (Node.scalar s) = some s)
    (name : String) (q : ParameterInterface) (v : List String)
    (h1 : ∃ x ∈ v, L.as_int (Node.scalar x) = none)
    (h2 : ∃ x ∈ v, L.as_double (Node.scalar x) = none)
    (h3 : ∃ x ∈ v, L.as_bool (Node.scalar x) = none) :
    read_value L name (Node.sequence (v.map (fun s => Node.scalar s))) q
      = (true, set_any q name ⟨Ty.vec Ty.string, v⟩) := by
  rw [read_value_sequence, readAndAddParameterVector_eq,
    parse_all_map_none L Ty.int _ v h1, parse_all_map_none L Ty.double _ v h2,
    parse_all_map_none L Ty.bool _ v h3,
    parse_all_map_some L Ty.string String _ (fun i => i) v (fun x _ => hstr x)]
  simp only [List.map_id']
  rfl

theorem round_trips_spec (L : YamlLib) (hstr : ∀ s, L.as_string (Node.scalar s) = some s)
    (a : StdAny) (h : round_trips L a = true) :
    ∃ nd, value_node L a = some nd ∧
      ∀ name q, read_value L name nd q = (true, set_any q name a) := by
  obtain ⟨T, v⟩ := a
  cases T with
  | int =>
    simp only [round_trips, decide_eq_true_eq] at h
    refine ⟨_, rfl, fun name q => ?_⟩
    rw [read_value_scalar, readAndAddSingleParameter_eq, h]
    rfl
  | double =>
    simp only [round_trips, Bool.and_eq_true, decide_eq_true_eq] at h
    refine ⟨_, rfl, fun name q => ?_⟩
    rw [read_value_scalar, readAndAddSingleParameter_eq, h.1, h.2]
    rfl
  | bool =>
    simp only [round_trips, Bool.and_eq_true, decide_eq_true_eq] at h
    refine ⟨_, rfl, fun name q => ?_⟩
    rw [read_value_scalar, readAndAddSingleParameter_eq, h.1.1, h.1.2, h.2]
    rfl
  | string =>
    simp only [round_trips, Bool.and_eq_true, decide_eq_true_eq] at h
    refine ⟨_, rfl, fun name q => ?_⟩
    rw [read_value_scalar, readAndAddSingleParameter_eq, h.1.1, h.1.2, h.2, hstr]
    rfl
  | char => simp [round_trips] at h
  | size_t => simp [round_trips] at h
  | vec e =>
    cases e with
    | int =>
      simp only [round_trips, List.all_eq_true, decide_eq_true_eq] at h
      exact ⟨_, rfl, fun name q => read_vec_int L name q v h⟩
    | double =>
      simp only [round_trips, Bool.and_eq_true, List.any_eq_true, List.all_eq_true,
        decide_eq_true_eq] at h
      exact ⟨_, rfl, fun name q => read_vec_double L name q v h.1 h.2⟩
    | bool =>
      simp only [round_trips, Bool.and_eq_true, List.any_eq_true, List.all_eq_true,
        decide_eq_true_eq] at h
      exact ⟨_, rfl, fun name q => read_vec_bool L name q v h.1.1 h.1.2 h.2⟩
    | string =>
      simp only [round_trips, Bool.and_eq_true, List.any_eq_true, decide_eq_true_eq] at h
      exact ⟨_, rfl, fun name q => read_vec_string L hstr name q v h.1.1 h.1.2 h.2⟩
    | char => simp [round_trips] at h
    | size_t => simp [round_trips] at h
    | vec e2 => simp [round_trips] at h

theorem empty_vector_spec (L : YamlLib) (a : StdAny) (h : empty_vector a = true) :
    value_node L a = some (Node.sequence []) := by
  obtain ⟨T, v⟩ := a
  cases T with
  | vec e =>
    cases e <;> simp only [empty_vector, List.isEmpty_eq_true] at h <;>
      first
      | (subst h; rfl)
      | exact absurd h (by simp)
  | _ => simp [empty_vector] at h

theorem read_value_empty (L : YamlLib) (name : String) (q : ParameterInterface) :
    read_value L name (Node.sequence []) q
      = (true, set_any q name ⟨Ty.vec Ty.int, ([] : List Int)⟩) := by
  rw [read_value_sequence, readAndAddParameterVector_eq]
  rfl

theorem reread_of_round_trips (L : YamlLib) (a : StdAny) (h : round_trips L a = true) :
    reread a = a := by
  unfold reread
  by_cases he : empty_vector a = true
  · obtain ⟨T, v⟩ := a
    cases T with
    | vec e =>
      cases e with
      | int =>
        simp only [empty_vector, List.isEmpty_eq_true] at he
        subst he
        rfl
      | double =>
        simp only [empty_vector, List.isEmpty_eq_true] at he
        subst he
        simp [round_trips] at h
      | bool =>
        simp only [empty_vector, List.isEmpty_eq_true] at he
        subst he
        simp [round_trips] at h
      | string =>
        simp only [empty_vector, List.isEmpty_eq_true] at he
        subst he
        simp [round_trips] at h
      | char => simp [empty_vector] at he
      | size_t => simp [empty_vector] at he
      | vec e2 => simp [empty_vector] at he
    | _ => simp [empty_vector] at he
  · simp [he]

theorem reread_spec (L : YamlLib) (hstr : ∀ s, L.as_string (Node.scalar s) = some s)
    (a : StdAny) (h : round_trips L a = true ∨ empty_vector a = true) :
    ∃ nd, value_node L a = some nd ∧ value_node L (reread a) = some nd ∧
      ∀ name q, read_value L name nd q = (true, set_any q name (reread a)) := by
  by_cases he : empty_vector a = true
  · refine ⟨Node.sequence [], empty_vector_spec L a he, ?_, fun name q => ?_⟩
    · simp [reread, he, value_node]
    · rw [read_value_empty]
      simp [reread, he]
  · have hr : round_trips L a = true := h.resolve_right he
    obtain ⟨nd, h1, h2⟩ := round_trips_spec L hstr a hr
    rw [reread_of_round_trips L a hr]
    exact ⟨nd, h1, h1, h2⟩

/-! ## The round trip of a whole store -/

theorem seq_read_eq_set_all (L : YamlLib) (nd : String → Node) (f : StdAny → StdAny)
    (p : ParameterInterface) :
    ∀ (names : List String) (q : ParameterInterface),
      (∀ n ∈ names, ∀ q1, read_value L n (nd n) q1 = (true, set_any q1 n (f (stored p n)))) →
      seq_read L nd names q = (true, set_all f p names q) := by
  intro names
  induction names with
  | nil =>
    intro q _
    rfl
  | cons n rest ih =>
    intro q h
    simp only [seq_read, set_all]
    rw [h n (List.mem_cons_self _ _) q, and_then_ok]
    exact ih _ (fun m hm => h m (List.mem_cons_of_mem _ hm))

theorem find_set_any_self (q : ParameterInterface) (n : String) (a : StdAny) :
    map_find (set_any q n a).parameter_set_ n = some a := by
  simp [set_any, setParam, map_find_assign_self, StdAny.of]

theorem find_set_any_other (q : ParameterInterface) (n m : String) (a : StdAny) (h : m ≠ n) :
    map_find (set_any q n a).parameter_set_ m = map_find q.parameter_set_ m := by
  simp [set_any, setParam, map_find_assign_other _ _ _ _ h]

theorem find_set_all (f : StdAny → StdAny) (p : ParameterInterface) :
    ∀ (names : List String) (q : ParameterInterface) (n : String),
      map_find (set_all f p names q).parameter_set_ n
        = if n ∈ names then some (f (stored p n)) else map_find q.parameter_set_ n := by
  intro names
  induction names with
  | nil =>
    intro q n
    simp [set_all]
  | cons m rest ih =>
    intro q n
    simp only [set_all]
    rw [ih]
    by_cases h1 : n ∈ rest
    · simp [h1]
    · by_cases h2 : n = m
      · subst h2
        simp [h1, find_set_any_self]
      · simp [h1, h2, find_set_any_other _ _ _ _ h2]

theorem mem_sort_insert (x y : String) (l : List String) :
    y ∈ sort_insert x l ↔ y = x ∨ y ∈ l := by
  induction l with
  | nil => simp [sort_insert]
  | cons z zs ih =>
    unfold sort_insert
    split
    · simp only [List.mem_cons, ih]
      tauto
    · simp

theorem mem_sort (y : String) (l : List String) : y ∈ sort l ↔ y ∈ l := by
  induction l with
  | nil => simp [sort]
  | cons x xs ih => simp [sort, mem_sort_insert, ih]

theorem map_find_some_mem (l : List (String × StdAny)) (n : String) (a : StdAny)
    (h : map_find l n = some a) : (n, a) ∈ l := by
  induction l with
  | nil => simp [map_find] at h
  | cons e rest ih =>
    obtain ⟨k, v⟩ := e
    by_cases hk : k = n
    · simp only [map_find, hk, if_true, Option.some.injEq] at h
      simp [hk, h]
    · simp only [map_find, hk, if_false] at h
      exact List.mem_cons_of_mem _ (ih h)

theorem mem_names_find (p : ParameterInterface) (n : String)
    (h : n ∈ p.getAllParameterNames) :
    ∃ a, map_find p.parameter_set_ n = some a ∧ (n, a) ∈ p.parameter_set_ := by
  have h1 : n ∈ p.parameter_set_.map Prod.fst := (mem_sort _ _).1 h
  cases hf : map_find p.parameter_set_ n with
  | none => exact absurd h1 ((map_find_eq_none_iff _ _).1 hf)
  | some a => exact ⟨a, rfl, map_find_some_mem _ _ _ hf⟩

theorem find_names (p : ParameterInterface) (n : String) :
    n ∈ p.getAllParameterNames ↔ map_find p.parameter_set_ n ≠ none := by
  unfold getAllParameterNames
  rw [mem_sort, Ne, map_find_eq_none_iff]
  simp

theorem round_trip_core (L : YamlLib) (hstr : ∀ s, L.as_string (Node.scalar s) = some s)
    (p : ParameterInterface) (f : StdAny → StdAny)
    (hf : ∀ e ∈ p.parameter_set_, ∃ nd, value_node L e.2 = some nd ∧
      ∀ name q, read_value L name nd q = (true, set_any q name (f e.2))) :
    ∃ text, yaml_stream L p = some text ∧
      ∀ q, readAndAddParametersFromString L text q
        = (true, set_all f p p.getAllParameterNames q) := by
  have key : ∀ n ∈ p.getAllParameterNames,
      appendParameterToYaml L n p
          = some (value_tokens ((value_node L (stored p n)).getD Node.null)) ∧
        ((value_node L (stored p n)).getD Node.null).simple = true ∧
        ∀ q1, read_value L n ((value_node L (stored p n)).getD Node.null) q1
          = (true, set_any q1 n (f (stored p n))) := by
    intro n hn
    obtain ⟨a, ha, hmem⟩ := mem_names_find p n hn
    obtain ⟨nd, h1, h2⟩ := hf (n, a) hmem
    have hs : stored p n = a := by simp [stored, ha]
    rw [hs, appendParameterToYaml_eq L p n a ha, h1]
    exact ⟨rfl, value_node_simple L a nd h1, fun q1 => h2 n q1⟩
  obtain ⟨text, ht1, ht2⟩ := yaml_stream_read L hstr p
    (fun n => (value_node L (stored p n)).getD Node.null)
    (fun n hn => ⟨(key n hn).1, (key n hn).2.1⟩)
  refine ⟨text, ht1, fun q => ?_⟩
  rw [ht2 q]
  exact seq_read_eq_set_all L _ f p _ q (fun n hn => (key n hn).2.2)

/-- C8 (amended): for every store in which each stored value is of a supported type and is
read back unchanged (its emitted text is accepted by the probe of its own type with the
same value and rejected by every earlier probe, which excludes a string that looks like a
number or a bool and an empty vector of double, bool or string), writing the store and
reading the file into a fresh store succeeds, and the new store holds under every name
the value, with its type, that the original holds. -/
theorem C8_round_trip (L : YamlLib) (p : ParameterInterface)
    (hstr : ∀ s, L.as_string (Node.scalar s) = some s)
    (hvals : ∀ e ∈ p.parameter_set_, round_trips L e.2 = true) :
    ∃ text p2, writeParametersToFile L true p = (true, some text) ∧
      readAndAddParametersFromFile L (some text) fresh = (true, p2) ∧
      ∀ n, map_find p2.parameter_set_ n = map_find p.parameter_set_ n := by
  obtain ⟨text, h1, h2⟩ := round_trip_core L hstr p (fun a => a)
    (fun e he => round_trips_spec L hstr e.2 (hvals e he))
  refine ⟨text, set_all (fun a => a) p p.getAllParameterNames fresh, ?_, ?_, fun n => ?_⟩
  · simp [writeParametersToFile, h1]
  · simp [readAndAddParametersFromFile, h2]
  · rw [find_set_all]
    by_cases hn : n ∈ p.getAllParameterNames
    · obtain ⟨a, ha, _⟩ := mem_names_find p n hn
      simp [hn, stored, ha]
    · have h3 : map_find p.parameter_set_ n = none := by
        by_contra hc
        exact hn ((find_names p n).2 hc)
      simp [hn, h3, fresh, map_find]

/-- Witness for C8: the store `a/b = 1`, `a/c = [true, false]`, `d = "x"`, `e = 4.0` with
the reference conversions. -/
theorem C8_round_trip_witness :
    (∀ s, reference_lib.as_string (Node.scalar s) = some s) ∧
    (∀ e ∈ sample_store.parameter_set_, round_trips reference_lib e.2 = true) ∧
    ∃ text p2, writeParametersToFile reference_lib true sample_store = (true, some text) ∧
      readAndAddParametersFromFile reference_lib (some text) fresh = (true, p2) ∧
      ∀ n, map_find p2.parameter_set_ n = map_find sample_store.parameter_set_ n :=
  ⟨fun _ => rfl, by with_unfolding_all decide,
    C8_round_trip reference_lib sample_store (fun _ => rfl) (by with_unfolding_all decide)⟩

/-- C8 (counterexample): a store holding an empty vector of double is written and read
back successfully, but the new store holds an empty vector of int under that name; a
store holding the string `42` is read back holding the int 42. -/
theorem C8_counterexample :
    (writeParametersToFile reference_lib true empty_vector_store).1 = true ∧
    (readAndAddParametersFromFile reference_lib
      (writeParametersToFile reference_lib true empty_vector_store).2 fresh).1 = true ∧
    map_find empty_vector_store.parameter_set_ "v"
      = some ⟨Ty.vec Ty.double, ([] : List ℚ)⟩ ∧
    map_find (readAndAddParametersFromFile reference_lib
        (writeParametersToFile reference_lib true empty_vector_store).2 fresh).2.parameter_set_ "v"
      = some ⟨Ty.vec Ty.int, ([] : List Int)⟩ ∧
    map_find (readAndAddParametersFromFile reference_lib
        (writeParametersToFile reference_lib true empty_vector_store).2 fresh).2.parameter_set_ "v"
      ≠ map_find empty_vector_store.parameter_set_ "v" ∧
    (readAndAddParametersFromFile reference_lib
      (writeParametersToFile reference_lib true numeric_string_store).2 fresh).1 = true ∧
    map_find numeric_string_store.parameter_set_ "s" = some ⟨Ty.string, "42"⟩ ∧
    map_find (readAndAddParametersFromFile reference_lib
        (writeParametersToFile reference_lib true numeric_string_store).2 fresh).2.parameter_set_ "s"
      = some ⟨Ty.int, (42 : Int)⟩ := by
  decide

/-! ## Writing the store that was read back -/

theorem chars_less_irrefl (l : List Char) : chars_less l l = false := by
  induction l with
  | nil => rfl
  | cons c cs ih => simp [chars_less, ih]

theorem chars_less_asymm (a b : List Char) (h : chars_less a b = true) :
    chars_less b a = false := by
  induction a generalizing b with
  | nil =>
    cases b with
    | nil => rfl
    | cons _ _ => rfl
  | cons x xs ih =>
    cases b with
    | nil => simp [chars_less] at h
    | cons y ys =>
      simp only [chars_less] at h ⊢
      by_cases h1 : x.toNat < y.toNat
      · have h2 : ¬ y.toNat < x.toNat := by omega
        simp [h1, h2]
      · by_cases h2 : y.toNat < x.toNat
        · simp [h1, h2] at h
        · simp only [h1, h2, if_false] at h ⊢
          exact ih ys h

theorem string_less_irrefl (a : String) : string_less a a = false :=
  chars_less_irrefl a.data

theorem string_less_asymm (a b : String) (h : string_less a b = true) :
    string_less b a = false :=
  chars_less_asymm a.data b.data h

theorem sort_eq_of_pairwise (l : List String)
    (h : l.Pairwise (fun a b => string_less a b = true)) : sort l = l := by
  induction l with
  | nil => rfl
  | cons x xs ih =>
    rw [List.pairwise_cons] at h
    simp only [sort]
    rw [ih h.2]
    cases xs with
    | nil => rfl
    | cons y ys =>
      have h1 : string_less y x = false :=
        string_less_asymm x y (h.1 y (List.mem_cons_self _ _))
      simp [sort_insert, h1]

theorem map_assign_append (l : List (String × StdAny)) (n : String) (v : StdAny)
    (h : ∀ k ∈ l.map Prod.fst, string_less k n = true) :
    map_assign l n v = l ++ [(n, v)] := by
  induction l with
  | nil => rfl
  | cons e rest ih =>
    obtain ⟨k, w⟩ := e
    have hk : string_less k n = true := h k (by simp)
    have h1 : k ≠ n := by
      intro hc
      rw [hc, string_less_irrefl] at hk
      exact Bool.false_ne_true hk
    have h2 : string_less n k = false := string_less_asymm k n hk
    simp only [map_assign, h1, h2, if_false, List.cons_append]
    rw [ih (fun k2 hk2 => h k2 (by simp at hk2 ⊢; exact Or.inr hk2))]
    simp

theorem keys_set_all (f : StdAny → StdAny) (p : ParameterInterface) :
    ∀ (names : List String) (q : ParameterInterface),
      names.Pairwise (fun a b => string_less a b = true) →
      (∀ k ∈ q.parameter_set_.map Prod.fst, ∀ n ∈ names, string_less k n = true) →
      (set_all f p names q).parameter_set_.map Prod.fst
        = q.parameter_set_.map Prod.fst ++ names := by
  intro names
  induction names with
  | nil =>
    intro q _ _
    simp [set_all]
  | cons n rest ih =>
    intro q hp hq
    rw [List.pairwise_cons] at hp
    have hset : (set_any q n (f (stored p n))).parameter_set_
        = q.parameter_set_ ++ [(n, f (stored p n))] := by
      simp only [set_any, setParam, StdAny.of]
      exact map_assign_append _ _ _ (fun k hk => hq k hk n (List.mem_cons_self _ _))
    simp only [set_all]
    rw [ih _ hp.2, hset]
    · simp
    · intro k hk m hm
      rw [hset] at hk
      simp only [List.map_append, List.map_cons, List.map_nil, List.mem_append,
        List.mem_singleton] at hk
      rcases hk with hk | hk
      · exact hq k hk m (List.mem_cons_of_mem _ hm)
      · rw [hk]
        exact hp.1 m hm

theorem write_parameters_congr (L : YamlLib) (p p2 : ParameterInterface) :
    ∀ (names : List String) (w : Writer),
      (∀ n ∈ names, appendParameterToYaml L n p2 = appendParameterToYaml L n p) →
      write_parameters L p2 w names = write_parameters L p w names := by
  intro names
  induction names with
  | nil =>
    intro w _
    rfl
  | cons n rest ih =>
    intro w h
    have h1 : write_parameter L p2 w n = write_parameter L p w n := by
      simp only [write_parameter, h n (List.mem_cons_self _ _)]
    simp only [write_parameters, h1]
    cases write_parameter L p w n with
    | none => rfl
    | some w1 => exact ih w1 (fun m hm => h m (List.mem_cons_of_mem _ hm))

theorem read_value_probe (L : YamlLib) (name : String) (nd : Node) (q : ParameterInterface)
    (hs : nd.simple = true) :
    read_value L name nd q =
      match probe L nd with
      | some a => (true, set_any q name a)
      | none => (false, q) := by
  cases nd with
  | scalar t =>
    rw [read_value_scalar, readAndAddSingleParameter_eq]
    simp only [probe, probe_scalar]
    cases L.as_int (Node.scalar t) <;> cases L.as_double (Node.scalar t) <;>
      cases L.as_bool (Node.scalar t) <;> cases L.as_string (Node.scalar t) <;> rfl
  | sequence items =>
    rw [read_value_sequence, readAndAddParameterVector_eq]
    simp only [probe, probe_vector]
    cases parse_all L Ty.int items <;> cases parse_all L Ty.double items <;>
      cases parse_all L Ty.bool items <;> cases parse_all L Ty.string items <;> rfl
  | null => simp [Node.simple] at hs
  | map _ => simp [Node.simple] at hs

theorem reemits_spec (L : YamlLib) (a : StdAny) (h : reemits L a = true) :
    ∃ nd, value_node L a = some nd ∧ emitted L (read_back L a) = emitted L a ∧
      ∀ name q, read_value L name nd q = (true, set_any q name (read_back L a)) := by
  unfold reemits at h
  cases h1 : value_node L a with
  | none => simp [h1] at h
  | some nd =>
    cases h2 : probe L nd with
    | none => simp [h1, h2] at h
    | some a2 =>
      simp only [h1, h2, decide_eq_true_eq] at h
      have hrb : read_back L a = a2 := by simp [read_back, h1, h2]
      refine ⟨nd, rfl, by rw [hrb]; exact h, fun name q => ?_⟩
      rw [read_value_probe L name nd q (value_node_simple L a nd h1), h2, hrb]

theorem reemits_of_reread (L : YamlLib) (hstr : ∀ s, L.as_string (Node.scalar s) = some s)
    (a : StdAny) (h : round_trips L a = true ∨ empty_vector a = true) :
    reemits L a = true := by
  obtain ⟨nd, h1, h2, h3⟩ := reread_spec L hstr a h
  have h4 := h3 "" fresh
  rw [read_value_probe L "" nd fresh (value_node_simple L a nd h1)] at h4
  unfold reemits
  cases h5 : probe L nd with
  | none => simp [h5] at h4
  | some a2 =>
    simp only [h5, Prod.mk.injEq, true_and] at h4
    have h6 : map_find (set_any fresh "" a2).parameter_set_ "" = some a2 :=
      find_set_any_self fresh "" a2
    rw [h4, find_set_any_self] at h6
    simp only [Option.some.injEq] at h6
    simp [h1, h5, ← h6, emitted, h2]

/-- C9 (amended): for every store with strictly ascending keys (every `std::map`) in which
each stored value is of a supported type and is re-emitted unchanged (emitting the value
its emitted text is read back as gives the same text again, as it does for a value read
back unchanged, for an empty vector, and for a string that is the canonical text of a
number or bool), writing the store, reading the file into a fresh store and writing that
store again produces the same text as the first write. -/
theorem C9_idempotent_write (L : YamlLib) (p : ParameterInterface)
    (hstr : ∀ s, L.as_string (Node.scalar s) = some s)
    (hvalid : p.valid)
    (hvals : ∀ e ∈ p.parameter_set_, reemits L e.2 = true) :
    ∃ text p2, writeParametersToFile L true p = (true, some text) ∧
      readAndAddParametersFromFile L (some text) fresh = (true, p2) ∧
      writeParametersToFile L true p2 = (true, some text) := by
  obtain ⟨text, h1, h2⟩ := round_trip_core L hstr p (read_back L)
    (fun e he => by
      obtain ⟨nd, h3, _, h5⟩ := reemits_spec L e.2 (hvals e he)
      exact ⟨nd, h3, h5⟩)
  have hnames : p.getAllParameterNames = p.parameter_set_.map Prod.fst :=
    sort_eq_of_pairwise _ hvalid
  have hkeys : (set_all (read_back L) p p.getAllParameterNames fresh).parameter_set_.map Prod.fst
      = p.parameter_set_.map Prod.fst := by
    rw [keys_set_all (read_back L) p _ fresh (by rw [hnames]; exact hvalid) (by simp [fresh]),
      hnames]
    simp [fresh]
  have hn2 : (set_all (read_back L) p p.getAllParameterNames fresh).getAllParameterNames
      = p.getAllParameterNames := by
    unfold getAllParameterNames at hkeys ⊢
    rw [hkeys]
  have hval : ∀ n ∈ p.getAllParameterNames,
      appendParameterToYaml L n (set_all (read_back L) p p.getAllParameterNames fresh)
        = appendParameterToYaml L n p := by
    intro n hn
    obtain ⟨a, ha, hmem⟩ := mem_names_find p n hn
    obtain ⟨nd, _, h4, _⟩ := reemits_spec L a (hvals (n, a) hmem)
    have hf2 : map_find (set_all (read_back L) p p.getAllParameterNames fresh).parameter_set_ n
        = some (read_back L a) := by
      rw [find_set_all]
      simp [hn, stored, ha]
    rw [appendParameterToYaml_eq L _ n _ hf2, appendParameterToYaml_eq L p n a ha]
    exact h4
  refine ⟨text, set_all (read_back L) p p.getAllParameterNames fresh, ?_, ?_, ?_⟩
  · simp [writeParametersToFile, h1]
  · simp [readAndAddParametersFromFile, h2]
  · have h6 : yaml_stream L (set_all (read_back L) p p.getAllParameterNames fresh)
        = some text := by
      rw [← h1]
      unfold yaml_stream
      rw [hn2, write_parameters_congr L p _ _ _ hval]
    simp [writeParametersToFile, h6]

/-- Witness for C9: the store `a/b = 1`, `a/v = []` (vector of double), `d = "x"`,
`s = "42"` with the reference conversions. -/
theorem C9_idempotent_write_witness :
    (∀ s, reference_lib.as_string (Node.scalar s) = some s) ∧
    sample_store_with_empty.valid ∧
    (∀ e ∈ sample_store_with_empty.parameter_set_, reemits reference_lib e.2 = true) ∧
    ∃ text p2,
      writeParametersToFile reference_lib true sample_store_with_empty = (true, some text) ∧
      readAndAddParametersFromFile reference_lib (some text) fresh = (true, p2) ∧
      writeParametersToFile reference_lib true p2 = (true, some text) :=
  ⟨fun _ => rfl, by decide, by decide,
    C9_idempotent_write reference_lib sample_store_with_empty (fun _ => rfl) (by decide)
      (by decide)⟩

/-- C9 (counterexample): the store holding the string `4.00` is written with the scalar
text `4.00`; that text is read back as the double 4, and writing the store read back
produces the scalar text `4.0`, a different output. -/
theorem C9_counterexample :
    writeParametersToFile reference_lib true padded_string_store
      = (true, some [Emit.BeginMap, Emit.Key, Emit.Scalar "s", Emit.Value,
          Emit.Scalar "4.00", Emit.EndMap]) ∧
    (readAndAddParametersFromFile reference_lib
      (writeParametersToFile reference_lib true padded_string_store).2 fresh).1 = true ∧
    writeParametersToFile reference_lib true
        (readAndAddParametersFromFile reference_lib
          (writeParametersToFile reference_lib true padded_string_store).2 fresh).2
      = (true, some [Emit.BeginMap, Emit.Key, Emit.Scalar "s", Emit.Value,
          Emit.Scalar "4.0", Emit.EndMap]) ∧
    writeParametersToFile reference_lib true
        (readAndAddParametersFromFile reference_lib
          (writeParametersToFile reference_lib true padded_string_store).2 fresh).2
      ≠ writeParametersToFile reference_lib true padded_string_store := by
  with_unfolding_all decide

/-! ## The key order and the map invariant -/

theorem char_toNat_inj (a b : Char) (h : a.toNat = b.toNat) : a = b :=
  Char.ext (UInt32.ext h)

theorem chars_less_trans (a b c : List Char) (h1 : chars_less a b = true)
    (h2 : chars_less b c = true) : chars_less a c = true := by
  induction a generalizing b c with
  | nil =>
    cases c with
    | nil =>
      cases b with
      | nil => simp [chars_less] at h1
      | cons _ _ => simp [chars_less] at h2
    | cons _ _ => rfl
  | cons x xs ih =>
    cases b with
    | nil => simp [chars_less] at h1
    | cons y ys =>
      cases c with
      | nil => simp [chars_less] at h2
      | cons z zs =>
        simp only [chars_less] at h1 h2 ⊢
        by_cases hxy : x.toNat < y.toNat
        · by_cases hyz : y.toNat < z.toNat
          · have : x.toNat < z.toNat := by omega
            simp [this]
          · by_cases hzy : z.toNat < y.toNat
            · simp [hyz, hzy] at h2
            · have : x.toNat < z.toNat := by omega
              simp [this]
        · by_cases hyx : y.toNat < x.toNat
          · simp [hxy, hyx] at h1
          · simp only [hxy, hyx, if_false] at h1
            by_cases hyz : y.toNat < z.toNat
            · have : x.toNat < z.toNat := by omega
              simp [this]
            · by_cases hzy : z.toNat < y.toNat
              · simp [hyz, hzy] at h2
              · simp only [hyz, hzy, if_false] at h2
                have e1 : ¬ x.toNat < z.toNat := by omega
                have e2 : ¬ z.toNat < x.toNat := by omega
                simp only [e1, e2, if_false]
                exact ih ys zs h1 h2

theorem chars_less_total (a b : List Char) (hne : a ≠ b) (h : chars_less a b = false) :
    chars_less b a = true := by
  induction a generalizing b with
  | nil =>
    cases b with
    | nil => exact absurd rfl hne
    | cons _ _ => simp [chars_less] at h
  | cons x xs ih =>
    cases b with
    | nil => rfl
    | cons y ys =>
      simp only [chars_less] at h ⊢
      by_cases hxy : x.toNat < y.toNat
      · simp [hxy] at h
      · by_cases hyx : y.toNat < x.toNat
        · simp [hyx]
        · simp only [hxy, hyx, if_false] at h ⊢
          have hxy2 : x = y := char_toNat_inj x y (by omega)
          apply ih ys _ h
          intro hc
          exact hne (by rw [hxy2, hc])

theorem string_less_trans (a b c : String) (h1 : string_less a b = true)
    (h2 : string_less b c = true) : string_less a c = true :=
  chars_less_trans a.data b.data c.data h1 h2

theorem string_less_total (a b : String) (hne : a ≠ b) (h : string_less a b = false) :
    string_less b a = true :=
  chars_less_total a.data b.data (fun hc => hne (String.ext hc)) h

theorem keys_map_assign (l : List (String × StdAny)) (n k : String) (v : StdAny)
    (h : k ∈ (map_assign l n v).map Prod.fst) : k = n ∨ k ∈ l.map Prod.fst := by
  induction l with
  | nil =>
    simp only [map_assign, List.map_cons, List.map_nil, List.mem_singleton] at h
    exact Or.inl h
  | cons e rest ih =>
    obtain ⟨k1, v1⟩ := e
    unfold map_assign at h
    by_cases h1 : k1 = n
    · simp only [h1, if_true, List.map_cons, List.mem_cons] at h
      rcases h with h | h
      · exact Or.inl h
      · exact Or.inr (by simp [h])
    · by_cases h2 : string_less n k1 = true
      · simp only [h1, h2, if_true, if_false, List.map_cons, List.mem_cons] at h
        rcases h with h | h | h
        · exact Or.inl h
        · exact Or.inr (by simp [h])
        · exact Or.inr (by simp [h])
      · have h4 : string_less n k1 = false := by simpa using h2
        simp only [h1, h4, if_false, List.map_cons, List.mem_cons, Bool.false_eq_true] at h
        rcases h with h5 | h5
        · exact Or.inr (by simp [h5])
        · rcases ih h5 with h3 | h3
          · exact Or.inl h3
          · exact Or.inr (by simp [h3])

theorem pairwise_map_assign (l : List (String × StdAny)) (n : String) (v : StdAny)
    (h : (l.map Prod.fst).Pairwise (fun a b => string_less a b = true)) :
    ((map_assign l n v).map Prod.fst).Pairwise (fun a b => string_less a b = true) := by
  induction l with
  | nil => simp [map_assign]
  | cons e rest ih =>
    obtain ⟨k1, v1⟩ := e
    simp only [List.map_cons, List.pairwise_cons] at h
    unfold map_assign
    by_cases h1 : k1 = n
    · subst h1
      simp only [if_true, List.map_cons, List.pairwise_cons]
      exact h
    · by_cases h2 : string_less n k1 = true
      · simp only [h1, h2, if_true, if_false, List.map_cons, List.pairwise_cons]
        refine ⟨?_, h⟩
        intro k hk
        rcases List.mem_cons.1 hk with hk | hk
        · rw [hk]
          exact h2
        · exact string_less_trans n k1 k h2 (h.1 k hk)
      · have h3 : string_less n k1 = false := by simpa using h2
        simp only [h1, h3, if_false, List.map_cons, List.pairwise_cons, Bool.false_eq_true]
        refine ⟨?_, ih h.2⟩
        intro k hk
        rcases keys_map_assign rest n k v hk with hk | hk
        · rw [hk]
          exact string_less_total n k1 (Ne.symm h1) (by simpa using h2)
        · exact h.1 k hk

theorem valid_fresh : (fresh).valid := by
  simp [ParameterInterface.valid, fresh]

theorem valid_setParam (T : Ty) (p : ParameterInterface) (n : String) (v : T.denote)
    (h : p.valid) : (p.setParam n v).valid :=
  pairwise_map_assign p.parameter_set_ n (StdAny.of v) h

/-! ## The read path: typed vector parse -/

theorem parse_all_eq_some_iff (L : YamlLib) (T : Ty) (items : List Node) (vs : List T.denote) :
    parse_all L T items = some vs ↔
      List.Forall₂ (fun it v => L.node_as T it = some v) items vs := by
  induction items generalizing vs with
  | nil =>
    cases vs with
    | nil => simp [parse_all]
    | cons v vs => simp [parse_all]
  | cons it rest ih =>
    simp only [parse_all]
    cases h1 : L.node_as T it with
    | none =>
      constructor
      · intro h
        simp at h
      · intro h
        cases h with
        | cons hh _ => rw [h1] at hh; exact absurd hh (by simp)
    | some v =>
      cases h2 : parse_all L T rest with
      | none =>
        constructor
        · intro h
          simp at h
        · intro h
          cases h with
          | cons _ ht => rw [(ih _).2 ht] at h2; exact absurd h2 (by simp)
      | some ws =>
        constructor
        · intro h
          simp only [Option.some.injEq] at h
          subst h
          exact List.Forall₂.cons h1 ((ih ws).1 h2)
        · intro h
          cases h with
          | cons hh ht =>
            rw [h1] at hh
            rw [(ih _).2 ht] at h2
            simp only [Option.some.injEq] at hh h2
            rw [hh, h2]

theorem parse_all_eq_none_iff (L : YamlLib) (T : Ty) (items : List Node) :
    parse_all L T items = none ↔ ∃ it ∈ items, L.node_as T it = none := by
  induction items with
  | nil => simp [parse_all]
  | cons it rest ih =>
    simp only [parse_all, List.mem_cons, exists_eq_or_imp]
    cases h1 : L.node_as T it with
    | none => simp
    | some v =>
      cases h2 : parse_all L T rest with
      | none =>
        have := ih.1 h2
        simp [this]
      | some ws =>
        simp only [false_or, false_iff, reduceCtorEq]
        intro hc
        rw [ih.2 hc] at h2
        exact absurd h2 (by simp)

theorem addVector_fail (L : YamlLib) (T : Ty) (name : String) (items : List Node)
    (p : ParameterInterface) (h : ∃ it ∈ items, L.node_as T it = none) :
    addParameterVectorIfTypeCorrect L T name (Node.sequence items) p = (false, p) := by
  rw [addVector_eq, (parse_all_eq_none_iff L T items).2 h]

/-- C11: the typed vector parse stores a sequence, by one `setParam`, as the vector of the
first of int, double, bool, string that converts every element (the throw leaves the store
unchanged when none does); the stored vector has the converted elements in sequence order
and the length of the sequence; a type under which some element fails causes no
`setParam`; with the reference conversions `[1, 2, 3]` is stored as vector of int,
`[1, 2.5]` as vector of double and `[true, true, false]` as vector of bool. -/
theorem C11_vector_probe_order :
    (∀ (L : YamlLib) (name : String) (items : List Node) (p : ParameterInterface),
      readAndAddParameterVector L name (Node.sequence items) p =
        match parse_all L Ty.int items, parse_all L Ty.double items,
          parse_all L Ty.bool items, parse_all L Ty.string items with
        | some v, _, _, _ => (true, p.setParam (T := Ty.vec Ty.int) name v)
        | none, some v, _, _ => (true, p.setParam (T := Ty.vec Ty.double) name v)
        | none, none, some v, _ => (true, p.setParam (T := Ty.vec Ty.bool) name v)
        | none, none, none, some v => (true, p.setParam (T := Ty.vec Ty.string) name v)
        | none, none, none, none => (false, p)) ∧
    (∀ (L : YamlLib) (T : Ty) (items : List Node) (vs : List T.denote),
      parse_all L T items = some vs ↔
        List.Forall₂ (fun it v => L.node_as T it = some v) items vs) ∧
    (∀ (L : YamlLib) (T : Ty) (items : List Node) (vs : List T.denote),
      parse_all L T items = some vs → vs.length = items.length) ∧
    (∀ (L : YamlLib) (T : Ty) (name : String) (items : List Node) (p : ParameterInterface),
      (∃ it ∈ items, L.node_as T it = none) →
      addParameterVectorIfTypeCorrect L T name (Node.sequence items) p = (false, p)) ∧
    (∀ p : ParameterInterface,
      readAndAddParameterVector reference_lib "v"
          (Node.sequence [Node.scalar "1", Node.scalar "2", Node.scalar "3"]) p
        = (true, p.setParam (T := Ty.vec Ty.int) "v" ([1, 2, 3] : List Int)) ∧
      readAndAddParameterVector reference_lib "v"
          (Node.sequence [Node.scalar "1", Node.scalar "2.5"]) p
        = (true, p.setParam (T := Ty.vec Ty.double) "v" ([1, 5 / 2] : List ℚ)) ∧
      readAndAddParameterVector reference_lib "v"
          (Node.sequence [Node.scalar "true", Node.scalar "true", Node.scalar "false"]) p
        = (true, p.setParam (T := Ty.vec Ty.bool) "v" [true, true, false])) := by
  refine ⟨readAndAddParameterVector_eq, parse_all_eq_some_iff, ?_, addVector_fail, fun p => ?_⟩
  · intro L T items vs h
    exact ((parse_all_eq_some_iff L T items vs).1 h).length_eq.symm
  · refine ⟨?_, ?_, ?_⟩
    · have h1 : parse_all reference_lib Ty.int
          [Node.scalar "1", Node.scalar "2", Node.scalar "3"] = some ([1, 2, 3] : List Int) := by
        decide
      rw [readAndAddParameterVector_eq, h1]
    · have h1 : parse_all reference_lib Ty.int [Node.scalar "1", Node.scalar "2.5"] = none := by
        decide
      have h2 : parse_all reference_lib Ty.double [Node.scalar "1", Node.scalar "2.5"]
          = some ([1, 5 / 2] : List ℚ) := by
        with_unfolding_all decide
      rw [readAndAddParameterVector_eq, h1, h2]
    · have h1 : parse_all reference_lib Ty.int
          [Node.scalar "true", Node.scalar "true", Node.scalar "false"] = none := by
        decide
      have h2 : parse_all reference_lib Ty.double
          [Node.scalar "true", Node.scalar "true", Node.scalar "false"] = none := by
        decide
      have h3 : parse_all reference_lib Ty.bool
          [Node.scalar "true", Node.scalar "true", Node.scalar "false"]
          = some [true, true, false] := by
        decide
      rw [readAndAddParameterVector_eq, h1, h2, h3]

/-- Witness for C11: the sequence `[1, a]` under the int probe, whose second element
fails. -/
theorem C11_vector_probe_order_witness :
    (∃ it ∈ [Node.scalar "1", Node.scalar "a"], reference_lib.node_as Ty.int it = none) ∧
    addParameterVectorIfTypeCorrect reference_lib Ty.int "v"
      (Node.sequence [Node.scalar "1", Node.scalar "a"]) fresh = (false, fresh) :=
  ⟨⟨Node.scalar "a", by simp, by decide⟩,
    C11_vector_probe_order.2.2.2.1 reference_lib Ty.int "v"
      [Node.scalar "1", Node.scalar "a"] fresh ⟨Node.scalar "a", by simp, by decide⟩⟩

theorem read_entry_sequence (L : YamlLib) (pfx : String) (key : Node) (items : List Node)
    (q : ParameterInterface) :
    read_entry L pfx (key, Node.sequence items) q =
      match L.as_string key with
      | some k => readAndAddParameterVector L (pfx ++ k) (Node.sequence items) q
      | none => (false, q) := by
  simp [read_entry, Node.IsScalar, Node.IsSequence]

theorem readAndAddParameterVector_fail (L : YamlLib) (name : String) (items : List Node)
    (q : ParameterInterface)
    (h1 : ∃ it ∈ items, L.as_int it = none) (h2 : ∃ it ∈ items, L.as_double it = none)
    (h3 : ∃ it ∈ items, L.as_bool it = none) (h4 : ∃ it ∈ items, L.as_string it = none) :
    readAndAddParameterVector L name (Node.sequence items) q = (false, q) := by
  rw [readAndAddParameterVector_eq, (parse_all_eq_none_iff L Ty.int items).2 h1,
    (parse_all_eq_none_iff L Ty.double items).2 h2, (parse_all_eq_none_iff L Ty.bool items).2 h3,
    (parse_all_eq_none_iff L Ty.string items).2 h4]

/-- C12 (amended): a sequence in which each of the four element types int, double, bool
and string fails on at least one element (as it does when an element is itself a sequence
or a map) makes the read entry point return false; the store is left as the entries before
it made it, so nothing is stored under the name of the sequence by this entry. -/
theorem C12_rejected_sequence (L : YamlLib) (es rest : List (Node × Node)) (key : Node)
    (items : List Node) (p p1 : ParameterInterface)
    (hpre : evaluateEntries L es "" p = (true, p1))
    (h1 : ∃ it ∈ items, L.as_int it = none) (h2 : ∃ it ∈ items, L.as_double it = none)
    (h3 : ∃ it ∈ items, L.as_bool it = none) (h4 : ∃ it ∈ items, L.as_string it = none) :
    readAndAddParametersFromNode L (Node.map (es ++ (key, Node.sequence items) :: rest)) p
      = (false, p1) := by
  unfold readAndAddParametersFromNode
  rw [evaluateNode_map, evaluateEntries_append, hpre, and_then_ok, evaluateEntries_cons,
    read_entry_sequence]
  cases L.as_string key with
  | none => rfl
  | some k =>
    simp only [readAndAddParameterVector_fail L _ items p1 h1 h2 h3 h4]
    rfl

/-- Witness for C12: the document `b: 1`, `v: [1, [a]]`, whose sequence has a nested
sequence as second element. -/
theorem C12_rejected_sequence_witness :
    evaluateEntries reference_lib [(Node.scalar "b", Node.scalar "1")] "" fresh
      = (true, fresh.setParam (T := Ty.int) "b" (1 : Int)) ∧
    (∃ it ∈ [Node.scalar "1", Node.sequence [Node.scalar "a"]],
      reference_lib.as_int it = none) ∧
    (∃ it ∈ [Node.scalar "1", Node.sequence [Node.scalar "a"]],
      reference_lib.as_double it = none) ∧
    (∃ it ∈ [Node.scalar "1", Node.sequence [Node.scalar "a"]],
      reference_lib.as_bool it = none) ∧
    (∃ it ∈ [Node.scalar "1", Node.sequence [Node.scalar "a"]],
      reference_lib.as_string it = none) ∧
    readAndAddParametersFromNode reference_lib
      (Node.map ([(Node.scalar "b", Node.scalar "1")] ++
        (Node.scalar "v", Node.sequence [Node.scalar "1", Node.sequence [Node.scalar "a"]])
          :: [])) fresh
      = (false, fresh.setParam (T := Ty.int) "b" (1 : Int)) :=
  ⟨by decide, ⟨Node.sequence [Node.scalar "a"], by simp, rfl⟩,
    ⟨Node.sequence [Node.scalar "a"], by simp, rfl⟩,
    ⟨Node.sequence [Node.scalar "a"], by simp, rfl⟩,
    ⟨Node.sequence [Node.scalar "a"], by simp, rfl⟩,
    C12_rejected_sequence reference_lib [(Node.scalar "b", Node.scalar "1")] [] (Node.scalar "v")
      [Node.scalar "1", Node.sequence [Node.scalar "a"]] fresh
      (fresh.setParam (T := Ty.int) "b" (1 : Int)) (by decide)
      ⟨Node.sequence [Node.scalar "a"], by simp, rfl⟩
      ⟨Node.sequence [Node.scalar "a"], by simp, rfl⟩
      ⟨Node.sequence [Node.scalar "a"], by simp, rfl⟩
      ⟨Node.sequence [Node.scalar "a"], by simp, rfl⟩⟩

/-- C12 (counterexample): the text `v: [1, a]` is read successfully; every element
converts to string, so the store holds the vector of strings `1`, `a` under `v`. -/
theorem C12_counterexample :
    readAndAddParametersFromString reference_lib
      [Emit.BeginMap, Emit.Key, Emit.Scalar "v", Emit.Value, Emit.BeginSeq, Emit.Scalar "1",
        Emit.Scalar "a", Emit.EndSeq, Emit.EndMap] fresh
      = (true, fresh.setParam (T := Ty.vec Ty.string) "v" ["1", "a"]) := by
  decide

/-! ## The tree walk as a list of visits -/

theorem join_names_snoc_data (path : List String) (key : String) :
    (join_names (path ++ [key])).data
      = path.flatMap (fun t => t.data ++ ['/']) ++ key.data := by
  induction path with
  | nil => simp [join_names]
  | cons k rest ih =>
    cases rest with
    | nil => simp [join_names, String.data_append]
    | cons k2 rest2 =>
      simp only [List.cons_append, join_names, String.data_append, List.flatMap_cons,
        List.append_eq] at ih ⊢
      rw [ih]
      simp

theorem dir_path_append_key (path : List String) (key : String) :
    dir_path path ++ key = join_names (path ++ [key]) := by
  apply String.ext
  rw [String.data_append, dir_path_data, join_names_snoc_data]

theorem read_visits_append (L : YamlLib) (vs ws : List Visit) (q : ParameterInterface) :
    read_visits L (vs ++ ws) q = and_then (read_visits L vs q) (read_visits L ws) := by
  induction vs generalizing q with
  | nil => simp [read_visits, and_then]
  | cons v rest ih =>
    cases v with
    | reject => simp [read_visits, and_then]
    | leaf path value =>
      simp only [List.cons_append, read_visits]
      rw [and_then_assoc]
      congr 1
      funext q1
      exact ih q1

theorem read_visits_single (L : YamlLib) (path : List String) (value : Node)
    (q : ParameterInterface) :
    read_visits L [Visit.leaf path value] q = read_value L (join_names path) value q := by
  simp only [read_visits]
  exact and_then_pure _

mutual
theorem evaluateNode_visits (L : YamlLib) :
    ∀ (n : Node) (path : List String) (q : ParameterInterface),
      evaluateNode L n (dir_path path) q = read_visits L (visit_node L n path) q
  | .map es, path, q => by
    rw [evaluateNode_map, visit_node]
    exact evaluateEntries_visits L es path q
  | .null, path, q => by simp [evaluateNode, visit_node, read_visits]
  | .scalar _, path, q => by simp [evaluateNode, visit_node, read_visits]
  | .sequence _, path, q => by simp [evaluateNode, visit_node, read_visits]
theorem evaluateEntries_visits (L : YamlLib) :
    ∀ (es : List (Node × Node)) (path : List String) (q : ParameterInterface),
      evaluateEntries L es (dir_path path) q = read_visits L (visit_entries L es path) q
  | [], path, q => by simp [evaluateEntries_nil, visit_entries, read_visits]
  | (first, second) :: rest, path, q => by
    rw [evaluateEntries_cons, visit_entries, read_visits_append]
    have hrest : evaluateEntries L rest (dir_path path)
        = read_visits L (visit_entries L rest path) := by
      funext q1
      exact evaluateEntries_visits L rest path q1
    rw [hrest]
    congr 1
    cases second with
    | null => simp [read_entry, Node.IsScalar, Node.IsSequence, Node.IsMap, read_visits]
    | scalar t =>
      simp only [read_entry, Node.IsScalar, Node.IsSequence, Bool.true_or, if_true]
      cases L.as_string first with
      | none => simp [read_visits]
      | some key =>
        simp only [read_visits_single, read_value, Node.IsScalar, if_true,
          dir_path_append_key]
    | sequence items =>
      simp only [read_entry, Node.IsScalar, Node.IsSequence, Bool.or_true, if_true,
        Bool.false_eq_true, if_false]
      cases L.as_string first with
      | none => simp [read_visits]
      | some key =>
        simp only [read_visits_single, read_value, Node.IsScalar, Bool.false_eq_true,
          if_false, dir_path_append_key]
    | map es2 =>
      simp only [read_entry, Node.IsScalar, Node.IsSequence, Node.IsMap, Bool.or_self,
        Bool.false_eq_true, if_false, if_true]
      cases L.as_string first with
      | none => simp [read_visits]
      | some key =>
        simp only []
        rw [← dir_path_snoc]
        exact evaluateNode_visits L (Node.map es2) (path ++ [key]) q
end

theorem evaluateNodes_visits (L : YamlLib) (docs : List Node) (q : ParameterInterface) :
    evaluateNodes L docs q = read_visits L (visit_docs L docs) q := by
  induction docs generalizing q with
  | nil => simp [evaluateNodes, visit_docs, read_visits]
  | cons d rest ih =>
    simp only [evaluateNodes, visit_docs, List.flatMap_cons]
    rw [read_visits_append]
    have h := evaluateNode_visits L d [] q
    simp only [dir_path, List.foldl_nil] at h
    rw [h]
    simp only [and_then]
    split
    · exact ih _
    · rfl

theorem visit_entries_cons (L : YamlLib) (e : Node × Node) (rest : List (Node × Node))
    (path : List String) :
    visit_entries L (e :: rest) path = visit_entry L e path ++ visit_entries L rest path := by
  obtain ⟨first, second⟩ := e
  rw [visit_entries]
  rfl

theorem visit_entries_mem (L : YamlLib) (es : List (Node × Node)) (e : Node × Node)
    (path : List String) (v : Visit) (he : e ∈ es) (hv : v ∈ visit_entry L e path) :
    v ∈ visit_entries L es path := by
  induction es with
  | nil => simp at he
  | cons e1 rest ih =>
    rw [visit_entries_cons, List.mem_append]
    rcases List.mem_cons.1 he with h | h
    · left
      rw [← h]
      exact hv
    · right
      exact ih h

theorem visit_entries_mem_iff (L : YamlLib) (es : List (Node × Node)) (path : List String)
    (v : Visit) :
    v ∈ visit_entries L es path ↔ ∃ e ∈ es, v ∈ visit_entry L e path := by
  induction es with
  | nil => simp [visit_entries]
  | cons e1 rest ih =>
    rw [visit_entries_cons, List.mem_append, ih]
    simp

theorem find_set_calls (ops : List (String × StdAny)) (q : ParameterInterface) (n : String) :
    map_find (set_calls ops q).parameter_set_ n =
      match last_set ops n with
      | some a => some a
      | none => map_find q.parameter_set_ n := by
  induction ops generalizing q with
  | nil => simp [set_calls, last_set]
  | cons op rest ih =>
    obtain ⟨m, a⟩ := op
    simp only [set_calls, last_set]
    rw [ih]
    cases last_set rest n with
    | some b => rfl
    | none =>
      by_cases h : m = n
      · subst h
        simp [find_set_any_self]
      · simp [h, find_set_any_other _ _ _ _ (Ne.symm h)]

theorem last_set_append (l1 l2 : List (String × StdAny)) (n : String) :
    last_set (l1 ++ l2) n =
      match last_set l2 n with
      | some a => some a
      | none => last_set l1 n := by
  induction l1 with
  | nil =>
    simp only [List.nil_append, last_set]
    cases last_set l2 n <;> rfl
  | cons op rest ih =>
    obtain ⟨m, a⟩ := op
    simp only [List.cons_append, last_set, List.append_eq]
    rw [ih]
    cases last_set l2 n <;> rfl

theorem last_set_some_mem (l : List (String × StdAny)) (n : String) (a : StdAny)
    (h : last_set l n = some a) : (n, a) ∈ l := by
  induction l with
  | nil => simp [last_set] at h
  | cons op rest ih =>
    obtain ⟨m, b⟩ := op
    simp only [last_set] at h
    cases h1 : last_set rest n with
    | some c =>
      rw [h1] at h
      simp only [Option.some.injEq] at h
      subst h
      exact List.mem_cons_of_mem _ (ih h1)
    | none =>
      rw [h1] at h
      by_cases h2 : m = n
      · simp only [h2, if_true, Option.some.injEq] at h
        simp [h2, h]
      · simp [h2] at h

theorem last_set_ne_none (l : List (String × StdAny)) (n : String) (a : StdAny)
    (h : (n, a) ∈ l) : last_set l n ≠ none := by
  induction l with
  | nil => simp at h
  | cons op rest ih =>
    obtain ⟨m, b⟩ := op
    simp only [last_set]
    rcases List.mem_cons.1 h with h1 | h1
    · simp only [Prod.mk.injEq] at h1
      cases last_set rest n with
      | some c => simp
      | none => simp [h1.1]
    · have := ih h1
      cases h2 : last_set rest n with
      | some c => simp
      | none => exact absurd h2 this

theorem read_value_probe_shaped (L : YamlLib) (name : String) (nd : Node)
    (q : ParameterInterface) (hs : (nd.IsScalar || nd.IsSequence) = true) :
    read_value L name nd q =
      match probe L nd with
      | some a => (true, set_any q name a)
      | none => (false, q) := by
  cases nd with
  | scalar t => exact read_value_probe L name _ q rfl
  | sequence items =>
    rw [read_value_sequence, readAndAddParameterVector_eq]
    simp only [probe, probe_vector]
    cases parse_all L Ty.int items <;> cases parse_all L Ty.double items <;>
      cases parse_all L Ty.bool items <;> cases parse_all L Ty.string items <;> rfl
  | null => simp [Node.IsScalar, Node.IsSequence] at hs
  | map _ => simp [Node.IsScalar, Node.IsSequence] at hs

theorem read_visits_ok (L : YamlLib) (vs : List Visit) (q : ParameterInterface)
    (hs : ∀ v ∈ vs, v.shaped = true) (ha : ∀ v ∈ vs, (Visit.stored L v).isSome = true) :
    read_visits L vs q = (true, set_calls (stored_leaves L vs) q) := by
  induction vs generalizing q with
  | nil => rfl
  | cons v rest ih =>
    have hs1 := hs v (List.mem_cons_self _ _)
    have ha1 := ha v (List.mem_cons_self _ _)
    cases v with
    | reject => simp [Visit.stored] at ha1
    | leaf path value =>
      simp only [Visit.shaped] at hs1
      simp only [Visit.stored, Option.isSome_map'] at ha1
      simp only [read_visits]
      rw [read_value_probe_shaped L _ value q hs1]
      cases hp : probe L value with
      | none => simp [hp] at ha1
      | some a =>
        simp only [and_then_ok, stored_leaves, List.filterMap_cons, Visit.stored, hp,
          Option.map_some', set_calls]
        exact ih _ (fun w hw => hs w (List.mem_cons_of_mem _ hw))
          (fun w hw => ha w (List.mem_cons_of_mem _ hw))

theorem read_visits_fail (L : YamlLib) (pre post : List Visit) (v : Visit)
    (q : ParameterInterface)
    (hs : ∀ w ∈ pre, w.shaped = true) (ha : ∀ w ∈ pre, (Visit.stored L w).isSome = true)
    (hv : v.shaped = true) (hr : Visit.stored L v = none) :
    read_visits L (pre ++ v :: post) q = (false, set_calls (stored_leaves L pre) q) := by
  rw [read_visits_append, read_visits_ok L pre q hs ha, and_then_ok]
  cases v with
  | reject => rfl
  | leaf path value =>
    simp only [Visit.shaped] at hv
    simp only [Visit.stored, Option.map_eq_none'] at hr
    simp only [read_visits]
    rw [read_value_probe_shaped L _ value _ hv, hr]
    rfl

theorem read_visits_true_iff (L : YamlLib) (vs : List Visit) (q : ParameterInterface)
    (hs : ∀ v ∈ vs, v.shaped = true) :
    (read_visits L vs q).1 = true ↔ ∀ v ∈ vs, (Visit.stored L v).isSome = true := by
  induction vs generalizing q with
  | nil => simp [read_visits]
  | cons v rest ih =>
    have hs1 := hs v (List.mem_cons_self _ _)
    have hrest := fun q1 => ih q1 (fun w hw => hs w (List.mem_cons_of_mem _ hw))
    cases v with
    | reject => simp [read_visits, Visit.stored]
    | leaf path value =>
      simp only [Visit.shaped] at hs1
      simp only [read_visits, List.mem_cons, forall_eq_or_imp, Visit.stored,
        Option.isSome_map']
      rw [read_value_probe_shaped L _ value q hs1]
      cases hp : probe L value with
      | none => simp [and_then]
      | some a =>
        simp only [and_then_ok, Option.isSome_some, true_and]
        exact hrest _

mutual
theorem visit_node_shaped (L : YamlLib) :
    ∀ (n : Node) (path : List String), ∀ v ∈ visit_node L n path, v.shaped = true
  | .map es, path => by
    rw [visit_node]
    exact visit_entries_shaped L es path
  | .null, path => by simp [visit_node]
  | .scalar _, path => by simp [visit_node]
  | .sequence _, path => by simp [visit_node]
theorem visit_entries_shaped (L : YamlLib) :
    ∀ (es : List (Node × Node)) (path : List String),
      ∀ v ∈ visit_entries L es path, v.shaped = true
  | [], path => by simp [visit_entries]
  | (first, second) :: rest, path => by
    intro v hv
    rw [visit_entries_cons, List.mem_append] at hv
    rcases hv with hv | hv
    · unfold visit_entry at hv
      by_cases h1 : (second.IsScalar || second.IsSequence) = true
      · simp only [h1, if_true] at hv
        cases h2 : L.as_string first with
        | none =>
          simp only [h2, List.mem_singleton] at hv
          rw [hv]
          rfl
        | some key =>
          simp only [h2, List.mem_singleton] at hv
          rw [hv]
          exact h1
      · simp only [h1, if_false, Bool.false_eq_true] at hv
        by_cases h3 : second.IsMap = true
        · simp only [h3, if_true] at hv
          cases h2 : L.as_string first with
          | none =>
            simp only [h2, List.mem_singleton] at hv
            rw [hv]
            rfl
          | some key =>
            simp only [h2] at hv
            exact visit_node_shaped L second (path ++ [key]) v hv
        · simp only [h3, if_false, Bool.false_eq_true, List.mem_singleton] at hv
          rw [hv]
          rfl
    · exact visit_entries_shaped L rest path v hv
end

theorem visit_docs_shaped (L : YamlLib) (docs : List Node) :
    ∀ v ∈ visit_docs L docs, v.shaped = true := by
  intro v hv
  simp only [visit_docs, List.mem_flatMap] at hv
  obtain ⟨d, _, hd⟩ := hv
  exact visit_node_shaped L d [] v hd

theorem reaches_is_map (L : YamlLib) (n : Node) (ks : List String) (leaf : Node)
    (h : Reaches L n ks leaf) : ∃ es, n = Node.map es := by
  cases h with
  | leaf es _ _ _ _ _ _ => exact ⟨es, rfl⟩
  | step es _ _ _ _ _ _ _ _ => exact ⟨es, rfl⟩

theorem reaches_mono (L : YamlLib) (es es2 : List (Node × Node)) (ks : List String)
    (leaf : Node) (h : Reaches L (Node.map es) ks leaf) (hsub : ∀ e ∈ es, e ∈ es2) :
    Reaches L (Node.map es2) ks leaf := by
  cases h with
  | leaf _ _ _ _ h1 h2 h3 => exact Reaches.leaf es2 _ _ _ (hsub _ h1) h2 h3
  | step _ _ _ _ _ _ h1 h2 h3 => exact Reaches.step es2 _ _ _ _ _ (hsub _ h1) h2 h3

theorem visit_entry_map (L : YamlLib) (k : Node) (es : List (Node × Node)) (key : String)
    (path : List String) (hk : L.as_string k = some key) :
    visit_entry L (k, Node.map es) path = visit_node L (Node.map es) (path ++ [key]) := by
  simp [visit_entry, Node.IsScalar, Node.IsSequence, Node.IsMap, hk]

theorem visit_entry_leaf (L : YamlLib) (k v : Node) (key : String) (path : List String)
    (hk : L.as_string k = some key) (hv : (v.IsScalar || v.IsSequence) = true) :
    visit_entry L (k, v) path = [Visit.leaf (path ++ [key]) v] := by
  simp [visit_entry, hv, hk]

theorem reaches_visit (L : YamlLib) (n : Node) (ks : List String) (leaf : Node)
    (h : Reaches L n ks leaf) :
    ∀ path : List String, Visit.leaf (path ++ ks) leaf ∈ visit_node L n path := by
  induction h with
  | leaf es k v key h1 h2 h3 =>
    intro path
    rw [visit_node]
    apply visit_entries_mem L es (k, v) path _ h1
    rw [visit_entry_leaf L k v key path h2 h3]
    simp
  | step es k v key ks leaf h1 h2 h3 ih =>
    intro path
    rw [visit_node]
    apply visit_entries_mem L es (k, v) path _ h1
    obtain ⟨es2, hv⟩ := reaches_is_map L v ks leaf h3
    subst hv
    rw [visit_entry_map L k es2 key path h2]
    have := ih (path ++ [key])
    simpa using this

mutual
theorem visit_node_reaches (L : YamlLib) :
    ∀ (n : Node) (path path2 : List String) (leaf : Node),
      Visit.leaf path2 leaf ∈ visit_node L n path →
      ∃ ks, path2 = path ++ ks ∧ Reaches L n ks leaf
  | .map es, path, path2, leaf => by
    intro h
    rw [visit_node] at h
    exact visit_entries_reaches L es path path2 leaf h
  | .null, path, path2, leaf => by simp [visit_node]
  | .scalar _, path, path2, leaf => by simp [visit_node]
  | .sequence _, path, path2, leaf => by simp [visit_node]
theorem visit_entries_reaches (L : YamlLib) :
    ∀ (es : List (Node × Node)) (path path2 : List String) (leaf : Node),
      Visit.leaf path2 leaf ∈ visit_entries L es path →
      ∃ ks, path2 = path ++ ks ∧ Reaches L (Node.map es) ks leaf
  | [], path, path2, leaf => by simp [visit_entries]
  | (first, second) :: rest, path, path2, leaf => by
    intro hv
    rw [visit_entries_cons, List.mem_append] at hv
    rcases hv with hv | hv
    · unfold visit_entry at hv
      by_cases h1 : (second.IsScalar || second.IsSequence) = true
      · simp only [h1, if_true] at hv
        cases h2 : L.as_string first with
        | none => simp [h2] at hv
        | some key =>
          simp only [h2, List.mem_singleton, Visit.leaf.injEq] at hv
          refine ⟨[key], hv.1, ?_⟩
          rw [hv.2]
          exact Reaches.leaf _ first second key (List.mem_cons_self _ _) h2 h1
      · simp only [h1, if_false, Bool.false_eq_true] at hv
        by_cases h3 : second.IsMap = true
        · simp only [h3, if_true] at hv
          cases h2 : L.as_string first with
          | none => simp [h2] at hv
          | some key =>
            simp only [h2] at hv
            obtain ⟨ks, hk1, hk2⟩ := visit_node_reaches L second (path ++ [key]) path2 leaf hv
            refine ⟨key :: ks, by simpa using hk1, ?_⟩
            exact Reaches.step _ first second key ks leaf (List.mem_cons_self _ _) h2 hk2
        · simp [h3] at hv
    · obtain ⟨ks, hk1, hk2⟩ := visit_entries_reaches L rest path path2 leaf hv
      exact ⟨ks, hk1, reaches_mono L rest _ ks leaf hk2
        (fun e he => List.mem_cons_of_mem _ he)⟩
end

theorem parse_all_string_scalars (L : YamlLib)
    (hstr : ∀ s, L.as_string (Node.scalar s) = some s) (items : List Node)
    (h : items.all Node.IsScalar = true) : parse_all L Ty.string items ≠ none := by
  intro hc
  obtain ⟨it, hit, hn⟩ := (parse_all_eq_none_iff L Ty.string items).1 hc
  have hsc := List.all_eq_true.1 h it hit
  cases it with
  | scalar t =>
    simp only [YamlLib.node_as] at hn
    rw [hstr] at hn
    exact absurd hn (by simp)
  | null => simp [Node.IsScalar] at hsc
  | sequence _ => simp [Node.IsScalar] at hsc
  | map _ => simp [Node.IsScalar] at hsc

theorem probe_simple_isSome (L : YamlLib) (hstr : ∀ s, L.as_string (Node.scalar s) = some s)
    (nd : Node) (h : nd.simple = true) : (probe L nd).isSome = true := by
  cases nd with
  | scalar t =>
    simp only [probe, probe_scalar, hstr]
    cases L.as_int (Node.scalar t) <;> cases L.as_double (Node.scalar t) <;>
      cases L.as_bool (Node.scalar t) <;> rfl
  | sequence items =>
    simp only [Node.simple] at h
    have h4 := parse_all_string_scalars L hstr items h
    simp only [probe, probe_vector]
    cases parse_all L Ty.int items <;> cases parse_all L Ty.double items <;>
      cases parse_all L Ty.bool items <;> cases h5 : parse_all L Ty.string items <;>
      first
      | rfl
      | exact absurd h5 h4
  | null => simp [Node.simple] at h
  | map _ => simp [Node.simple] at h

theorem simple_shaped (nd : Node) (h : nd.simple = true) :
    (nd.IsScalar || nd.IsSequence) = true := by
  cases nd <;> simp [Node.simple, Node.IsScalar, Node.IsSequence] at h ⊢

mutual
theorem visit_node_accepted (L : YamlLib) (hstr : ∀ s, L.as_string (Node.scalar s) = some s) :
    ∀ (n : Node) (path : List String), n.param_tree = true →
      ∀ v ∈ visit_node L n path, (Visit.stored L v).isSome = true
  | .map es, path => by
    intro h
    rw [Node.param_tree] at h
    rw [visit_node]
    exact visit_entries_accepted L hstr es path h
  | .null, path => by simp [visit_node]
  | .scalar _, path => by simp [visit_node]
  | .sequence _, path => by simp [visit_node]
theorem visit_entries_accepted (L : YamlLib)
    (hstr : ∀ s, L.as_string (Node.scalar s) = some s) :
    ∀ (es : List (Node × Node)) (path : List String), Node.param_entries es = true →
      ∀ v ∈ visit_entries L es path, (Visit.stored L v).isSome = true
  | [], path => by simp [visit_entries]
  | (first, second) :: rest, path => by
    intro h v hv
    rw [Node.param_entries] at h
    simp only [Bool.and_eq_true] at h
    obtain ⟨⟨hk, hsec⟩, hrest⟩ := h
    rw [visit_entries_cons, List.mem_append] at hv
    rcases hv with hv | hv
    · cases first with
      | scalar key =>
        by_cases h3 : second.IsMap = true
        · simp only [h3, if_true] at hsec
          cases second with
          | map es2 =>
            rw [visit_entry_map L _ es2 key path (hstr key)] at hv
            exact visit_node_accepted L hstr (Node.map es2) (path ++ [key]) hsec v hv
          | null => simp [Node.IsMap] at h3
          | scalar _ => simp [Node.IsMap] at h3
          | sequence _ => simp [Node.IsMap] at h3
        · simp only [h3, if_false, Bool.false_eq_true] at hsec
          rw [visit_entry_leaf L _ second key path (hstr key) (simple_shaped _ hsec)] at hv
          simp only [List.mem_singleton] at hv
          rw [hv]
          simp only [Visit.stored, Option.isSome_map']
          exact probe_simple_isSome L hstr second hsec
      | null => simp [Node.IsScalar] at hk
      | sequence _ => simp [Node.IsScalar] at hk
      | map _ => simp [Node.IsScalar] at hk
    · exact visit_entries_accepted L hstr rest path hrest v hv
end

/-! ## Name flattening, failure and multi-document reads -/

theorem mem_stored_leaves (L : YamlLib) (vs : List Visit) (n : String) (a : StdAny) :
    (n, a) ∈ stored_leaves L vs ↔
      ∃ path nd, Visit.leaf path nd ∈ vs ∧ join_names path = n ∧ probe L nd = some a := by
  simp only [stored_leaves, List.mem_filterMap]
  constructor
  · rintro ⟨v, hv, hs⟩
    cases v with
    | reject => simp [Visit.stored] at hs
    | leaf path nd =>
      simp only [Visit.stored, Option.map_eq_some', Prod.mk.injEq] at hs
      obtain ⟨b, hb, h1, h2⟩ := hs
      exact ⟨path, nd, hv, h1, by rw [hb, h2]⟩
  · rintro ⟨path, nd, hv, h1, h2⟩
    exact ⟨Visit.leaf path nd, hv, by simp [Visit.stored, h2, h1]⟩

theorem stored_leaves_append (L : YamlLib) (vs ws : List Visit) :
    stored_leaves L (vs ++ ws) = stored_leaves L vs ++ stored_leaves L ws := by
  simp [stored_leaves, List.filterMap_append]

theorem read_visits_prefix (L : YamlLib) (vs : List Visit) (q : ParameterInterface)
    (hs : ∀ v ∈ vs, v.shaped = true) :
    ∃ pre post, vs = pre ++ post ∧
      (read_visits L vs q).2 = set_calls (stored_leaves L pre) q := by
  by_cases hall : ∀ v ∈ vs, (Visit.stored L v).isSome = true
  · exact ⟨vs, [], by simp, by rw [read_visits_ok L vs q hs hall]⟩
  · induction vs generalizing q with
    | nil => exact absurd (by simp) hall
    | cons v rest ih =>
      by_cases hv : (Visit.stored L v).isSome = true
      · have hrest : ¬ ∀ w ∈ rest, (Visit.stored L w).isSome = true := by
          intro hc
          apply hall
          intro w hw
          rcases List.mem_cons.1 hw with h | h
          · rw [h]
            exact hv
          · exact hc w h
        cases v with
        | reject => simp [Visit.stored] at hv
        | leaf path nd =>
          have hsh := hs _ (List.mem_cons_self _ _)
          simp only [Visit.shaped] at hsh
          simp only [Visit.stored, Option.isSome_map'] at hv
          cases hp : probe L nd with
          | none => simp [hp] at hv
          | some a =>
            obtain ⟨pre, post, h1, h2⟩ := ih (set_any q (join_names path) a)
              (fun w hw => hs w (List.mem_cons_of_mem _ hw)) hrest
            refine ⟨Visit.leaf path nd :: pre, post, by simp [h1], ?_⟩
            simp only [read_visits]
            rw [read_value_probe_shaped L _ nd q hsh, hp]
            simp only [and_then_ok, stored_leaves, List.filterMap_cons, Visit.stored, hp,
              Option.map_some', set_calls]
            exact h2
      · refine ⟨[], v :: rest, by simp, ?_⟩
        have hnone : Visit.stored L v = none := by
          cases h : Visit.stored L v with
          | none => rfl
          | some x => simp [h] at hv
        have := read_visits_fail L [] rest v q (by simp) (by simp)
          (hs _ (List.mem_cons_self _ _)) hnone
        simp only [List.nil_append] at this
        rw [this]

theorem readFromNode_visits (L : YamlLib) (doc : Node) (p : ParameterInterface) :
    readAndAddParametersFromNode L doc p = read_visits L (visit_node L doc []) p := by
  have h := evaluateNode_visits L doc [] p
  simp only [dir_path, List.foldl_nil] at h
  exact h

theorem hasParam_iff (p : ParameterInterface) (n : String) :
    hasParam p n = true ↔ map_find p.parameter_set_ n ≠ none := by
  unfold hasParam
  cases map_find p.parameter_set_ n <;> simp

/-- C13: reading a document stores every scalar or sequence leaf under the name made of
the keys that lead to it, joined by `/` without a leading or trailing `/`, and adds no
other name: every name of the resulting store was in the store before or is the joined
key path of a leaf of the document; when the read completes, every leaf reached through
keys `k1, ..., kn` has its joined name in the store, holding the value a probe gives for
a leaf of that name; and the read completes for every document of nested maps with scalar
keys whose leaves are scalars or sequences of scalars. -/
theorem C13_name_flattening (L : YamlLib) (doc : Node) (p : ParameterInterface) :
    (∀ n, hasParam (readAndAddParametersFromNode L doc p).2 n = true →
      hasParam p n = true ∨ ∃ ks leaf, Reaches L doc ks leaf ∧ n = join_names ks) ∧
    ((readAndAddParametersFromNode L doc p).1 = true →
      ∀ ks leaf, Reaches L doc ks leaf →
        ∃ a, map_find (readAndAddParametersFromNode L doc p).2.parameter_set_ (join_names ks)
            = some a ∧
          ∃ ks2 leaf2, Reaches L doc ks2 leaf2 ∧ join_names ks2 = join_names ks ∧
            probe L leaf2 = some a) ∧
    ((∀ s, L.as_string (Node.scalar s) = some s) → doc.param_tree = true →
      (readAndAddParametersFromNode L doc p).1 = true) := by
  have hsh := visit_node_shaped L doc []
  refine ⟨?_, ?_, ?_⟩
  · intro n hn
    obtain ⟨pre, post, h1, h2⟩ := read_visits_prefix L (visit_node L doc []) p hsh
    rw [readFromNode_visits, h2, hasParam_iff, find_set_calls] at hn
    cases hl : last_set (stored_leaves L pre) n with
    | none =>
      rw [hl] at hn
      exact Or.inl ((hasParam_iff p n).2 hn)
    | some a =>
      right
      obtain ⟨path, nd, hv, hj, _⟩ :=
        (mem_stored_leaves L pre n a).1 (last_set_some_mem _ n a hl)
      have hv2 : Visit.leaf path nd ∈ visit_node L doc [] := by
        rw [h1]
        exact List.mem_append_left _ hv
      obtain ⟨ks, hk1, hk2⟩ := visit_node_reaches L doc [] path nd hv2
      simp only [List.nil_append] at hk1
      exact ⟨ks, nd, hk2, by rw [← hj, hk1]⟩
  · intro hok ks leaf hr
    rw [readFromNode_visits] at hok ⊢
    have hall := (read_visits_true_iff L _ p hsh).1 hok
    rw [read_visits_ok L _ p hsh hall]
    have hv := reaches_visit L doc ks leaf hr []
    simp only [List.nil_append] at hv
    have hst := hall _ hv
    simp only [Visit.stored, Option.isSome_map'] at hst
    cases hp : probe L leaf with
    | none => simp [hp] at hst
    | some a0 =>
      have hmem : (join_names ks, a0) ∈ stored_leaves L (visit_node L doc []) :=
        (mem_stored_leaves L _ _ _).2 ⟨ks, leaf, hv, rfl, hp⟩
      cases hl : last_set (stored_leaves L (visit_node L doc [])) (join_names ks) with
      | none => exact absurd hl (last_set_ne_none _ _ _ hmem)
      | some a =>
        refine ⟨a, by rw [find_set_calls, hl], ?_⟩
        obtain ⟨path, nd, hv2, hj, hp2⟩ :=
          (mem_stored_leaves L _ _ a).1 (last_set_some_mem _ _ a hl)
        obtain ⟨ks2, hk1, hk2⟩ := visit_node_reaches L doc [] path nd hv2
        simp only [List.nil_append] at hk1
        exact ⟨ks2, nd, hk2, by rw [← hk1, hj], hp2⟩
  · intro hstr ht
    rw [readFromNode_visits]
    exact (read_visits_true_iff L _ p hsh).2 (visit_node_accepted L hstr doc [] ht)

theorem scenario_reaches :
    Reaches reference_lib scenario_doc ["a", "b"] (Node.scalar "1") :=
  Reaches.step
    [(Node.scalar "a",
        Node.map [(Node.scalar "b", Node.scalar "1"),
          (Node.scalar "c", Node.sequence [Node.scalar "true", Node.scalar "false"])]),
      (Node.scalar "d", Node.scalar "x")]
    (Node.scalar "a")
    (Node.map [(Node.scalar "b", Node.scalar "1"),
      (Node.scalar "c", Node.sequence [Node.scalar "true", Node.scalar "false"])])
    "a" ["b"] (Node.scalar "1") (List.mem_cons_self _ _) rfl
    (Reaches.leaf
      [(Node.scalar "b", Node.scalar "1"),
        (Node.scalar "c", Node.sequence [Node.scalar "true", Node.scalar "false"])]
      (Node.scalar "b") (Node.scalar "1") "b" (List.mem_cons_self _ _) rfl rfl)

/-- Witness for C13: the scenario document, whose leaf `1` is reached through `a`, `b`. -/
theorem C13_name_flattening_witness :
    (∀ s, reference_lib.as_string (Node.scalar s) = some s) ∧
    scenario_doc.param_tree = true ∧
    Reaches reference_lib scenario_doc ["a", "b"] (Node.scalar "1") ∧
    join_names ["a", "b"] = "a/b" ∧
    (readAndAddParametersFromNode reference_lib scenario_doc fresh).1 = true ∧
    (∃ a, map_find (readAndAddParametersFromNode reference_lib scenario_doc
          fresh).2.parameter_set_ (join_names ["a", "b"]) = some a ∧
      ∃ ks2 leaf2, Reaches reference_lib scenario_doc ks2 leaf2 ∧
        join_names ks2 = join_names ["a", "b"] ∧ probe reference_lib leaf2 = some a) :=
  ⟨fun _ => rfl, by decide, scenario_reaches, by decide,
    (C13_name_flattening reference_lib scenario_doc fresh).2.2 (fun _ => rfl) (by decide),
    (C13_name_flattening reference_lib scenario_doc fresh).2.1 (by decide) ["a", "b"]
      (Node.scalar "1") scenario_reaches⟩

theorem readFromString_visits (L : YamlLib) (text : YamlText) (docs : List Node)
    (p : ParameterInterface) (h : LoadAll text = some docs) :
    readAndAddParametersFromString L text p = read_visits L (visit_docs L docs) p := by
  simp only [readAndAddParametersFromString, h]
  exact evaluateNodes_visits L docs p

/-- C14: a read entry point returns a flag and never throws.  It returns true exactly when
the walk meets no rejection (a value that is neither scalar, sequence nor map, a key that
does not convert, or a value no type accepts).  When the entries met before the first
rejection are all accepted, it returns false and the store holds every parameter set
before that point with its parsed value: the store is the one obtained by the `setParam`
calls of the entries before the rejection and by nothing else.  A parser exception of the
loader gives false with the store unchanged. -/
theorem C14_read_failure (L : YamlLib) :
    (∀ (doc : Node) (p : ParameterInterface),
      (readAndAddParametersFromNode L doc p).1 = true ↔
        ∀ v ∈ visit_node L doc [], (Visit.stored L v).isSome = true) ∧
    (∀ (doc : Node) (p : ParameterInterface) (pre post : List Visit) (v : Visit),
      visit_node L doc [] = pre ++ v :: post →
      (∀ w ∈ pre, (Visit.stored L w).isSome = true) → Visit.stored L v = none →
      readAndAddParametersFromNode L doc p = (false, set_calls (stored_leaves L pre) p) ∧
      ∀ n a, last_set (stored_leaves L pre) n = some a →
        map_find (readAndAddParametersFromNode L doc p).2.parameter_set_ n = some a) ∧
    (∀ (text : YamlText) (docs : List Node) (p : ParameterInterface),
      LoadAll text = some docs →
      ((readAndAddParametersFromString L text p).1 = true ↔
        ∀ v ∈ visit_docs L docs, (Visit.stored L v).isSome = true)) ∧
    (∀ (text : YamlText) (docs : List Node) (p : ParameterInterface) (pre post : List Visit)
      (v : Visit), LoadAll text = some docs →
      visit_docs L docs = pre ++ v :: post →
      (∀ w ∈ pre, (Visit.stored L w).isSome = true) → Visit.stored L v = none →
      readAndAddParametersFromString L text p = (false, set_calls (stored_leaves L pre) p)) ∧
    (∀ (text : YamlText) (p : ParameterInterface),
      LoadAll text = none → readAndAddParametersFromString L text p = (false, p)) := by
  refine ⟨?_, ?_, ?_, ?_, ?_⟩
  · intro doc p
    rw [readFromNode_visits]
    exact read_visits_true_iff L _ p (visit_node_shaped L doc [])
  · intro doc p pre post v hsplit hpre hv
    have hsh := visit_node_shaped L doc []
    rw [hsplit] at hsh
    have h := read_visits_fail L pre post v p
      (fun w hw => hsh w (List.mem_append_left _ hw)) hpre
      (hsh v (List.mem_append_right _ (List.mem_cons_self _ _))) hv
    rw [readFromNode_visits, hsplit, h]
    refine ⟨rfl, fun n a hl => ?_⟩
    rw [find_set_calls, hl]
  · intro text docs p hload
    rw [readFromString_visits L text docs p hload]
    exact read_visits_true_iff L _ p (visit_docs_shaped L docs)
  · intro text docs p pre post v hload hsplit hpre hv
    have hsh := visit_docs_shaped L docs
    rw [hsplit] at hsh
    rw [readFromString_visits L text docs p hload, hsplit]
    exact read_visits_fail L pre post v p
      (fun w hw => hsh w (List.mem_append_left _ hw)) hpre
      (hsh v (List.mem_append_right _ (List.mem_cons_self _ _))) hv
  · intro text p hload
    simp [readAndAddParametersFromString, hload]

/-- Witness for C14: the document `b: 1, v: ~, c: 2`; the walk is rejected at the null
value, the read returns false and the store holds `b = 1` only. -/
theorem C14_read_failure_witness :
    visit_node reference_lib null_value_doc []
      = [Visit.leaf ["b"] (Node.scalar "1")] ++ Visit.reject ::
          [Visit.leaf ["c"] (Node.scalar "2")] ∧
    (∀ w ∈ [Visit.leaf ["b"] (Node.scalar "1")],
      (Visit.stored reference_lib w).isSome = true) ∧
    Visit.stored reference_lib Visit.reject = none ∧
    readAndAddParametersFromNode reference_lib null_value_doc fresh
      = (false, set_calls (stored_leaves reference_lib [Visit.leaf ["b"] (Node.scalar "1")])
          fresh) ∧
    set_calls (stored_leaves reference_lib [Visit.leaf ["b"] (Node.scalar "1")]) fresh
      = fresh.setParam (T := Ty.int) "b" (1 : Int) :=
  ⟨rfl, by decide, rfl,
    ((C14_read_failure reference_lib).2.1 null_value_doc fresh
      [Visit.leaf ["b"] (Node.scalar "1")] [Visit.leaf ["c"] (Node.scalar "2")] Visit.reject
      rfl (by decide) rfl).1,
    by decide⟩

theorem visit_docs_cons (L : YamlLib) (d : Node) (ds : List Node) :
    stored_leaves L (visit_docs L (d :: ds))
      = doc_stores L d ++ stored_leaves L (visit_docs L ds) := by
  simp [visit_docs, doc_stores, stored_leaves_append]

theorem visit_docs_append (L : YamlLib) (ds1 ds2 : List Node) :
    stored_leaves L (visit_docs L (ds1 ++ ds2))
      = stored_leaves L (visit_docs L ds1) ++ stored_leaves L (visit_docs L ds2) := by
  simp [visit_docs, stored_leaves_append]

theorem last_set_docs_none (L : YamlLib) (ds : List Node) (n : String)
    (h : ∀ d ∈ ds, last_set (doc_stores L d) n = none) :
    last_set (stored_leaves L (visit_docs L ds)) n = none := by
  induction ds with
  | nil => rfl
  | cons d rest ih =>
    rw [visit_docs_cons, last_set_append, ih (fun d2 hd => h d2 (List.mem_cons_of_mem _ hd))]
    exact h d (List.mem_cons_self _ _)

theorem last_set_docs_ne_none (L : YamlLib) (ds : List Node) (n : String) :
    last_set (stored_leaves L (visit_docs L ds)) n ≠ none ↔
      ∃ d ∈ ds, last_set (doc_stores L d) n ≠ none := by
  induction ds with
  | nil => simp [visit_docs, stored_leaves, last_set]
  | cons d rest ih =>
    rw [visit_docs_cons, last_set_append]
    simp only [List.mem_cons, exists_eq_or_imp]
    cases h1 : last_set (stored_leaves L (visit_docs L rest)) n with
    | none =>
      rw [h1] at ih
      have h2 : ¬ ∃ d ∈ rest, last_set (doc_stores L d) n ≠ none := fun hc => ih.2 hc rfl
      simp only [h2, or_false]
    | some a =>
      rw [h1] at ih
      have h2 := ih.1 (by simp)
      simp [h2]

/-- C15: reading a stream of documents walks the documents in order on the same store.
When the read completes, the resulting store holds exactly the names of the store before
and of all documents, and a name that some document stores holds the value, with its type,
stored by the last document that stores it. -/
theorem C15_multi_document (L : YamlLib) (text : YamlText) (docs : List Node)
    (p : ParameterInterface) (hload : LoadAll text = some docs) :
    readAndAddParametersFromString L text p = evaluateNodes L docs p ∧
    readAndAddParametersFromFile L (some text) p = evaluateNodes L docs p ∧
    ((evaluateNodes L docs p).1 = true →
      (∀ n, hasParam (evaluateNodes L docs p).2 n = true ↔
        (hasParam p n = true ∨ ∃ d ∈ docs, last_set (doc_stores L d) n ≠ none)) ∧
      (∀ (ds1 ds2 : List Node) (d : Node) (n : String) (a : StdAny),
        docs = ds1 ++ d :: ds2 → last_set (doc_stores L d) n = some a →
        (∀ d2 ∈ ds2, last_set (doc_stores L d2) n = none) →
        map_find (evaluateNodes L docs p).2.parameter_set_ n = some a)) := by
  refine ⟨by simp [readAndAddParametersFromString, hload],
    by simp [readAndAddParametersFromFile, readAndAddParametersFromString, hload], ?_⟩
  intro hok
  rw [evaluateNodes_visits] at hok ⊢
  have hsh := visit_docs_shaped L docs
  have hall := (read_visits_true_iff L _ p hsh).1 hok
  rw [read_visits_ok L _ p hsh hall]
  constructor
  · intro n
    rw [hasParam_iff, find_set_calls, hasParam_iff, ← last_set_docs_ne_none]
    cases last_set (stored_leaves L (visit_docs L docs)) n with
    | none => simp
    | some a => simp
  · intro ds1 ds2 d n a hsplit hd hlater
    rw [find_set_calls, hsplit, visit_docs_append, visit_docs_cons, last_set_append,
      last_set_append, last_set_docs_none L ds2 n hlater]
    simp only [doc_stores] at hd
    simp only [doc_stores, hd]

/-- Witness for C15: the stream `a: 1, b: x` followed by `a: true`; the store read holds
`a` as the bool of the second document and `b` from the first. -/
theorem C15_multi_document_witness :
    LoadAll two_docs_text
      = some [Node.map [(Node.scalar "a", Node.scalar "1"), (Node.scalar "b", Node.scalar "x")],
          Node.map [(Node.scalar "a", Node.scalar "true")]] ∧
    (readAndAddParametersFromString reference_lib two_docs_text fresh).1 = true ∧
    map_find (readAndAddParametersFromString reference_lib two_docs_text fresh).2.parameter_set_
      "a" = some ⟨Ty.bool, true⟩ ∧
    map_find (readAndAddParametersFromString reference_lib two_docs_text fresh).2.parameter_set_
      "b" = some ⟨Ty.string, "x"⟩ ∧
    map_find (evaluateNodes reference_lib
      [Node.map [(Node.scalar "a", Node.scalar "1"), (Node.scalar "b", Node.scalar "x")],
          Node.map [(Node.scalar "a", Node.scalar "true")]] fresh).2.parameter_set_ "a"
      = some ⟨Ty.bool, true⟩ :=
  ⟨rfl, by decide, by decide, by decide,
    ((C15_multi_document reference_lib two_docs_text
      [Node.map [(Node.scalar "a", Node.scalar "1"), (Node.scalar "b", Node.scalar "x")],
        Node.map [(Node.scalar "a", Node.scalar "true")]] fresh rfl).2.2 (by decide)).2
      [Node.map [(Node.scalar "a", Node.scalar "1"), (Node.scalar "b", Node.scalar "x")]] []
      (Node.map [(Node.scalar "a", Node.scalar "true")]) "a" ⟨Ty.bool, true⟩ rfl (by decide)
      (by simp)⟩

/-! ## Names, overwriting and the update flag -/

theorem valid_set_any (q : ParameterInterface) (n : String) (a : StdAny) (h : q.valid) :
    (set_any q n a).valid :=
  valid_setParam a.ty q n a.val h

theorem valid_set_calls (ops : List (String × StdAny)) (q : ParameterInterface)
    (h : q.valid) : (set_calls ops q).valid := by
  induction ops generalizing q with
  | nil => exact h
  | cons op rest ih =>
    obtain ⟨n, a⟩ := op
    exact ih _ (valid_set_any q n a h)

theorem last_set_ne_none_iff (ops : List (String × StdAny)) (n : String) :
    last_set ops n ≠ none ↔ n ∈ ops.map Prod.fst := by
  constructor
  · intro h
    cases hl : last_set ops n with
    | none => exact absurd hl h
    | some a =>
      have := last_set_some_mem ops n a hl
      exact List.mem_map.2 ⟨(n, a), this, rfl⟩
  · intro h
    obtain ⟨e, he, hn⟩ := List.mem_map.1 h
    obtain ⟨m, a⟩ := e
    simp only at hn
    subst hn
    exact last_set_ne_none ops m a he

theorem names_of_valid (q : ParameterInterface) (h : q.valid) :
    q.getAllParameterNames = q.parameter_set_.map Prod.fst :=
  sort_eq_of_pairwise _ h

theorem pairwise_less_nodup (l : List String)
    (h : l.Pairwise (fun a b => string_less a b = true)) : l.Nodup := by
  refine List.Pairwise.imp ?_ h
  intro a b hab hc
  rw [hc, string_less_irrefl] at hab
  exact Bool.false_ne_true hab

/-- C16: for every store reached from a fresh one by a sequence of `setParam` calls,
`getAllParameterNames` returns exactly the names that have been set, each once, in
strictly ascending lexicographic order. -/
theorem C16_all_names (ops : List (String × StdAny)) :
    (∀ n, n ∈ (set_calls ops fresh).getAllParameterNames ↔ n ∈ ops.map Prod.fst) ∧
    (set_calls ops fresh).getAllParameterNames.Nodup ∧
    (set_calls ops fresh).getAllParameterNames.Pairwise (fun a b => string_less a b = true) := by
  have hv : (set_calls ops fresh).valid := valid_set_calls ops fresh valid_fresh
  have hs : (set_calls ops fresh).getAllParameterNames.Pairwise
      (fun a b => string_less a b = true) := by
    rw [names_of_valid _ hv]
    exact hv
  refine ⟨fun n => ?_, pairwise_less_nodup _ hs, hs⟩
  rw [find_names, find_set_calls, ← last_set_ne_none_iff]
  cases last_set ops n with
  | none => simp [fresh, map_find]
  | some a => simp

/-- C17: after `setParam(n, v1)` followed by `setParam(n, v2)` with `v2` of a different
type `T2`, a store with strictly ascending keys lists `n` once in `getAllParameterNames`
and holds one entry for it, `getParam<T2>(n, out)` returns true with `out = v2`, and
`hasParamOfType` of the type of `v1` is true exactly when `T2` is int and int converts to
that type. -/
theorem C17_overwrite (p : ParameterInterface) (hvalid : p.valid) (n : String) (T1 T2 : Ty)
    (v1 : T1.denote) (v2 out : T2.denote) (hne : T1 ≠ T2) :
    ((p.setParam n v1).setParam n v2).getAllParameterNames.count n = 1 ∧
    (((p.setParam n v1).setParam n v2).parameter_set_.map Prod.fst).count n = 1 ∧
    getParam T2 ((p.setParam n v1).setParam n v2) n out = (true, v2) ∧
    hasParamOfType T1 ((p.setParam n v1).setParam n v2) n
      = (decide (T2 = Ty.int) && is_convertible_int T1) := by
  have hv : ((p.setParam n v1).setParam n v2).valid :=
    valid_setParam T2 _ n v2 (valid_setParam T1 p n v1 hvalid)
  have hfind := find_setParam_self T2 (p.setParam n v1) n v2
  have hmem : n ∈ ((p.setParam n v1).setParam n v2).parameter_set_.map Prod.fst := by
    by_contra hc
    rw [(map_find_eq_none_iff _ _).2 hc] at hfind
    exact absurd hfind (by simp)
  have hcount : (((p.setParam n v1).setParam n v2).parameter_set_.map Prod.fst).count n = 1 :=
    List.count_eq_one_of_mem (pairwise_less_nodup _ hv) hmem
  refine ⟨?_, hcount, getParamImpl_of_find_same T2 _ n out v2 hfind, ?_⟩
  · rw [names_of_valid _ hv]
    exact hcount
  · rw [hasParamOfType_of_find T1 _ n _ hfind]
    have h1 : isType T1 (StdAny.of v2) = false := by
      simp [isType, StdAny.of, Ne.symm hne]
    have h2 : isType Ty.int (StdAny.of v2) = decide (T2 = Ty.int) := by
      simp [isType, StdAny.of]
    rw [h1, h2, Bool.false_or, Bool.and_comm]

/-- Witness for C17: the name `n` set to the int 3 and then to the string `x` in a fresh
store. -/
theorem C17_overwrite_witness :
    (fresh).valid ∧ Ty.int ≠ Ty.string ∧
    ((fresh.setParam (T := Ty.int) "n" (3 : Int)).setParam (T := Ty.string) "n"
      "x").getAllParameterNames.count "n" = 1 ∧
    (((fresh.setParam (T := Ty.int) "n" (3 : Int)).setParam (T := Ty.string) "n"
      "x").parameter_set_.map Prod.fst).count "n" = 1 ∧
    getParam Ty.string ((fresh.setParam (T := Ty.int) "n" (3 : Int)).setParam
      (T := Ty.string) "n" "x") "n" "" = (true, "x") ∧
    hasParamOfType Ty.int ((fresh.setParam (T := Ty.int) "n" (3 : Int)).setParam
      (T := Ty.string) "n" "x") "n"
      = (decide (Ty.string = Ty.int) && is_convertible_int Ty.int) :=
  ⟨valid_fresh, by decide,
    C17_overwrite fresh valid_fresh "n" Ty.int Ty.string (3 : Int) "x" "" (by decide)⟩

theorem run_calls_flag (calls : List Call) (p : ParameterInterface) :
    hasBeenUpdated (run_calls calls p) = true ↔
      (∃ pre post name a, calls = pre ++ Call.setParam name a :: post ∧
        ∀ c ∈ post, c.is_reset = false) ∨
      (hasBeenUpdated p = true ∧ ∀ c ∈ calls, c.is_reset = false) := by
  induction calls generalizing p with
  | nil => simp [run_calls]
  | cons c rest ih =>
    simp only [run_calls]
    rw [ih]
    have hsplit : ∀ (hc : c.is_set = false),
        ((∃ pre post name a, c :: rest = pre ++ Call.setParam name a :: post ∧
          ∀ d ∈ post, d.is_reset = false) ↔
        (∃ pre post name a, rest = pre ++ Call.setParam name a :: post ∧
          ∀ d ∈ post, d.is_reset = false)) := by
      intro hc
      constructor
      · rintro ⟨pre, post, name, a, h1, h2⟩
        cases pre with
        | nil =>
          simp only [List.nil_append, List.cons.injEq] at h1
          rw [h1.1] at hc
          simp [Call.is_set] at hc
        | cons x pre2 =>
          simp only [List.cons_append, List.cons.injEq] at h1
          exact ⟨pre2, post, name, a, h1.2, h2⟩
      · rintro ⟨pre, post, name, a, h1, h2⟩
        exact ⟨c :: pre, post, name, a, by simp [h1], h2⟩
    cases c with
    | setParam name a =>
      simp only [Call.apply, hasBeenUpdated, set_any, setParam, true_and]
      constructor
      · rintro (⟨pre, post, name2, a2, h1, h2⟩ | h)
        · exact Or.inl ⟨Call.setParam name a :: pre, post, name2, a2, by simp [h1], h2⟩
        · exact Or.inl ⟨[], rest, name, a, rfl, h⟩
      · rintro (⟨pre, post, name2, a2, h1, h2⟩ | ⟨_, h⟩)
        · cases pre with
          | nil =>
            simp only [List.nil_append, List.cons.injEq] at h1
            right
            rw [h1.2]
            exact h2
          | cons x pre2 =>
            simp only [List.cons_append, List.cons.injEq] at h1
            exact Or.inl ⟨pre2, post, name2, a2, h1.2, h2⟩
        · right
          exact fun d hd => h d (List.mem_cons_of_mem _ hd)
    | resetUpdateFlag =>
      rw [hsplit rfl]
      simp [Call.apply, hasBeenUpdated, resetUpdateFlag, Call.is_reset]
    | getParam T name =>
      rw [hsplit rfl]
      simp [Call.apply, Call.is_reset]
    | getParamOrThrow T name =>
      rw [hsplit rfl]
      simp [Call.apply, Call.is_reset]
    | hasParam name =>
      rw [hsplit rfl]
      simp [Call.apply, Call.is_reset]
    | hasParamOfType T name =>
      rw [hsplit rfl]
      simp [Call.apply, Call.is_reset]
    | getAllParameterNames =>
      rw [hsplit rfl]
      simp [Call.apply, Call.is_reset]
    | hasBeenUpdated =>
      rw [hsplit rfl]
      simp [Call.apply, Call.is_reset]

/-- C18: `hasBeenUpdated` is false on a freshly constructed store; after any sequence of
calls it is true exactly when some `setParam` call is followed by no `resetUpdateFlag`;
`setParam` sets it, `resetUpdateFlag` clears it, and the getters, `hasParam`,
`hasParamOfType` and `getAllParameterNames` leave it as it was. -/
theorem C18_update_flag :
    hasBeenUpdated fresh = false ∧
    (∀ calls : List Call, hasBeenUpdated (run_calls calls fresh) = true ↔
      ∃ pre post name a, calls = pre ++ Call.setParam name a :: post ∧
        ∀ c ∈ post, c.is_reset = false) ∧
    (∀ (p : ParameterInterface) (T : Ty) (name : String) (v : T.denote),
      hasBeenUpdated (p.setParam name v) = true) ∧
    (∀ p : ParameterInterface, hasBeenUpdated p.resetUpdateFlag = false) ∧
    (∀ (c : Call) (p : ParameterInterface), c.is_set = false → c.is_reset = false →
      c.apply p = p) := by
  refine ⟨rfl, fun calls => ?_, fun p T name v => rfl, fun p => rfl, fun c p h1 h2 => ?_⟩
  · rw [run_calls_flag]
    simp [hasBeenUpdated, fresh]
  · cases c with
    | setParam name a => simp [Call.is_set] at h1
    | resetUpdateFlag => simp [Call.is_reset] at h2
    | getParam T name => rfl
    | getParamOrThrow T name => rfl
    | hasParam name => rfl
    | hasParamOfType T name => rfl
    | getAllParameterNames => rfl
    | hasBeenUpdated => rfl

/-- Witness for C18: `setParam`, `resetUpdateFlag`, `getParam`, `setParam`, `hasParam` on a
fresh store; the last `setParam` is followed by no reset, and the flag is true. -/
theorem C18_update_flag_witness :
    ([Call.setParam "a" ⟨Ty.int, (3 : Int)⟩, Call.resetUpdateFlag, Call.getParam Ty.int "a",
        Call.setParam "b" ⟨Ty.bool, true⟩, Call.hasParam "a"]
      = [Call.setParam "a" ⟨Ty.int, (3 : Int)⟩, Call.resetUpdateFlag, Call.getParam Ty.int "a"]
        ++ Call.setParam "b" ⟨Ty.bool, true⟩ :: [Call.hasParam "a"]) ∧
    (∀ c ∈ [Call.hasParam "a"], c.is_reset = false) ∧
    hasBeenUpdated (run_calls
      [Call.setParam "a" ⟨Ty.int, (3 : Int)⟩, Call.resetUpdateFlag, Call.getParam Ty.int "a",
        Call.setParam "b" ⟨Ty.bool, true⟩, Call.hasParam "a"] fresh) = true ∧
    hasBeenUpdated (run_calls
      [Call.setParam "a" ⟨Ty.int, (3 : Int)⟩, Call.resetUpdateFlag, Call.getParam Ty.int "a"]
      fresh) = false ∧
    (Call.hasParam "a").apply (fresh.setParam (T := Ty.int) "a" (3 : Int))
      = fresh.setParam (T := Ty.int) "a" (3 : Int) :=
  ⟨rfl, by simp [Call.is_reset],
    (C18_update_flag.2.1 _).2
      ⟨[Call.setParam "a" ⟨Ty.int, (3 : Int)⟩, Call.resetUpdateFlag, Call.getParam Ty.int "a"],
        [Call.hasParam "a"], "b", ⟨Ty.bool, true⟩, rfl, by simp [Call.is_reset]⟩,
    by decide,
    C18_update_flag.2.2.2.2 (Call.hasParam "a") _ rfl rfl⟩

/-! ## Double canonicalization -/

theorem digit_value_digitChar (k : Nat) (h : k < 10) :
    digit_value (Nat.digitChar k) = some k := by
  interval_cases k <;> rfl

theorem digitChar_ne_dot (k : Nat) (h : k < 10) : Nat.digitChar k ≠ '.' := by
  interval_cases k <;> decide

theorem digitChar_ne_minus (k : Nat) (h : k < 10) : Nat.digitChar k ≠ '-' := by
  interval_cases k <;> decide

theorem toDigitsCore_append (fuel n : Nat) (ds : List Char) :
    Nat.toDigitsCore 10 fuel n ds = Nat.toDigitsCore 10 fuel n [] ++ ds := by
  induction fuel generalizing n ds with
  | zero => simp [Nat.toDigitsCore]
  | succ f ih =>
    simp only [Nat.toDigitsCore]
    split
    · simp
    · rw [ih (n / 10) (Nat.digitChar (n % 10) :: ds), ih (n / 10) [Nat.digitChar (n % 10)]]
      simp

theorem parse_digits_toDigitsCore (fuel n : Nat) (ds : List Char) (h : n < fuel) :
    parse_digits (Nat.toDigitsCore 10 fuel n ds) 0 = parse_digits ds n := by
  induction fuel generalizing n ds with
  | zero => exact absurd h (Nat.not_lt_zero _)
  | succ f ih =>
    simp only [Nat.toDigitsCore]
    split
    · rename_i h0
      have hn : n % 10 = n := by omega
      simp only [parse_digits, digit_value_digitChar _ (Nat.mod_lt n (by omega))]
      rw [hn]
      simp
    · rename_i h0
      rw [ih (n / 10) _ (by omega)]
      simp only [parse_digits, digit_value_digitChar _ (Nat.mod_lt n (by omega))]
      have hn : n / 10 * 10 + n % 10 = n := by omega
      rw [hn]

theorem toDigitsCore_chars (fuel n : Nat) (ds : List Char) :
    ∀ c ∈ Nat.toDigitsCore 10 fuel n ds, c ∈ ds ∨ ∃ k, k < 10 ∧ c = Nat.digitChar k := by
  induction fuel generalizing n ds with
  | zero =>
    intro c hc
    simp only [Nat.toDigitsCore] at hc
    exact Or.inl hc
  | succ f ih =>
    intro c hc
    simp only [Nat.toDigitsCore] at hc
    split at hc
    · rcases List.mem_cons.1 hc with h | h
      · exact Or.inr ⟨n % 10, Nat.mod_lt n (by omega), h⟩
      · exact Or.inl h
    · rcases ih _ _ c hc with h | h
      · rcases List.mem_cons.1 h with h | h
        · exact Or.inr ⟨n % 10, Nat.mod_lt n (by omega), h⟩
        · exact Or.inl h
      · exact Or.inr h

theorem toDigitsCore_ne_nil (fuel n : Nat) (ds : List Char) :
    Nat.toDigitsCore 10 (fuel + 1) n ds ≠ [] := by
  induction fuel generalizing n ds with
  | zero =>
    simp only [Nat.toDigitsCore]
    split <;> simp
  | succ f ih =>
    rw [Nat.toDigitsCore]
    split
    · simp
    · exact ih _ _

theorem nat_text_data (n : Nat) : (toString n).data = Nat.toDigitsCore 10 (n + 1) n [] := rfl

theorem nat_text_digits (n : Nat) :
    ∀ c ∈ (toString n).data, c ≠ '.' ∧ c ≠ '-' := by
  intro c hc
  rw [nat_text_data] at hc
  rcases toDigitsCore_chars _ _ _ c hc with h | ⟨k, hk, h⟩
  · simp at h
  · rw [h]
    exact ⟨digitChar_ne_dot k hk, digitChar_ne_minus k hk⟩

theorem nat_text_ne_nil (n : Nat) : (toString n).data ≠ [] := by
  rw [nat_text_data]
  exact toDigitsCore_ne_nil n n []

theorem parse_digits_nat_text (n : Nat) (rest : List Char) :
    parse_digits ((toString n).data ++ rest) 0 = parse_digits rest n := by
  rw [nat_text_data, ← toDigitsCore_append]
  exact parse_digits_toDigitsCore (n + 1) n rest (Nat.lt_succ_self n)

theorem parse_nat_of_ne_nil (cs : List Char) (h : cs ≠ []) :
    parse_nat cs = parse_digits cs 0 := by
  cases cs with
  | nil => exact absurd rfl h
  | cons _ _ => rfl

theorem parse_digits_dot (cs rest : List Char) (acc : Nat) :
    parse_digits (cs ++ '.' :: rest) acc = none := by
  induction cs generalizing acc with
  | nil =>
    have h : digit_value '.' = none := by decide
    simp [parse_digits, h]
  | cons c cs ih =>
    simp only [List.cons_append, parse_digits]
    cases digit_value c with
    | none => rfl
    | some d => exact ih _

theorem parse_nat_dot (cs rest : List Char) : parse_nat (cs ++ '.' :: rest) = none := by
  rw [parse_nat_of_ne_nil _ (by simp)]
  exact parse_digits_dot cs rest 0

theorem parse_int_dot (cs rest : List Char) : parse_int (cs ++ '.' :: rest) = none := by
  have key : ∀ r : Option Int, r = none →
      (match r with
        | some i => if - 2 ^ 31 ≤ i ∧ i < 2 ^ 31 then some i else none
        | none => none) = none := by
    intro r hr
    rw [hr]
  unfold parse_int
  apply key
  cases cs with
  | nil =>
    have h : parse_nat ('.' :: rest) = none := parse_nat_dot [] rest
    simp only [List.nil_append]
    split
    · rename_i heq
      simp at heq
    · rw [h]
      rfl
  | cons c cs2 =>
    simp only [List.cons_append]
    split
    · rename_i r2 heq
      simp only [List.cons.injEq] at heq
      rw [← heq.2, parse_nat_dot]
      rfl
    · have h : parse_nat (c :: (cs2 ++ '.' :: rest)) = none := parse_nat_dot (c :: cs2) rest
      rw [h]
      rfl

theorem takeWhile_not_dot (cs rest : List Char) (h : ∀ c ∈ cs, c ≠ '.') :
    (cs ++ '.' :: rest).takeWhile (fun c => c ≠ '.') = cs ∧
    (cs ++ '.' :: rest).dropWhile (fun c => c ≠ '.') = '.' :: rest := by
  induction cs with
  | nil => simp [List.takeWhile, List.dropWhile]
  | cons c cs ih =>
    have hc : c ≠ '.' := h c (List.mem_cons_self _ _)
    have ih2 := ih (fun d hd => h d (List.mem_cons_of_mem _ hd))
    have hd : decide (c ≠ '.') = true := by simpa using hc
    simp only [List.cons_append, List.takeWhile, List.dropWhile, hd, List.append_eq]
    exact ⟨by rw [ih2.1], ih2.2⟩

theorem parse_decimal_nat_text (n : Nat) :
    parse_decimal ((toString n).data ++ ['.', '0']) = some (n : ℚ) := by
  have h1 := takeWhile_not_dot (toString n).data ['0'] (fun c hc => (nat_text_digits n c hc).1)
  have h2 : parse_nat (toString n).data = some n := by
    rw [parse_nat_of_ne_nil _ (nat_text_ne_nil n)]
    have := parse_digits_nat_text n []
    simpa [parse_digits] using this
  have h3 : parse_nat ['0'] = some 0 := by decide
  unfold parse_decimal
  rw [h1.1, h1.2, h2]
  simp only [h3]
  simp

theorem parse_double_nat_text (n : Nat) :
    parse_double ((toString n).data ++ ['.', '0']) = some (n : ℚ) := by
  have hne := nat_text_ne_nil n
  cases hd : (toString n).data with
  | nil => exact absurd hd hne
  | cons c cs =>
    have hc : c ≠ '-' := by
      have := nat_text_digits n c (by rw [hd]; exact List.mem_cons_self _ _)
      exact this.2
    have hdec := parse_decimal_nat_text n
    rw [hd] at hdec
    unfold parse_double
    simp only [List.cons_append] at hdec ⊢
    split
    · rename_i r2 heq
      simp only [List.cons.injEq] at heq
      exact absurd heq.1 hc
    · exact hdec

theorem int_text_data (i : Int) :
    (toString i).data =
      match i with
      | Int.ofNat m => (toString m).data
      | Int.negSucc m => '-' :: (toString (m + 1)).data := by
  cases i with
  | ofNat m => rfl
  | negSucc m => rfl

theorem parse_double_int_text (i : Int) :
    parse_double ((toString i).data ++ ['.', '0']) = some (i : ℚ) := by
  cases i with
  | ofNat m =>
    rw [int_text_data]
    simp only []
    rw [parse_double_nat_text]
    simp
  | negSucc m =>
    rw [int_text_data]
    simp only [List.cons_append]
    unfold parse_double
    simp only []
    rw [parse_decimal_nat_text]
    simp only [Option.map_some', Option.some.injEq]
    rw [Int.cast_negSucc]

theorem double_text_integral (L : YamlLib) (d : CDouble) (h : d.den = 1) :
    double_text L d = toString d.num ++ ".0" := by
  simp [double_text, fmod_one_is_zero, h, fixed_precision_one]

theorem integral_text_data (d : CDouble) :
    (toString d.num ++ ".0").data = (toString d.num).data ++ ['.', '0'] := by
  rw [String.data_append]

/-- C20: `emitDouble` writes every double without fractional part as its integer digits
followed by `.0`, alone and inside a vector of doubles (4 is written `4.0`); with the
reference conversions that text is rejected by the int probe and accepted by the double
probe with the same value, so reading it back stores a double of that value, not an
int. -/
theorem C20_double_canonical :
    (∀ (L : YamlLib) (d : CDouble), d.den = 1 →
      emitDouble L d = [Emit.Scalar (toString d.num ++ ".0")]) ∧
    (∀ (L : YamlLib) (l : List CDouble), (∀ d ∈ l, d.den = 1) →
      emitDoubleVec L l
        = [Emit.BeginSeq] ++ l.map (fun d => Emit.Scalar (toString d.num ++ ".0"))
          ++ [Emit.EndSeq]) ∧
    emitDouble reference_lib (4 : ℚ) = [Emit.Scalar "4.0"] ∧
    emitDoubleVec reference_lib [(3 / 2 : ℚ), 4]
      = [Emit.BeginSeq, Emit.Scalar "1.5", Emit.Scalar "4.0", Emit.EndSeq] ∧
    (∀ d : CDouble, d.den = 1 →
      reference_lib.as_int (Node.scalar (double_text reference_lib d)) = none ∧
      reference_lib.as_double (Node.scalar (double_text reference_lib d)) = some d ∧
      ∀ (name : String) (p : ParameterInterface),
        readAndAddSingleParameter reference_lib name
            (Node.scalar (double_text reference_lib d)) p
          = (true, p.setParam (T := Ty.double) name d)) := by
  refine ⟨?_, ?_, by with_unfolding_all decide, by with_unfolding_all decide, ?_⟩
  · intro L d h
    simp [emitDouble, double_text_integral L d h]
  · intro L l h
    have hl : l.flatMap (emitDouble L)
        = l.map (fun d => Emit.Scalar (toString d.num ++ ".0")) := by
      induction l with
      | nil => rfl
      | cons d rest ih =>
        simp only [List.flatMap_cons, List.map_cons]
        rw [ih (fun x hx => h x (List.mem_cons_of_mem _ hx))]
        simp [emitDouble, double_text_integral L d (h d (List.mem_cons_self _ _))]
    simp only [emitDoubleVec, hl]
  · intro d h
    have hi : reference_lib.as_int (Node.scalar (double_text reference_lib d)) = none := by
      rw [double_text_integral _ d h]
      simp only [reference_lib, integral_text_data]
      exact parse_int_dot _ _
    have hd : reference_lib.as_double (Node.scalar (double_text reference_lib d)) = some d := by
      rw [double_text_integral _ d h]
      simp only [reference_lib, integral_text_data]
      rw [parse_double_int_text, Rat.coe_int_num_of_den_eq_one h]
    refine ⟨hi, hd, fun name p => ?_⟩
    rw [readAndAddSingleParameter_eq, hi, hd]

/-- Witness for C20: the double 4. -/
theorem C20_double_canonical_witness :
    (4 : ℚ).den = 1 ∧
    emitDouble reference_lib (4 : ℚ) = [Emit.Scalar (toString (4 : ℚ).num ++ ".0")] ∧
    reference_lib.as_int (Node.scalar (double_text reference_lib (4 : ℚ))) = none ∧
    reference_lib.as_double (Node.scalar (double_text reference_lib (4 : ℚ))) = some (4 : ℚ) :=
  ⟨rfl, C20_double_canonical.1 reference_lib (4 : ℚ) rfl,
    (C20_double_canonical.2.2.2.2 (4 : ℚ) rfl).1,
    (C20_double_canonical.2.2.2.2 (4 : ℚ) rfl).2.1⟩

/-! ## The leaves of the written document -/

theorem visit_entries_append (L : YamlLib) (es es2 : List (Node × Node))
    (path : List String) :
    visit_entries L (es ++ es2) path = visit_entries L es path ++ visit_entries L es2 path := by
  induction es with
  | nil => simp [visit_entries]
  | cons e rest ih =>
    rw [List.cons_append, visit_entries_cons, visit_entries_cons, ih, List.append_assoc]

theorem visit_entries_snoc (L : YamlLib) (es : List (Node × Node)) (e : Node × Node)
    (path : List String) :
    visit_entries L (es ++ [e]) path = visit_entries L es path ++ visit_entry L e path := by
  rw [visit_entries_append, visit_entries_cons]
  simp [visit_entries]

theorem stack_visits_close (L : YamlLib) (hstr : ∀ s, L.as_string (Node.scalar s) = some s)
    (es es1 : List (Node × Node)) (tok : String) (ls : List (List (Node × Node) × String)) :
    stack_visits L (es1 ++ [(Node.scalar tok, Node.map es)]) ls
      = stack_visits L es ((es1, tok) :: ls) := by
  unfold stack_visits
  rw [visit_entries_snoc, visit_entry_map L _ es tok _ (hstr tok), visit_node, dir_tokens_cons]
  simp only [lower_visits, List.append_assoc]

theorem run_close_walk (L : YamlLib) (hstr : ∀ s, L.as_string (Node.scalar s) = some s) :
    ∀ (k : Nat) (es : List (Node × Node)) (lower : List (List (Node × Node) × String))
      (docs : List Node), k ≤ lower.length →
      ∃ es2, Builder.run ⟨Frame.map es none :: frames lower, docs⟩ (List.replicate k Emit.EndMap)
          = some ⟨Frame.map es2 none :: frames (lower.drop k), docs⟩ ∧
        stack_visits L es2 (lower.drop k) = stack_visits L es lower := by
  intro k
  induction k with
  | zero =>
    intro es lower docs _
    exact ⟨es, by simp [Builder.run], by simp⟩
  | succ k ih =>
    intro es lower docs hk
    cases lower with
    | nil => simp at hk
    | cons f ls =>
      obtain ⟨es1, tok⟩ := f
      obtain ⟨es2, h1, h2⟩ := ih (es1 ++ [(Node.scalar tok, Node.map es)]) ls docs
        (by simpa using hk)
      refine ⟨es2, ?_, ?_⟩
      · simp only [List.replicate_succ, Builder.run, Builder.step, frames, List.map_cons,
          Builder.deliver, List.drop_succ_cons]
        exact h1
      · rw [List.drop_succ_cons, h2, stack_visits_close L hstr]

theorem run_open_walk (L : YamlLib) :
    ∀ (toks : List String) (es : List (Node × Node))
      (lower : List (List (Node × Node) × String)) (docs : List Node),
      ∃ es2 lower2,
        Builder.run ⟨Frame.map es none :: frames lower, docs⟩
            (toks.flatMap (fun t => [Emit.Key, Emit.Scalar t, Emit.Value, Emit.BeginMap]))
          = some ⟨Frame.map es2 none :: frames lower2, docs⟩ ∧
        dir_tokens lower2 = dir_tokens lower ++ toks ∧
        stack_visits L es2 lower2 = stack_visits L es lower := by
  intro toks
  induction toks with
  | nil =>
    intro es lower docs
    exact ⟨es, lower, by simp [Builder.run], by simp, rfl⟩
  | cons t ts ih =>
    intro es lower docs
    obtain ⟨es2, lower2, h1, h2, h3⟩ := ih [] ((es, t) :: lower) docs
    refine ⟨es2, lower2, ?_, ?_, ?_⟩
    · simp only [List.flatMap_cons, List.cons_append, List.nil_append, Builder.run,
        Builder.step, Builder.deliver]
      exact h1
    · rw [h2, dir_tokens_cons]
      simp
    · rw [h3]
      simp [stack_visits, lower_visits, visit_entries]

theorem run_leaf_walk (L : YamlLib) (hstr : ∀ s, L.as_string (Node.scalar s) = some s)
    (leaf : String) (nd : Node) (hs : nd.simple = true) (es : List (Node × Node))
    (lower : List (List (Node × Node) × String)) (docs : List Node) :
    Builder.run ⟨Frame.map es none :: frames lower, docs⟩
        ([Emit.Key, Emit.Scalar leaf, Emit.Value] ++ value_tokens nd)
      = some ⟨Frame.map (es ++ [(Node.scalar leaf, nd)]) none :: frames lower, docs⟩ ∧
    stack_visits L (es ++ [(Node.scalar leaf, nd)]) lower
      = stack_visits L es lower ++ [Visit.leaf (dir_tokens lower ++ [leaf]) nd] := by
  refine ⟨(run_leaf L hstr leaf nd hs es lower docs).1, ?_⟩
  unfold stack_visits
  rw [visit_entries_snoc, visit_entry_leaf L _ nd leaf _ (hstr leaf) (simple_shaped nd hs),
    List.append_assoc]

theorem write_parameter_walk (L : YamlLib) (hstr : ∀ s, L.as_string (Node.scalar s) = some s)
    (p : ParameterInterface) (nd : String → Node) (w : Writer) (done : List String)
    (name : String) (hinv : writer_walk_inv L nd w done)
    (hval : appendParameterToYaml L name p = some (value_tokens (nd name)))
    (hs : (nd name).simple = true) :
    ∃ w1, write_parameter L p w name = some w1 ∧ writer_walk_inv L nd w1 (done ++ [name]) := by
  obtain ⟨es, lower, hrun, hdir, hread⟩ := hinv
  have hn := split_ne_nil name
  obtain ⟨hnr1, hnr2, hnr3⟩ := nr_of_same_tokens_spec w.open_tokens (split name) hn
  have hlen : lower.length = w.open_tokens.length := by
    rw [← hdir]
    simp [dir_tokens]
  obtain ⟨es2, hc1, hc2⟩ := run_close_walk L hstr
    (w.open_tokens.length - nr_of_same_tokens w.open_tokens (split name)) es lower []
    (by omega)
  obtain ⟨es3, lower3, ho1, ho2, ho3⟩ := run_open_walk L
    ((split name).dropLast.drop (nr_of_same_tokens w.open_tokens (split name))) es2
    (lower.drop (w.open_tokens.length - nr_of_same_tokens w.open_tokens (split name))) []
  obtain ⟨hl1, hl2⟩ := run_leaf_walk L hstr ((split name).getLast hn) (nd name) hs es3 lower3 []
  have hdir3 : dir_tokens lower3 = (split name).dropLast := by
    rw [ho2, dir_tokens_drop, hdir, hlen]
    have h1 : w.open_tokens.length
        - (w.open_tokens.length - nr_of_same_tokens w.open_tokens (split name))
        = nr_of_same_tokens w.open_tokens (split name) := by omega
    rw [h1, hnr3, ← take_dropLast_of_le _ _ hnr2, List.take_append_drop]
  refine ⟨⟨w.yaml ++ (close_maps w.open_tokens (nr_of_same_tokens w.open_tokens (split name))
      ++ open_maps (split name) (nr_of_same_tokens w.open_tokens (split name))
      ++ [Emit.Key, Emit.Scalar ((split name).getD (size_minus_one (split name)) ""),
          Emit.Value]) ++ value_tokens (nd name), (split name).dropLast⟩, ?_, ?_⟩
  · simp [write_parameter, hval]
  · refine ⟨es3 ++ [(Node.scalar ((split name).getLast hn), nd name)], lower3, ?_, hdir3, ?_⟩
    · simp only [List.append_assoc]
      rw [Builder.run_append, hrun, Option.some_bind]
      unfold close_maps
      rw [Builder.run_append, hc1, Option.some_bind, open_maps_eq _ _ hn, Builder.run_append,
        ho1, Option.some_bind, leaf_getD_eq _ hn]
      exact hl1
    · rw [hl2, ho3, hc2, hread, hdir3, List.dropLast_append_getLast hn]
      simp

theorem write_parameters_walk (L : YamlLib) (hstr : ∀ s, L.as_string (Node.scalar s) = some s)
    (p : ParameterInterface) (nd : String → Node) :
    ∀ (names : List String) (w : Writer) (done : List String), writer_walk_inv L nd w done →
      (∀ n ∈ names, appendParameterToYaml L n p = some (value_tokens (nd n)) ∧
        (nd n).simple = true) →
      ∃ w1, write_parameters L p w names = some w1 ∧
        writer_walk_inv L nd w1 (done ++ names) := by
  intro names
  induction names with
  | nil =>
    intro w done hinv _
    exact ⟨w, rfl, by simpa using hinv⟩
  | cons n rest ih =>
    intro w done hinv hall
    obtain ⟨h1, h2⟩ := hall n (List.mem_cons_self _ _)
    obtain ⟨w1, hw1, hinv1⟩ := write_parameter_walk L hstr p nd w done n hinv h1 h2
    obtain ⟨w2, hw2, hinv2⟩ := ih w1 (done ++ [n]) hinv1
      (fun m hm => hall m (List.mem_cons_of_mem _ hm))
    refine ⟨w2, ?_, ?_⟩
    · simp [write_parameters, hw1, hw2]
    · simpa using hinv2

theorem yaml_stream_walk (L : YamlLib) (hstr : ∀ s, L.as_string (Node.scalar s) = some s)
    (p : ParameterInterface) (nd : String → Node)
    (hall : ∀ n ∈ p.getAllParameterNames,
      appendParameterToYaml L n p = some (value_tokens (nd n)) ∧ (nd n).simple = true) :
    ∃ text doc, yaml_stream L p = some text ∧ LoadAll text = some [doc] ∧
      visit_node L doc []
        = p.getAllParameterNames.map (fun n => Visit.leaf (split n) (nd n)) := by
  have hinit : writer_walk_inv L nd ⟨[Emit.BeginMap], []⟩ [] := by
    refine ⟨[], [], ?_, rfl, ?_⟩
    · simp [Builder.run, Builder.step, frames]
    · simp [stack_visits, lower_visits, visit_entries]
  obtain ⟨w1, hw1, es, lower, hrun, hdir, hread⟩ :=
    write_parameters_walk L hstr p nd p.getAllParameterNames ⟨[Emit.BeginMap], []⟩ [] hinit hall
  have hlen : lower.length = w1.open_tokens.length := by
    rw [← hdir]
    simp [dir_tokens]
  obtain ⟨es2, hc1, hc2⟩ := run_close_walk L hstr lower.length es lower [] (Nat.le_refl _)
  refine ⟨w1.yaml ++ List.replicate w1.open_tokens.length Emit.EndMap ++ [Emit.EndMap],
    Node.map es2, ?_, ?_, ?_⟩
  · simp [yaml_stream, hw1]
  · unfold LoadAll
    rw [List.append_assoc, Builder.run_append, hrun, Option.some_bind, Builder.run_append,
      ← hlen, hc1, Option.some_bind]
    simp [Builder.run, Builder.step, Builder.deliver, frames]
  · simp only [List.drop_length, List.nil_append] at hc2 hread
    rw [visit_node, ← hread, ← hc2]
    simp [stack_visits, lower_visits, dir_tokens]

theorem join_names_split (n : String) : join_names (split n) = n := by
  have h := dir_path_split n
  rw [dir_path_append_key, List.dropLast_append_getLast] at h
  exact h

theorem string_less_false_trans (a b c : String) (h1 : string_less b a = false)
    (h2 : string_less c b = false) : string_less c a = false := by
  cases h : string_less c a with
  | false => rfl
  | true =>
    by_cases hab : a = b
    · subst hab
      rw [h] at h2
      exact h2
    · have h3 := string_less_total b a (fun e => hab e.symm) h1
      rw [string_less_trans c a b h h3] at h2
      exact h2

theorem sort_insert_ascending (x : String) (l : List String)
    (h : l.Pairwise (fun a b => string_less b a = false)) :
    (sort_insert x l).Pairwise (fun a b => string_less b a = false) := by
  induction l with
  | nil => simp [sort_insert]
  | cons y ys ih =>
    rw [List.pairwise_cons] at h
    unfold sort_insert
    by_cases hyx : string_less y x = true
    · simp only [hyx, if_true, List.pairwise_cons]
      refine ⟨fun z hz => ?_, ih h.2⟩
      rcases (mem_sort_insert x z ys).1 hz with hz1 | hz1
      · subst hz1
        cases hzy : string_less z y with
        | false => rfl
        | true => exact absurd hzy (by simpa using string_less_asymm y z hyx)
      · exact h.1 z hz1
    · have hyx2 : string_less y x = false := by simpa using hyx
      simp only [hyx2, Bool.false_eq_true, if_false, List.pairwise_cons]
      refine ⟨fun z hz => ?_, h.1, h.2⟩
      rcases List.mem_cons.1 hz with hz1 | hz1
      · subst hz1
        exact hyx2
      · exact string_less_false_trans x y z hyx2 (h.1 z hz1)

theorem sort_ascending (l : List String) :
    (sort l).Pairwise (fun a b => string_less b a = false) := by
  induction l with
  | nil => simp [sort]
  | cons x xs ih => exact sort_insert_ascending x _ ih

/-- C19: for every store whose values are all of a supported type, the write succeeds, the
written text loads as one document, and walking that document in document order meets
exactly the leaves of `getAllParameterNames`, in that order, each under the keys its name
splits into; this list of names is ascending in the order of `std::string`, strictly so
for a store with unique keys.  For the names `b/x`, `a/y`, `a/x` the emitted document is
the map with key `a` first, holding `x` then `y`, and key `b` second, holding `x`. -/
theorem C19_emission_order (L : YamlLib) (p : ParameterInterface)
    (hstr : ∀ s, L.as_string (Node.scalar s) = some s)
    (hsup : ∀ e ∈ p.parameter_set_, (value_node L e.2).isSome = true) :
    (∃ text doc, writeParametersToFile L true p = (true, some text) ∧
      LoadAll text = some [doc] ∧
      (visit_node L doc []).map Visit.name = p.getAllParameterNames ∧
      visit_node L doc [] = p.getAllParameterNames.map
        (fun n => Visit.leaf (split n) ((value_node L (stored p n)).getD Node.null))) ∧
    p.getAllParameterNames.Pairwise (fun a b => string_less b a = false) ∧
    (p.valid → p.getAllParameterNames.Pairwise (fun a b => string_less a b = true)) ∧
    order_store.getAllParameterNames = ["a/x", "a/y", "b/x"] ∧
    writeParametersToFile reference_lib true order_store
      = (true, some [Emit.BeginMap,
          Emit.Key, Emit.Scalar "a", Emit.Value, Emit.BeginMap,
            Emit.Key, Emit.Scalar "x", Emit.Value, Emit.Scalar "3",
            Emit.Key, Emit.Scalar "y", Emit.Value, Emit.Scalar "2",
          Emit.EndMap,
          Emit.Key, Emit.Scalar "b", Emit.Value, Emit.BeginMap,
            Emit.Key, Emit.Scalar "x", Emit.Value, Emit.Scalar "1",
          Emit.EndMap,
        Emit.EndMap]) := by
  refine ⟨?_, sort_ascending _, fun hv => ?_, by decide, by decide⟩
  · have key : ∀ n ∈ p.getAllParameterNames,
        appendParameterToYaml L n p
            = some (value_tokens ((value_node L (stored p n)).getD Node.null)) ∧
          ((value_node L (stored p n)).getD Node.null).simple = true := by
      intro n hn
      obtain ⟨a, ha, hmem⟩ := mem_names_find p n hn
      have hs : stored p n = a := by simp [stored, ha]
      cases h1 : value_node L a with
      | none =>
        have h2 := hsup (n, a) hmem
        rw [h1] at h2
        exact (Bool.false_ne_true h2).elim
      | some nd =>
        rw [hs, appendParameterToYaml_eq L p n a ha, h1]
        exact ⟨rfl, value_node_simple L a nd h1⟩
    obtain ⟨text, doc, h1, h2, h3⟩ := yaml_stream_walk L hstr p _ key
    refine ⟨text, doc, by simp [writeParametersToFile, h1], h2, ?_, h3⟩
    rw [h3, List.map_map]
    conv_rhs => rw [← List.map_id p.getAllParameterNames]
    exact List.map_congr_left (fun n _ => join_names_split n)
  · rw [names_of_valid p hv]
    exact hv

theorem C19_emission_order_witness :
    (∀ s, reference_lib.as_string (Node.scalar s) = some s) ∧
    (∀ e ∈ order_store.parameter_set_, (value_node reference_lib e.2).isSome = true) ∧
    ∃ text doc, writeParametersToFile reference_lib true order_store = (true, some text) ∧
      LoadAll text = some [doc] ∧
      (visit_node reference_lib doc []).map Visit.name = order_store.getAllParameterNames :=
  ⟨fun _ => rfl, by decide,
    let ⟨text, doc, h1, h2, h3, _⟩ :=
      (C19_emission_order reference_lib order_store (fun _ => rfl) (by decide)).1
    ⟨text, doc, h1, h2, h3⟩⟩

/-! ## Value emission by stored type -/

theorem value_node_isSome_iff (L : YamlLib) (a : StdAny) :
    (value_node L a).isSome = a.ty.supported := by
  obtain ⟨T, v⟩ := a
  cases T with
  | vec e => cases e <;> rfl
  | _ => rfl

theorem appendParameterToYaml_none_of_find_none (L : YamlLib) (p : ParameterInterface)
    (n : String) (h : map_find p.parameter_set_ n = none) :
    appendParameterToYaml L n p = none := by
  simp [appendParameterToYaml, hasParamOfType, h]

theorem write_parameters_none (L : YamlLib) (p : ParameterInterface) :
    ∀ (names : List String) (w : Writer),
      (∃ n ∈ names, appendParameterToYaml L n p = none) →
      write_parameters L p w names = none := by
  intro names
  induction names with
  | nil =>
    intro w h
    obtain ⟨n, hn, _⟩ := h
    simp at hn
  | cons m rest ih =>
    intro w h
    obtain ⟨n, hn, hnone⟩ := h
    simp only [write_parameters]
    cases hm : appendParameterToYaml L m p with
    | none => simp [write_parameter, hm]
    | some value =>
      simp only [write_parameter, hm]
      apply ih
      rcases List.mem_cons.1 hn with h1 | h1
      · subst h1
        rw [hm] at hnone
        cases hnone
      · exact ⟨n, h1, hnone⟩

theorem writeParametersToFile_unsupported (L : YamlLib) (p : ParameterInterface) (n : String)
    (a : StdAny) (h : map_find p.parameter_set_ n = some a) (hty : a.ty.supported = false)
    (file_opens : Bool) :
    appendParameterToYaml L n p = none ∧ writeParametersToFile L file_opens p = (false, none) := by
  have h1 : appendParameterToYaml L n p = none := by
    rw [appendParameterToYaml_eq L p n a h]
    have h2 := value_node_isSome_iff L a
    rw [hty] at h2
    cases hv : value_node L a with
    | none => rfl
    | some nd => simp [hv] at h2
  refine ⟨h1, ?_⟩
  have hn : n ∈ p.getAllParameterNames := (find_names p n).2 (by simp [h])
  simp [writeParametersToFile, yaml_stream, write_parameters_none L p _ _ ⟨n, hn, h1⟩]

/-- C21: `appendParameterToYaml` emits a stored value of each of the eight supported types
through the writer of its own stored type: an int by the emitter's int operator (although
`hasParamOfType` of double and of bool hold for it too), a double
through `emitDouble`, a string as it is, a bool by the bool operator, and the four vectors
by the vector operator of their element type, the vector of double through
`emitDoubleVec`.  A stored value of any other type makes `appendParameterToYaml` throw and
`writeParametersToFile` return false, with nothing written; so do a stored `char` and a
stored `size_t`. -/
theorem C21_emission_by_type (L : YamlLib) (p : ParameterInterface) (n : String) :
    (∀ v : Int, map_find p.parameter_set_ n = some ⟨Ty.int, v⟩ →
      appendParameterToYaml L n p = some [Emit.Scalar (emit_int v)] ∧
        hasParamOfType Ty.double p n = true ∧ hasParamOfType Ty.bool p n = true) ∧
    (∀ v : ℚ, map_find p.parameter_set_ n = some ⟨Ty.double, v⟩ →
      appendParameterToYaml L n p = some (emitDouble L v)) ∧
    (∀ v : String, map_find p.parameter_set_ n = some ⟨Ty.string, v⟩ →
      appendParameterToYaml L n p = some [Emit.Scalar v]) ∧
    (∀ v : Bool, map_find p.parameter_set_ n = some ⟨Ty.bool, v⟩ →
      appendParameterToYaml L n p = some [Emit.Scalar (emit_bool v)]) ∧
    (∀ v : List Int, map_find p.parameter_set_ n = some ⟨Ty.vec Ty.int, v⟩ →
      appendParameterToYaml L n p = some (emit_vector emit_int v)) ∧
    (∀ v : List ℚ, map_find p.parameter_set_ n = some ⟨Ty.vec Ty.double, v⟩ →
      appendParameterToYaml L n p = some (emitDoubleVec L v)) ∧
    (∀ v : List Bool, map_find p.parameter_set_ n = some ⟨Ty.vec Ty.bool, v⟩ →
      appendParameterToYaml L n p = some (emit_vector emit_bool v)) ∧
    (∀ v : List String, map_find p.parameter_set_ n = some ⟨Ty.vec Ty.string, v⟩ →
      appendParameterToYaml L n p = some (emit_vector id v)) ∧
    (∀ (a : StdAny) (file_opens : Bool), map_find p.parameter_set_ n = some a →
      a.ty.supported = false →
      appendParameterToYaml L n p = none ∧
        writeParametersToFile L file_opens p = (false, none)) ∧
    writeParametersToFile L true char_store = (false, none) ∧
    writeParametersToFile L true size_t_store = (false, none) := by
  refine ⟨fun v h => ?_, fun v h => ?_, fun v h => ?_, fun v h => ?_, fun v h => ?_,
    fun v h => ?_, fun v h => ?_, fun v h => ?_, fun a file_opens h hty => ?_, ?_, ?_⟩
  · rw [appendParameterToYaml_eq L p n _ h]
    exact ⟨rfl, by simp [hasParamOfType, h, isType, is_convertible_int],
      by simp [hasParamOfType, h, isType, is_convertible_int]⟩
  · rw [appendParameterToYaml_eq L p n _ h]
    rfl
  · rw [appendParameterToYaml_eq L p n _ h]
    rfl
  · rw [appendParameterToYaml_eq L p n _ h]
    rfl
  · rw [appendParameterToYaml_eq L p n _ h, emit_vector_eq]
    rfl
  · rw [appendParameterToYaml_eq L p n _ h, emitDoubleVec_eq]
    rfl
  · rw [appendParameterToYaml_eq L p n _ h, emit_vector_eq]
    rfl
  · rw [appendParameterToYaml_eq L p n _ h, emit_vector_eq]
    rfl
  · exact writeParametersToFile_unsupported L p n a h hty file_opens
  · exact (writeParametersToFile_unsupported L char_store "c" ⟨Ty.char, (97 : Int)⟩
      (by decide) rfl true).2
  · exact (writeParametersToFile_unsupported L size_t_store "n" ⟨Ty.size_t, (5 : Nat)⟩
      (by decide) rfl true).2

/-- Witness for C21: the store holding the `size_t` 5 under `n`, and the store holding the
int 1 under `b/x`. -/
theorem C21_emission_by_type_witness :
    map_find size_t_store.parameter_set_ "n" = some ⟨Ty.size_t, (5 : Nat)⟩ ∧
    Ty.size_t.supported = false ∧
    appendParameterToYaml reference_lib "n" size_t_store = none ∧
    writeParametersToFile reference_lib true size_t_store = (false, none) ∧
    map_find order_store.parameter_set_ "b/x" = some ⟨Ty.int, (1 : Int)⟩ ∧
    appendParameterToYaml reference_lib "b/x" order_store = some [Emit.Scalar "1"] :=
  ⟨by decide, rfl,
    ((C21_emission_by_type reference_lib size_t_store "n").2.2.2.2.2.2.2.2.1
      ⟨Ty.size_t, (5 : Nat)⟩ true (by decide) rfl).1,
    ((C21_emission_by_type reference_lib size_t_store "n").2.2.2.2.2.2.2.2.1
      ⟨Ty.size_t, (5 : Nat)⟩ true (by decide) rfl).2,
    by decide,
    ((C21_emission_by_type reference_lib order_store "b/x").1 1 (by decide)).1⟩

/-! ## A file that cannot be opened -/

/-- C23 (the code at the failing input): the flag `writeParametersToFile` returns does not depend
on whether the output file can be opened.  With a store whose values are all of a
supported type and a file that cannot be opened it returns true and writes nothing. -/
theorem C23_unopened_file_reports_success :
    (∀ (L : YamlLib) (p : ParameterInterface),
      (writeParametersToFile L false p).1 = (writeParametersToFile L true p).1 ∧
      (writeParametersToFile L false p).2 = none) ∧
    (∀ (L : YamlLib) (p : ParameterInterface),
      (writeParametersToFile L false p).1 = (yaml_stream L p).isSome) ∧
    writeParametersToFile reference_lib false order_store = (true, none) := by
  refine ⟨fun L p => ?_, fun L p => ?_, by decide⟩
  · unfold writeParametersToFile
    cases yaml_stream L p <;> simp
  · unfold writeParametersToFile
    cases yaml_stream L p <;> simp

/-! ## The frame of `setParam` -/

/-- C27: `setParam(n, v)` changes only the entry for `n` and the update flag: for every
other name `m` the stored entry is the same before and after the call, and so are
`hasParam(m)`, `hasParamOfType<T>(m)` and, for every type `T` and every initial content of
`out`, the result and the written value of `getParam<T>(m, out)` and the outcome of the
throwing getter. -/
theorem C27_setParam_frame (p : ParameterInterface) (n m : String) (T : Ty) (v : T.denote)
    (hne : m ≠ n) :
    map_find (p.setParam n v).parameter_set_ m = map_find p.parameter_set_ m ∧
    (p.setParam n v).hasParam m = p.hasParam m ∧
    (∀ U : Ty, hasParamOfType U (p.setParam n v) m = hasParamOfType U p m) ∧
    (∀ (U : Ty) (out : U.denote), getParam U (p.setParam n v) m out = getParam U p m out) ∧
    (∀ (U : Ty) (out : U.denote),
      getParamOrThrow U (p.setParam n v) m out = getParamOrThrow U p m out) := by
  have h : map_find (p.setParam n v).parameter_set_ m = map_find p.parameter_set_ m :=
    map_find_assign_other p.parameter_set_ n m (StdAny.of v) hne
  refine ⟨h, ?_, fun U => ?_, fun U out => ?_, fun U out => ?_⟩
  · simp only [hasParam, h]
  · simp only [hasParamOfType, h]
  · simp only [getParam, getParamImpl, h]
  · simp only [getParamOrThrow, getParamImpl, h]

/-- Witness for C27: setting `a/x` in the example store leaves `b/x` as it was. -/
theorem C27_setParam_frame_witness :
    "b/x" ≠ "a/x" ∧
    map_find (order_store.setParam (T := Ty.string) "a/x" "new").parameter_set_ "b/x"
      = map_find order_store.parameter_set_ "b/x" ∧
    getParam Ty.int (order_store.setParam (T := Ty.string) "a/x" "new") "b/x" (0 : Int)
      = (true, (1 : Int)) :=
  ⟨by decide,
    (C27_setParam_frame order_store "a/x" "b/x" Ty.string "new" (by decide)).1,
    ((C27_setParam_frame order_store "a/x" "b/x" Ty.string "new" (by decide)).2.2.2.1
      Ty.int (0 : Int)).trans (by decide)⟩

/-! ## Empty sequences and documents without a map -/

/-- C28: an empty sequence is stored as an empty vector of int: the int probe succeeds on a
sequence without elements, so `readAndAddParameterVector` returns after one `setParam` of an
empty `vector<int>`, whatever the library converts.  An empty vector of any supported
element type is written as the empty sequence, so writing a store and reading the file
back turns every empty vector into an empty vector of int. -/
theorem C28_empty_sequence :
    (∀ (L : YamlLib) (name : String) (p : ParameterInterface),
      addParameterVectorIfTypeCorrect L Ty.int name (Node.sequence []) p
        = (true, p.setParam (T := Ty.vec Ty.int) name ([] : List Int)) ∧
      readAndAddParameterVector L name (Node.sequence []) p
        = (true, p.setParam (T := Ty.vec Ty.int) name ([] : List Int))) ∧
    (∀ (L : YamlLib) (a : StdAny), empty_vector a = true →
      emitted L a = some [Emit.BeginSeq, Emit.EndSeq] ∧
      LoadAll [Emit.BeginSeq, Emit.EndSeq] = some [Node.sequence []]) ∧
    (∀ (L : YamlLib) (p : ParameterInterface),
      (∀ s, L.as_string (Node.scalar s) = some s) →
      (∀ e ∈ p.parameter_set_, round_trips L e.2 = true ∨ empty_vector e.2 = true) →
      ∃ text p2, writeParametersToFile L true p = (true, some text) ∧
        readAndAddParametersFromFile L (some text) fresh = (true, p2) ∧
        ∀ n a, map_find p.parameter_set_ n = some a → empty_vector a = true →
          map_find p2.parameter_set_ n = some ⟨Ty.vec Ty.int, ([] : List Int)⟩) := by
  refine ⟨fun L name p => ⟨rfl, ?_⟩, fun L a h => ?_, fun L p hstr hvals => ?_⟩
  · rw [readAndAddParameterVector_eq]
    rfl
  · refine ⟨?_, rfl⟩
    simp [emitted, empty_vector_spec L a h, value_tokens]
  · obtain ⟨text, h1, h2⟩ := round_trip_core L hstr p reread
      (fun e he => by
        obtain ⟨nd, h3, _, h5⟩ := reread_spec L hstr e.2 (hvals e he)
        exact ⟨nd, h3, h5⟩)
    refine ⟨text, set_all reread p p.getAllParameterNames fresh,
      by simp [writeParametersToFile, h1], by simp [readAndAddParametersFromFile, h2],
      fun n a hfind hempty => ?_⟩
    have hn : n ∈ p.getAllParameterNames := (find_names p n).2 (by simp [hfind])
    rw [find_set_all, if_pos hn]
    simp [stored, hfind, reread, hempty]

/-- Witness for C28: the store whose only entry is an empty vector of double under `v`. -/
theorem C28_empty_sequence_witness :
    (∀ s, reference_lib.as_string (Node.scalar s) = some s) ∧
    (∀ e ∈ empty_vector_store.parameter_set_,
      round_trips reference_lib e.2 = true ∨ empty_vector e.2 = true) ∧
    map_find empty_vector_store.parameter_set_ "v" = some ⟨Ty.vec Ty.double, ([] : List ℚ)⟩ ∧
    empty_vector ⟨Ty.vec Ty.double, ([] : List ℚ)⟩ = true ∧
    ∃ text p2, writeParametersToFile reference_lib true empty_vector_store = (true, some text) ∧
      readAndAddParametersFromFile reference_lib (some text) fresh = (true, p2) ∧
      map_find p2.parameter_set_ "v" = some ⟨Ty.vec Ty.int, ([] : List Int)⟩ :=
  ⟨fun _ => rfl, by decide, by decide, rfl,
    let ⟨text, p2, h1, h2, h3⟩ :=
      C28_empty_sequence.2.2 reference_lib empty_vector_store (fun _ => rfl) (by decide)
    ⟨text, p2, h1, h2, h3 "v" ⟨Ty.vec Ty.double, ([] : List ℚ)⟩ (by decide) rfl⟩⟩

theorem evaluateNode_not_map (L : YamlLib) (node : Node) (pfx : String)
    (p : ParameterInterface) (h : node.IsMap = false) :
    evaluateNode L node pfx p = (true, p) := by
  cases node with
  | map es => simp [Node.IsMap] at h
  | null => rw [evaluateNode]
  | scalar t => rw [evaluateNode]
  | sequence items => rw [evaluateNode]

theorem evaluateNodes_not_map (L : YamlLib) (docs : List Node) (p : ParameterInterface)
    (h : ∀ d ∈ docs, d.IsMap = false) : evaluateNodes L docs p = (true, p) := by
  induction docs with
  | nil => rfl
  | cons d rest ih =>
    simp only [evaluateNodes, evaluateNode_not_map L d "" p (h d (List.mem_cons_self _ _))]
    exact ih (fun d2 hd2 => h d2 (List.mem_cons_of_mem _ hd2))

/-- C29: a document whose root node is not a map (a scalar, a sequence or a null
document) is accepted silently: `readAndAddParametersFromNode` returns true and the store,
its update flag included, is the one before the call.  The same holds for a text or file
all of whose documents are not maps, as are the text of one scalar, of one sequence, of a
null document, and the empty text. -/
theorem C29_non_map_root :
    (∀ (L : YamlLib) (node : Node) (p : ParameterInterface), node.IsMap = false →
      readAndAddParametersFromNode L node p = (true, p)) ∧
    (∀ (L : YamlLib) (text : YamlText) (docs : List Node) (p : ParameterInterface),
      LoadAll text = some docs → (∀ d ∈ docs, d.IsMap = false) →
      readAndAddParametersFromString L text p = (true, p) ∧
      readAndAddParametersFromFile L (some text) p = (true, p)) ∧
    LoadAll [Emit.Scalar "x"] = some [Node.scalar "x"] ∧
    LoadAll [Emit.BeginSeq, Emit.Scalar "1", Emit.Scalar "2", Emit.EndSeq]
      = some [Node.sequence [Node.scalar "1", Node.scalar "2"]] ∧
    LoadAll [Emit.Null] = some [Node.null] ∧
    LoadAll [] = some [] := by
  refine ⟨fun L node p h => evaluateNode_not_map L node "" p h, fun L text docs p h1 h2 => ?_,
    rfl, rfl, rfl, rfl⟩
  simp [readAndAddParametersFromFile, readAndAddParametersFromString, h1,
    evaluateNodes_not_map L docs p h2]

/-- Witness for C29: the text of the scalar `x` read into the example store. -/
theorem C29_non_map_root_witness :
    (Node.scalar "x").IsMap = false ∧
    readAndAddParametersFromNode reference_lib (Node.scalar "x") order_store
      = (true, order_store) ∧
    LoadAll [Emit.Scalar "x"] = some [Node.scalar "x"] ∧
    (∀ d ∈ [Node.scalar "x"], d.IsMap = false) ∧
    readAndAddParametersFromString reference_lib [Emit.Scalar "x"] order_store
      = (true, order_store) :=
  ⟨rfl, C29_non_map_root.1 reference_lib (Node.scalar "x") order_store rfl, rfl,
    by simp [Node.IsMap],
    (C29_non_map_root.2.1 reference_lib [Emit.Scalar "x"] [Node.scalar "x"] order_store rfl
      (by simp [Node.IsMap])).1⟩

/-! ## The end-to-end scenario -/

/-- C22: reading the text `{a: {b: 1, c: [true,false]}, d: "x"}` into a fresh store
succeeds and gives the store with exactly the three entries `a/b` = int 1, `a/c` = vector
of bool `true, false` and `d` = string `x`; writing that store emits the top-level map
with key `a` holding the nested map with `b: 1` and then `c` as the sequence
`true, false`, followed by key `d` with value `x`, which the emitter's layout renders as
the text `a:\n    b: 1\n    c: [true, false]\nd: x\n`. -/
theorem C22_end_to_end :
    LoadAll scenario_text = some [scenario_doc] ∧
    readAndAddParametersFromString reference_lib scenario_text fresh = (true, scenario_store) ∧
    readAndAddParametersFromNode reference_lib scenario_doc fresh = (true, scenario_store) ∧
    scenario_store.parameter_set_
      = [("a/b", ⟨Ty.int, (1 : Int)⟩), ("a/c", ⟨Ty.vec Ty.bool, [true, false]⟩),
          ("d", ⟨Ty.string, "x"⟩)] ∧
    scenario_store.getAllParameterNames = ["a/b", "a/c", "d"] ∧
    getParam Ty.int scenario_store "a/b" (0 : Int) = (true, (1 : Int)) ∧
    getParam (Ty.vec Ty.bool) scenario_store "a/c" [] = (true, [true, false]) ∧
    getParam Ty.string scenario_store "d" "" = (true, "x") ∧
    writeParametersToFile reference_lib true scenario_store
      = (true, some [Emit.BeginMap,
          Emit.Key, Emit.Scalar "a", Emit.Value, Emit.BeginMap,
            Emit.Key, Emit.Scalar "b", Emit.Value, Emit.Scalar "1",
            Emit.Key, Emit.Scalar "c", Emit.Value,
              Emit.BeginSeq, Emit.Scalar "true", Emit.Scalar "false", Emit.EndSeq,
          Emit.EndMap,
          Emit.Key, Emit.Scalar "d", Emit.Value, Emit.Scalar "x",
        Emit.EndMap]) ∧
    (writeParametersToFile reference_lib true scenario_store).2.map (render 0 Layout.top)
      = some "a:\n    b: 1\n    c: [true, false]\nd: x\n" := by
  refine ⟨rfl, by decide, by decide, by decide, by decide, by decide, by decide, by decide,
    by decide, by decide⟩

/-! ## Index safety of the writer -/

theorem nr_loop_checked_eq (open_tokens new_tokens : List String) (hn : new_tokens ≠ []) :
    ∀ budget i nr : Nat,
      nr_of_same_tokens_loop_checked open_tokens new_tokens budget i nr
        = some (nr_of_same_tokens_loop open_tokens new_tokens budget i nr) := by
  intro budget
  induction budget with
  | zero =>
    intro i nr
    rfl
  | succ b ih =>
    intro i nr
    simp only [nr_of_same_tokens_loop_checked, nr_of_same_tokens_loop]
    by_cases h1 : i < open_tokens.length ∧ i < size_minus_one new_tokens
    · have h2 : i < new_tokens.length := by
        have := h1.2
        rw [size_minus_one_eq _ hn] at this
        omega
      simp only [h1, and_self, if_true, true_and, List.get?_eq_getElem?,
        List.getElem?_eq_getElem h2, List.getElem?_eq_getElem h1.1, Option.some.injEq]
      by_cases h3 : new_tokens[i] = open_tokens[i]
      · simp only [h3, if_true]
        exact ih _ _
      · simp only [h3, if_false]
    · have h4 : ¬ (i < open_tokens.length ∧ i < size_minus_one new_tokens ∧
          new_tokens.get? i = open_tokens.get? i) := fun h => h1 ⟨h.1, h.2.1⟩
      simp only [h1, h4, if_false]

theorem open_maps_fold_eq (new_tokens : List String) :
    ∀ l : List Nat, (∀ i ∈ l, i < new_tokens.length) →
      l.foldr
        (fun i acc =>
          match new_tokens.get? i, acc with
          | some t, some r => some ([Emit.Key, Emit.Scalar t, Emit.Value, Emit.BeginMap] ++ r)
          | _, _ => none)
        (some [])
      = some (l.flatMap
          (fun i => [Emit.Key, Emit.Scalar (new_tokens.getD i ""), Emit.Value, Emit.BeginMap])) := by
  intro l
  induction l with
  | nil =>
    intro _
    rfl
  | cons i rest ih =>
    intro h
    have hi : i < new_tokens.length := h i (List.mem_cons_self _ _)
    rw [List.foldr_cons, ih (fun j hj => h j (List.mem_cons_of_mem _ hj))]
    simp only [List.get?_eq_getElem?, List.getElem?_eq_getElem hi, List.flatMap_cons,
      List.getD_eq_getElem _ _ hi]

theorem split_chars_examples :
    split "" = [""] ∧ split "/" = ["", ""] ∧ split "/a" = ["", "a"] ∧
    split "a/" = ["a", ""] ∧ split "a//b" = ["a", "", "b"] ∧ split "a/b/c" = ["a", "b", "c"] := by
  decide

/-- C30: splitting any name on `/` yields at least one token (the empty name gives one
empty token, a leading or trailing `/` an empty first or last token), so
`new_tokens.size() - 1` does not wrap around; every access `new_tokens[i]` and
`open_tokens[i]` of the matching loop and every access `new_tokens[i]` of the opening loop
is inside its vector, whatever `open_tokens` holds; the leaf access
`new_tokens[new_tokens.size() - 1]` reads the last token and `pop_back` is called on a
non-empty vector. -/
theorem C30_index_safety (param_name : String) (open_tokens : List String) :
    split param_name ≠ [] ∧ 1 ≤ (split param_name).length ∧
    size_minus_one (split param_name) = (split param_name).length - 1 ∧
    size_minus_one (split param_name) < (split param_name).length ∧
    nr_of_same_tokens_checked open_tokens (split param_name)
      = some (nr_of_same_tokens open_tokens (split param_name)) ∧
    open_maps_checked (split param_name) (nr_of_same_tokens open_tokens (split param_name))
      = some (open_maps (split param_name)
          (nr_of_same_tokens open_tokens (split param_name))) ∧
    leaf_key_checked (split param_name)
      = some ((split param_name).getD (size_minus_one (split param_name)) "") ∧
    leaf_key_checked (split param_name)
      = some ((split param_name).getLast (split_ne_nil param_name)) ∧
    pop_back_checked (split param_name) = some (split param_name).dropLast ∧
    split "" = [""] ∧ split "/a" = ["", "a"] ∧ split "a/" = ["a", ""] := by
  have hn := split_ne_nil param_name
  have hlen : 1 ≤ (split param_name).length := by
    cases h : split param_name with
    | nil => exact absurd h hn
    | cons t ts => simp
  have hsz := size_minus_one_eq _ hn
  have hlt : size_minus_one (split param_name) < (split param_name).length := by
    rw [hsz]
    omega
  refine ⟨hn, hlen, hsz, hlt, nr_loop_checked_eq _ _ hn _ _ _, ?_, ?_, ?_, ?_,
    split_chars_examples.1, split_chars_examples.2.2.1, split_chars_examples.2.2.2.1⟩
  · unfold open_maps_checked open_maps
    apply open_maps_fold_eq
    intro i hi
    rw [List.mem_range'_1] at hi
    omega
  · unfold leaf_key_checked
    rw [List.get?_eq_getElem?, List.getElem?_eq_getElem hlt, List.getD_eq_getElem _ _ hlt]
  · unfold leaf_key_checked
    rw [List.get?_eq_getElem?, List.getElem?_eq_getElem hlt, ← leaf_getD_eq _ hn,
      List.getD_eq_getElem _ _ hlt]
  · cases h : split param_name with
    | nil => exact absurd h hn
    | cons t ts => rfl

/-! ## Nesting of the writer's event stream -/

theorem depth_run_append (a b : YamlText) :
    ∀ d, depth_run d (a ++ b) = (depth_run d a).bind (fun d1 => depth_run d1 b) := by
  induction a with
  | nil =>
    intro d
    simp [depth_run]
  | cons e r ih =>
    intro d
    cases e <;> simp only [List.cons_append, depth_run] <;>
      first
      | exact ih _
      | (split
         · rfl
         · exact ih _)

theorem depth_run_counts (t : YamlText) :
    ∀ d d1, depth_run d t = some d1 →
      (∀ pre post, t = pre ++ post → pre.count Emit.EndMap ≤ d + pre.count Emit.BeginMap) ∧
      (∀ pre post, t = pre ++ Emit.Key :: post →
        pre.count Emit.EndMap < d + pre.count Emit.BeginMap) ∧
      d1 + t.count Emit.EndMap = d + t.count Emit.BeginMap := by
  induction t with
  | nil =>
    intro d d1 h
    simp only [depth_run, Option.some.injEq] at h
    subst h
    refine ⟨fun pre post hp => ?_, fun pre post hp => ?_, by simp⟩
    · have : pre = [] := by
        cases pre with
        | nil => rfl
        | cons x xs => simp at hp
      subst this
      simp
    · cases pre <;> simp at hp
  | cons e r ih =>
    intro d d1 h
    have step : ∀ (d2 : Nat) (cE cB : Nat), depth_run d2 r = some d1 →
        (e = Emit.Key → 0 < d) →
        (∀ l : YamlText, (e :: l).count Emit.EndMap = cE + l.count Emit.EndMap) →
        (∀ l : YamlText, (e :: l).count Emit.BeginMap = cB + l.count Emit.BeginMap) →
        d2 + cE = d + cB →
        (∀ pre post, e :: r = pre ++ post →
          pre.count Emit.EndMap ≤ d + pre.count Emit.BeginMap) ∧
        (∀ pre post, e :: r = pre ++ Emit.Key :: post →
          pre.count Emit.EndMap < d + pre.count Emit.BeginMap) ∧
        d1 + (e :: r).count Emit.EndMap = d + (e :: r).count Emit.BeginMap := by
      intro d2 cE cB h2 hkey hE hB hd
      obtain ⟨i1, i2, i3⟩ := ih d2 d1 h2
      refine ⟨fun pre post hp => ?_, fun pre post hp => ?_, ?_⟩
      · cases pre with
        | nil => simp
        | cons x xs =>
          simp only [List.cons_append, List.cons.injEq] at hp
          obtain ⟨hx, hr⟩ := hp
          subst hx
          have := i1 xs post hr
          rw [hE, hB]
          omega
      · cases pre with
        | nil =>
          simp only [List.nil_append, List.cons.injEq] at hp
          have := hkey hp.1
          simp
          omega
        | cons x xs =>
          simp only [List.cons_append, List.cons.injEq] at hp
          obtain ⟨hx, hr⟩ := hp
          subst hx
          have := i2 xs post hr
          rw [hE, hB]
          omega
      · rw [hE, hB]
        omega
    cases e with
    | BeginMap =>
      simp only [depth_run] at h
      exact step (d + 1) 0 1 h (by simp) (fun l => by simp) (fun l => by simp; omega) (by omega)
    | EndMap =>
      simp only [depth_run] at h
      split at h
      · cases h
      · exact step (d - 1) 1 0 h (by simp) (fun l => by simp; omega) (fun l => by simp)
          (by omega)
    | Key =>
      simp only [depth_run] at h
      split at h
      · cases h
      · exact step d 0 0 h (fun _ => by omega) (fun l => by simp) (fun l => by simp) (by omega)
    | BeginSeq =>
      simp only [depth_run] at h
      exact step d 0 0 h (by simp) (fun l => by simp) (fun l => by simp) (by omega)
    | EndSeq =>
      simp only [depth_run] at h
      exact step d 0 0 h (by simp) (fun l => by simp) (fun l => by simp) (by omega)
    | Value =>
      simp only [depth_run] at h
      exact step d 0 0 h (by simp) (fun l => by simp) (fun l => by simp) (by omega)
    | Null =>
      simp only [depth_run] at h
      exact step d 0 0 h (by simp) (fun l => by simp) (fun l => by simp) (by omega)
    | Scalar t =>
      simp only [depth_run] at h
      exact step d 0 0 h (by simp) (fun l => by simp) (fun l => by simp) (by omega)

theorem well_nested_of_depth_run (t : YamlText) (h : depth_run 0 t = some 0) :
    well_nested t := by
  obtain ⟨h1, h2, h3⟩ := depth_run_counts t 0 0 h
  refine ⟨fun pre post hp => ?_, fun pre post hp => ?_, ?_⟩
  · simpa using h1 pre post hp
  · simpa using h2 pre post hp
  · simpa using h3

theorem depth_run_close (k : Nat) : ∀ d, k ≤ d →
    depth_run d (List.replicate k Emit.EndMap) = some (d - k) := by
  induction k with
  | zero =>
    intro d _
    simp [depth_run]
  | succ k ih =>
    intro d hk
    have hd : d ≠ 0 := by omega
    simp only [List.replicate_succ, depth_run, hd, if_false]
    rw [ih (d - 1) (by omega)]
    congr 1
    omega

theorem depth_run_open (toks : List String) : ∀ d, 0 < d →
    depth_run d (toks.flatMap (fun t => [Emit.Key, Emit.Scalar t, Emit.Value, Emit.BeginMap]))
      = some (d + toks.length) := by
  induction toks with
  | nil =>
    intro d _
    simp [depth_run]
  | cons t ts ih =>
    intro d hd
    have hd0 : d ≠ 0 := by omega
    have h1 : depth_run d [Emit.Key, Emit.Scalar t, Emit.Value, Emit.BeginMap]
        = some (d + 1) := by
      simp [depth_run, hd0]
    rw [List.flatMap_cons, depth_run_append, h1, Option.some_bind, ih (d + 1) (by omega)]
    simp only [List.length_cons, Option.some.injEq]
    omega

theorem depth_run_items (items : List Node) (rest : YamlText) (d : Nat) :
    depth_run d (items.map item_token ++ rest) = depth_run d rest := by
  induction items with
  | nil => rfl
  | cons it r ih =>
    cases it <;>
      (simp only [List.map_cons, List.cons_append, item_token, depth_run]
       exact ih)

theorem depth_run_value (nd : Node) (d : Nat) : depth_run d (value_tokens nd) = some d := by
  cases nd with
  | null => rfl
  | scalar t => rfl
  | map es => rfl
  | sequence items =>
    have h : value_tokens (Node.sequence items)
        = [Emit.BeginSeq] ++ (items.map item_token ++ [Emit.EndSeq]) := by
      simp [value_tokens]
    have h1 : depth_run d [Emit.BeginSeq] = some d := rfl
    rw [h, depth_run_append, h1, Option.some_bind, depth_run_items]
    rfl

theorem appendParameterToYaml_value (L : YamlLib) (p : ParameterInterface) (n : String)
    (v : List Emit) (h : appendParameterToYaml L n p = some v) :
    ∃ a nd, map_find p.parameter_set_ n = some a ∧ value_node L a = some nd ∧
      v = value_tokens nd := by
  cases hf : map_find p.parameter_set_ n with
  | none =>
    rw [appendParameterToYaml_none_of_find_none L p n hf] at h
    cases h
  | some a =>
    rw [appendParameterToYaml_eq L p n a hf] at h
    cases hv : value_node L a with
    | none =>
      rw [hv] at h
      cases h
    | some nd =>
      rw [hv] at h
      simp only [Option.map_some', Option.some.injEq] at h
      exact ⟨a, nd, rfl, hv, h.symm⟩

theorem write_parameter_depth (L : YamlLib) (p : ParameterInterface) (w w1 : Writer)
    (name : String) (hw : write_parameter L p w name = some w1)
    (hd : depth_run 0 w.yaml = some (1 + w.open_tokens.length)) :
    depth_run 0 w1.yaml = some (1 + w1.open_tokens.length) := by
  have hn := split_ne_nil name
  obtain ⟨hnr1, hnr2, _⟩ := nr_of_same_tokens_spec w.open_tokens (split name) hn
  unfold write_parameter at hw
  cases hv : appendParameterToYaml L name p with
  | none => simp [hv] at hw
  | some value =>
    obtain ⟨_, nd, _, _, hval⟩ := appendParameterToYaml_value L p name value hv
    simp only [hv, Option.some.injEq] at hw
    subst hw
    simp only [List.append_assoc]
    rw [depth_run_append, hd, Option.some_bind]
    unfold close_maps
    rw [depth_run_append, depth_run_close _ _ (by omega), Option.some_bind,
      open_maps_eq _ _ hn, depth_run_append, depth_run_open _ _ (by omega), Option.some_bind]
    have h0 : 1 + w.open_tokens.length
        - (w.open_tokens.length - nr_of_same_tokens w.open_tokens (split name))
        + ((split name).dropLast.drop (nr_of_same_tokens w.open_tokens (split name))).length
        = 1 + (split name).dropLast.length := by
      simp only [List.length_drop, List.length_dropLast]
      omega
    rw [h0]
    have h1 : 1 + (split name).dropLast.length ≠ 0 := by omega
    simp only [List.cons_append, List.nil_append, depth_run, h1, if_false, hval]
    exact depth_run_value nd _

theorem write_parameters_depth (L : YamlLib) (p : ParameterInterface) :
    ∀ (names : List String) (w w1 : Writer), write_parameters L p w names = some w1 →
      depth_run 0 w.yaml = some (1 + w.open_tokens.length) →
      depth_run 0 w1.yaml = some (1 + w1.open_tokens.length) := by
  intro names
  induction names with
  | nil =>
    intro w w1 hw hd
    simp only [write_parameters, Option.some.injEq] at hw
    subst hw
    exact hd
  | cons n rest ih =>
    intro w w1 hw hd
    simp only [write_parameters] at hw
    cases h : write_parameter L p w n with
    | none => simp [h] at hw
    | some w2 =>
      simp only [h] at hw
      exact ih w2 w1 hw (write_parameter_depth L p w w2 n h hd)

theorem write_parameters_some (L : YamlLib) (p : ParameterInterface) :
    ∀ (names : List String) (w : Writer),
      (∀ n ∈ names, (appendParameterToYaml L n p).isSome = true) →
      ∃ w1, write_parameters L p w names = some w1 := by
  intro names
  induction names with
  | nil =>
    intro w _
    exact ⟨w, rfl⟩
  | cons n rest ih =>
    intro w h
    have hn := h n (List.mem_cons_self _ _)
    cases hv : appendParameterToYaml L n p with
    | none => simp [hv] at hn
    | some value =>
      obtain ⟨w1, hw1⟩ := ih ⟨w.yaml ++ (close_maps w.open_tokens
          (nr_of_same_tokens w.open_tokens (split n))
        ++ open_maps (split n) (nr_of_same_tokens w.open_tokens (split n))
        ++ [Emit.Key, Emit.Scalar ((split n).getD (size_minus_one (split n)) ""), Emit.Value])
        ++ value, (split n).dropLast⟩ (fun m hm => h m (List.mem_cons_of_mem _ hm))
      exact ⟨w1, by simp only [write_parameters, write_parameter, hv]; exact hw1⟩

theorem yaml_stream_some (L : YamlLib) (p : ParameterInterface)
    (hsup : ∀ e ∈ p.parameter_set_, e.2.ty.supported = true) :
    ∃ text, yaml_stream L p = some text := by
  obtain ⟨w, hw⟩ := write_parameters_some L p p.getAllParameterNames ⟨[Emit.BeginMap], []⟩
    (fun n hn => by
      obtain ⟨a, ha, hmem⟩ := mem_names_find p n hn
      rw [appendParameterToYaml_eq L p n a ha, Option.isSome_map', value_node_isSome_iff]
      exact hsup (n, a) hmem)
  exact ⟨w.yaml ++ List.replicate w.open_tokens.length Emit.EndMap ++ [Emit.EndMap],
    by simp only [yaml_stream, hw]⟩

theorem writer_stream_nested (L : YamlLib) (p : ParameterInterface) (names : List String)
    (w : Writer) (hw : write_parameters L p ⟨[Emit.BeginMap], []⟩ names = some w) :
    well_nested (w.yaml ++ List.replicate w.open_tokens.length Emit.EndMap ++ [Emit.EndMap]) := by
  apply well_nested_of_depth_run
  have hd := write_parameters_depth L p names _ w hw rfl
  rw [List.append_assoc, depth_run_append, hd, Option.some_bind, depth_run_append,
    depth_run_close _ _ (by omega), Option.some_bind]
  have h1 : 1 + w.open_tokens.length - w.open_tokens.length = 1 := by omega
  rw [h1]
  rfl

/-- C26: the event stream of the writer is well nested for every list of names: whenever
the loop over a list of names completes, in the stream with the final closes at every
point at most as many map ends as map begins have been emitted, every key is emitted
while at least one map is open, and at the end the two counts are equal.  For a store
whose values are all of a supported type the loop over its names completes, so
`writeParametersToFile` builds such a stream. -/
theorem C26_well_nested (L : YamlLib) (p : ParameterInterface) :
    (∀ (names : List String) (w : Writer),
      write_parameters L p ⟨[Emit.BeginMap], []⟩ names = some w →
      well_nested
        (w.yaml ++ List.replicate w.open_tokens.length Emit.EndMap ++ [Emit.EndMap])) ∧
    (∀ text, yaml_stream L p = some text → well_nested text) ∧
    ((∀ e ∈ p.parameter_set_, e.2.ty.supported = true) →
      ∃ text, writeParametersToFile L true p = (true, some text) ∧ well_nested text) := by
  have h2 : ∀ text, yaml_stream L p = some text → well_nested text := by
    intro text ht
    unfold yaml_stream at ht
    cases hw : write_parameters L p ⟨[Emit.BeginMap], []⟩ p.getAllParameterNames with
    | none => simp [hw] at ht
    | some w =>
      simp only [hw, Option.some.injEq] at ht
      subst ht
      exact writer_stream_nested L p _ w hw
  refine ⟨fun names w hw => writer_stream_nested L p names w hw, h2, fun hsup => ?_⟩
  obtain ⟨text, ht⟩ := yaml_stream_some L p hsup
  exact ⟨text, by simp [writeParametersToFile, ht], h2 text ht⟩

/-- Witness for C26: the example store with the names `b/x`, `a/y`, `a/x`. -/
theorem C26_well_nested_witness :
    (∀ e ∈ order_store.parameter_set_, e.2.ty.supported = true) ∧
    ∃ text, writeParametersToFile reference_lib true order_store = (true, some text) ∧
      well_nested text :=
  ⟨by decide, (C26_well_nested reference_lib order_store).2.2 (by decide)⟩

/-! ## The loader stack along the writer's event stream -/

theorem open_keys_frames (lower : List (List (Node × Node) × String)) :
    open_keys (frames lower) = (dir_tokens lower).map Node.scalar := by
  unfold open_keys frames dir_tokens
  rw [List.map_reverse]
  congr 1
  induction lower with
  | nil => rfl
  | cons f ls ih => simp [List.filterMap_cons, Frame.pending_key, ih]

theorem open_keys_map_none (es : List (Node × Node)) (st : List Frame) :
    open_keys (Frame.map es none :: st) = open_keys st := by
  simp [open_keys, List.filterMap_cons, Frame.pending_key]

theorem open_keys_map_some (es : List (Node × Node)) (k : Node) (st : List Frame) :
    open_keys (Frame.map es (some k) :: st) = open_keys st ++ [k] := by
  simp [open_keys, List.filterMap_cons, Frame.pending_key]

theorem opened_maps_append (t1 t2 : YamlText) :
    ∀ b b1 : Builder, Builder.run b t1 = some b1 →
      opened_maps b (t1 ++ t2) = opened_maps b t1 ++ opened_maps b1 t2 := by
  induction t1 with
  | nil =>
    intro b b1 h
    simp only [Builder.run, Option.some.injEq] at h
    subst h
    simp [opened_maps]
  | cons e r ih =>
    intro b b1 h
    simp only [Builder.run] at h
    cases hs : Builder.step b e with
    | none => simp [hs] at h
    | some b2 =>
      simp only [hs] at h
      simp only [List.cons_append, opened_maps, hs, List.append_eq, ih b2 b1 h,
        List.append_assoc]

theorem opened_maps_nil_of_not_mem (t : YamlText) (h : Emit.BeginMap ∉ t) :
    ∀ b : Builder, opened_maps b t = [] := by
  induction t with
  | nil =>
    intro b
    rfl
  | cons e r ih =>
    intro b
    simp only [List.mem_cons, not_or] at h
    simp only [opened_maps]
    cases hs : Builder.step b e with
    | none => rfl
    | some b2 =>
      simp only [ih h.2 b2, List.append_nil]
      cases e with
      | BeginMap => exact absurd rfl h.1
      | _ => rfl

theorem opened_maps_length (t : YamlText) :
    ∀ b b1 : Builder, Builder.run b t = some b1 →
      (opened_maps b t).length = t.count Emit.BeginMap := by
  induction t with
  | nil =>
    intro b b1 _
    rfl
  | cons e r ih =>
    intro b b1 h
    simp only [Builder.run] at h
    cases hs : Builder.step b e with
    | none => simp [hs] at h
    | some b2 =>
      simp only [hs] at h
      simp only [opened_maps, hs, List.length_append, ih b2 b1 h]
      cases e <;> simp [Nat.add_comm]

theorem value_tokens_no_begin_map (nd : Node) : Emit.BeginMap ∉ value_tokens nd := by
  cases nd with
  | null => simp [value_tokens]
  | scalar t => simp [value_tokens]
  | map es => simp [value_tokens]
  | sequence items =>
    simp only [value_tokens, List.mem_append, List.mem_singleton, List.mem_map, not_or,
      not_exists, not_and]
    refine ⟨⟨by simp, fun it _ => ?_⟩, by simp⟩
    cases it <;> simp [item_token]

theorem run_open_trace :
    ∀ (toks : List String) (es : List (Node × Node))
      (lower : List (List (Node × Node) × String)) (docs : List Node),
      ∃ es2 lower2,
        Builder.run ⟨Frame.map es none :: frames lower, docs⟩
            (toks.flatMap (fun t => [Emit.Key, Emit.Scalar t, Emit.Value, Emit.BeginMap]))
          = some ⟨Frame.map es2 none :: frames lower2, docs⟩ ∧
        dir_tokens lower2 = dir_tokens lower ++ toks ∧
        opened_maps ⟨Frame.map es none :: frames lower, docs⟩
            (toks.flatMap (fun t => [Emit.Key, Emit.Scalar t, Emit.Value, Emit.BeginMap]))
          = (new_dirs (dir_tokens lower) toks).map (List.map Node.scalar) := by
  intro toks
  induction toks with
  | nil =>
    intro es lower docs
    exact ⟨es, lower, by simp [Builder.run], by simp, by simp [opened_maps, new_dirs]⟩
  | cons t ts ih =>
    intro es lower docs
    obtain ⟨es2, lower2, h1, h2, h3⟩ := ih [] ((es, t) :: lower) docs
    refine ⟨es2, lower2, ?_, ?_, ?_⟩
    · simp only [List.flatMap_cons, List.cons_append, List.nil_append, Builder.run,
        Builder.step, Builder.deliver]
      exact h1
    · rw [h2, dir_tokens_cons]
      simp
    · have h4 : frames ((es, t) :: lower)
          = Frame.map es (some (Node.scalar t)) :: frames lower := rfl
      rw [h4, dir_tokens_cons] at h3
      have h5 : Builder.run ⟨Frame.map es none :: frames lower, docs⟩
          [Emit.Key, Emit.Scalar t, Emit.Value, Emit.BeginMap]
          = some ⟨Frame.map [] none :: Frame.map es (some (Node.scalar t)) :: frames lower,
              docs⟩ := by
        simp [Builder.run, Builder.step, Builder.deliver]
      have h6 : opened_maps ⟨Frame.map es none :: frames lower, docs⟩
          [Emit.Key, Emit.Scalar t, Emit.Value, Emit.BeginMap]
          = [open_keys (Frame.map es (some (Node.scalar t)) :: frames lower)] := by
        simp [opened_maps, Builder.step, Builder.deliver]
      rw [List.flatMap_cons, opened_maps_append _ _ _ _ h5, h6, h3, open_keys_map_some,
        open_keys_frames]
      simp [new_dirs]

theorem run_trace_append (b b1 b2 : Builder) (t1 t2 : YamlText)
    (h1 : Builder.run b t1 = some b1) (h2 : Builder.run b1 t2 = some b2) :
    Builder.run b (t1 ++ t2) = some b2 ∧
    opened_maps b (t1 ++ t2) = opened_maps b t1 ++ opened_maps b1 t2 := by
  refine ⟨?_, opened_maps_append t1 t2 b b1 h1⟩
  rw [Builder.run_append, h1, Option.some_bind, h2]

theorem dir_of_length (name : String) : (dir_of name).length = (split name).length - 1 := by
  simp [dir_of]

theorem write_parameter_stack (L : YamlLib) (p : ParameterInterface) (w : Writer)
    (dirs : List (List String)) (name : String) (nd : Node)
    (hinv : writer_stack_inv w dirs)
    (hval : appendParameterToYaml L name p = some (value_tokens nd))
    (hs : nd.simple = true) :
    ∃ (path : List Emit) (es : List (Node × Node))
      (lower : List (List (Node × Node) × String)),
      write_parameter L p w name = some ⟨w.yaml ++ path ++ value_tokens nd, dir_of name⟩ ∧
      Builder.run ⟨[], []⟩ (w.yaml ++ path)
        = some ⟨Frame.map es (some (Node.scalar ((split name).getLast (split_ne_nil name))))
            :: frames lower, []⟩ ∧
      dir_tokens lower = dir_of name ∧
      Builder.run ⟨[], []⟩ (w.yaml ++ path ++ value_tokens nd)
        = some ⟨Frame.map
            (es ++ [(Node.scalar ((split name).getLast (split_ne_nil name)), nd)]) none
            :: frames lower, []⟩ ∧
      opened_maps ⟨[], []⟩ (w.yaml ++ path ++ value_tokens nd)
        = [] :: (dirs ++ step_dirs w.open_tokens name).map (List.map Node.scalar) := by
  obtain ⟨es0, lower0, hrun, hdir, htrace⟩ := hinv
  have hn := split_ne_nil name
  obtain ⟨hnr1, hnr2, hnr3⟩ := nr_of_same_tokens_spec w.open_tokens (split name) hn
  have hlen : lower0.length = w.open_tokens.length := by
    rw [← hdir]
    simp [dir_tokens]
  obtain ⟨es2, hc1, _⟩ := run_close_walk reference_lib (fun _ => rfl)
    (w.open_tokens.length - nr_of_same_tokens w.open_tokens (split name)) es0 lower0 []
    (by omega)
  obtain ⟨es3, lower3, ho1, ho2, ho3⟩ := run_open_trace
    ((split name).dropLast.drop (nr_of_same_tokens w.open_tokens (split name))) es2
    (lower0.drop (w.open_tokens.length - nr_of_same_tokens w.open_tokens (split name))) []
  have hbase : dir_tokens
      (lower0.drop (w.open_tokens.length - nr_of_same_tokens w.open_tokens (split name)))
      = (dir_of name).take (nr_of_same_tokens w.open_tokens (split name)) := by
    rw [dir_tokens_drop, hdir, hlen]
    have h1 : w.open_tokens.length
        - (w.open_tokens.length - nr_of_same_tokens w.open_tokens (split name))
        = nr_of_same_tokens w.open_tokens (split name) := by omega
    rw [h1, hnr3, dir_of, take_dropLast_of_le _ _ hnr2]
  have hdir3 : dir_tokens lower3 = dir_of name := by
    rw [ho2, hbase]
    exact List.take_append_drop _ _
  have hk1 : Builder.run ⟨Frame.map es3 none :: frames lower3, []⟩
      [Emit.Key, Emit.Scalar ((split name).getLast hn), Emit.Value]
      = some ⟨Frame.map es3 (some (Node.scalar ((split name).getLast hn))) :: frames lower3,
          []⟩ := by
    simp [Builder.run, Builder.step, Builder.deliver]
  have hv1 := run_value nd hs es3 (Node.scalar ((split name).getLast hn)) (frames lower3) []
  have hclose_om : ∀ b, opened_maps b (List.replicate
      (w.open_tokens.length - nr_of_same_tokens w.open_tokens (split name)) Emit.EndMap)
      = [] := opened_maps_nil_of_not_mem _ (by simp)
  have hk_om : ∀ b, opened_maps b
      [Emit.Key, Emit.Scalar ((split name).getLast hn), Emit.Value] = [] :=
    opened_maps_nil_of_not_mem _ (by simp)
  have hv_om : ∀ b, opened_maps b (value_tokens nd) = [] :=
    opened_maps_nil_of_not_mem _ (value_tokens_no_begin_map nd)
  obtain ⟨r1, t1⟩ := run_trace_append _ _ _ _ _ hrun hc1
  obtain ⟨r2, t2⟩ := run_trace_append _ _ _ _ _ r1 ho1
  obtain ⟨r3, t3⟩ := run_trace_append _ _ _ _ _ r2 hk1
  obtain ⟨r4, t4⟩ := run_trace_append _ _ _ _ _ r3 hv1
  have hpath : close_maps w.open_tokens (nr_of_same_tokens w.open_tokens (split name))
      ++ open_maps (split name) (nr_of_same_tokens w.open_tokens (split name))
      ++ [Emit.Key, Emit.Scalar ((split name).getD (size_minus_one (split name)) ""),
          Emit.Value]
      = List.replicate
          (w.open_tokens.length - nr_of_same_tokens w.open_tokens (split name)) Emit.EndMap
        ++ ((split name).dropLast.drop
            (nr_of_same_tokens w.open_tokens (split name))).flatMap
            (fun t => [Emit.Key, Emit.Scalar t, Emit.Value, Emit.BeginMap])
        ++ [Emit.Key, Emit.Scalar ((split name).getLast hn), Emit.Value] := by
    rw [open_maps_eq _ _ hn, leaf_getD_eq _ hn]
    rfl
  refine ⟨close_maps w.open_tokens (nr_of_same_tokens w.open_tokens (split name))
      ++ open_maps (split name) (nr_of_same_tokens w.open_tokens (split name))
      ++ [Emit.Key, Emit.Scalar ((split name).getD (size_minus_one (split name)) ""),
          Emit.Value], es3, lower3, ?_, ?_, hdir3, ?_, ?_⟩
  · simp only [write_parameter, hval, dir_of]
  · rw [hpath]
    simp only [← List.append_assoc]
    exact r3
  · rw [hpath]
    simp only [← List.append_assoc]
    exact r4
  · rw [hpath]
    simp only [← List.append_assoc]
    rw [t4, t3, t2, t1, htrace, hclose_om, hk_om, hv_om, ho3, hbase]
    simp [step_dirs, dir_of]

theorem write_parameters_stack (L : YamlLib) (p : ParameterInterface) :
    ∀ (names : List String) (w : Writer) (dirs : List (List String)),
      writer_stack_inv w dirs →
      (∀ n ∈ names, ∃ nd, appendParameterToYaml L n p = some (value_tokens nd) ∧
        nd.simple = true) →
      ∃ w1, write_parameters L p w names = some w1 ∧
        writer_stack_inv w1 (dirs ++ opened_dirs w.open_tokens names) := by
  intro names
  induction names with
  | nil =>
    intro w dirs hinv _
    exact ⟨w, rfl, by simpa [opened_dirs] using hinv⟩
  | cons n rest ih =>
    intro w dirs hinv hall
    obtain ⟨nd, h1, h2⟩ := hall n (List.mem_cons_self _ _)
    obtain ⟨path, es, lower, hw, _, hdir, hrun, htrace⟩ :=
      write_parameter_stack L p w dirs n nd hinv h1 h2
    obtain ⟨w2, hw2, hinv2⟩ := ih ⟨w.yaml ++ path ++ value_tokens nd, dir_of n⟩
      (dirs ++ step_dirs w.open_tokens n) ⟨_, lower, hrun, hdir, htrace⟩
      (fun m hm => hall m (List.mem_cons_of_mem _ hm))
    refine ⟨w2, ?_, ?_⟩
    · simp only [write_parameters, hw]
      exact hw2
    · simpa [opened_dirs, List.append_assoc] using hinv2

theorem writer_stack_inv_init : writer_stack_inv ⟨[Emit.BeginMap], []⟩ [] := by
  refine ⟨[], [], ?_, rfl, ?_⟩
  · simp [Builder.run, Builder.step, frames]
  · simp [opened_maps, Builder.step, open_keys]

theorem supported_values (L : YamlLib) (p : ParameterInterface)
    (hsup : ∀ e ∈ p.parameter_set_, e.2.ty.supported = true) :
    ∀ n ∈ p.getAllParameterNames,
      ∃ nd, appendParameterToYaml L n p = some (value_tokens nd) ∧ nd.simple = true := by
  intro n hn
  obtain ⟨a, ha, hmem⟩ := mem_names_find p n hn
  have h1 := value_node_isSome_iff L a
  rw [hsup (n, a) hmem] at h1
  cases hv : value_node L a with
  | none => simp [hv] at h1
  | some nd =>
    refine ⟨nd, ?_, value_node_simple L a nd hv⟩
    rw [appendParameterToYaml_eq L p n a ha, hv]
    rfl

theorem write_parameters_append (L : YamlLib) (p : ParameterInterface) (a b : List String) :
    ∀ w, write_parameters L p w (a ++ b)
      = (write_parameters L p w a).bind (fun w1 => write_parameters L p w1 b) := by
  induction a with
  | nil =>
    intro w
    simp [write_parameters]
  | cons n rest ih =>
    intro w
    simp only [List.cons_append, write_parameters]
    cases write_parameter L p w n with
    | none => rfl
    | some w1 => exact ih w1

theorem write_parameters_extends (L : YamlLib) (p : ParameterInterface) :
    ∀ (names : List String) (w w1 : Writer), write_parameters L p w names = some w1 →
      ∃ t, w1.yaml = w.yaml ++ t := by
  intro names
  induction names with
  | nil =>
    intro w w1 h
    simp only [write_parameters, Option.some.injEq] at h
    subst h
    exact ⟨[], by simp⟩
  | cons n rest ih =>
    intro w w1 h
    simp only [write_parameters] at h
    cases hw : write_parameter L p w n with
    | none => simp [hw] at h
    | some w2 =>
      simp only [hw] at h
      obtain ⟨t, ht⟩ := ih w2 w1 h
      unfold write_parameter at hw
      cases hv : appendParameterToYaml L n p with
      | none => simp [hv] at hw
      | some value =>
        simp only [hv, Option.some.injEq] at hw
        subst hw
        exact ⟨(close_maps w.open_tokens (nr_of_same_tokens w.open_tokens (split n))
          ++ open_maps (split n) (nr_of_same_tokens w.open_tokens (split n))
          ++ [Emit.Key, Emit.Scalar ((split n).getD (size_minus_one (split n)) ""),
              Emit.Value]) ++ value ++ t, by rw [ht]; simp only [List.append_assoc]⟩

/-! ## Key paths of the written values -/

theorem store_of_names_spec (names : List String)
    (h : names.Pairwise (fun a b => string_less a b = true)) :
    (store_of_names names).getAllParameterNames = names ∧
    (store_of_names names).valid ∧
    ∀ e ∈ (store_of_names names).parameter_set_, e.2.ty.supported = true := by
  have hk : (store_of_names names).parameter_set_.map Prod.fst = names := by
    simp [store_of_names, List.map_map, Function.comp_def]
  refine ⟨?_, ?_, ?_⟩
  · unfold getAllParameterNames
    rw [hk]
    exact sort_eq_of_pairwise _ h
  · unfold ParameterInterface.valid
    rw [hk]
    exact h
  · intro e he
    simp only [store_of_names, List.mem_map] at he
    obtain ⟨n, _, hn⟩ := he
    subst hn
    rfl

theorem key_paths_of_store (L : YamlLib) (p : ParameterInterface)
    (hsup : ∀ e ∈ p.parameter_set_, e.2.ty.supported = true)
    (done rest : List String) (name : String)
    (hnames : p.getAllParameterNames = done ++ name :: rest) :
    ∃ (w w1 : Writer) (path value tail : List Emit) (es es0 : List (Node × Node))
      (st st0 : List Frame) (leaf : String) (nd : Node),
      write_parameters L p ⟨[Emit.BeginMap], []⟩ done = some w ∧
      write_parameter L p w name = some w1 ∧
      w1.yaml = w.yaml ++ path ++ value ∧
      appendParameterToYaml L name p = some value ∧ value = value_tokens nd ∧
      yaml_stream L p = some (w1.yaml ++ tail) ∧
      Builder.run ⟨[], []⟩ w.yaml = some ⟨Frame.map es0 none :: st0, []⟩ ∧
      open_keys st0 = w.open_tokens.map Node.scalar ∧
      Builder.run ⟨[], []⟩ (w.yaml ++ path)
        = some ⟨Frame.map es (some (Node.scalar leaf)) :: st, []⟩ ∧
      open_keys st ++ [Node.scalar leaf] = (split name).map Node.scalar ∧
      Builder.run ⟨[], []⟩ w1.yaml
        = some ⟨Frame.map (es ++ [(Node.scalar leaf, nd)]) none :: st, []⟩ ∧
      open_keys st = w1.open_tokens.map Node.scalar := by
  have hall := supported_values L p hsup
  rw [hnames] at hall
  obtain ⟨w, hw, es0, lower0, hrun0, hdir0, htrace0⟩ :=
    write_parameters_stack L p done ⟨[Emit.BeginMap], []⟩ [] writer_stack_inv_init
      (fun n hn => hall n (by simp [hn]))
  obtain ⟨nd, hval, hs⟩ := hall name (by simp)
  obtain ⟨path, es, lower, hw1, hrun1, hdir1, hrun2, htrace2⟩ :=
    write_parameter_stack L p w _ name nd ⟨es0, lower0, hrun0, hdir0, htrace0⟩ hval hs
  obtain ⟨wf, hwf, _⟩ :=
    write_parameters_stack L p rest ⟨w.yaml ++ path ++ value_tokens nd, dir_of name⟩ _
      ⟨_, lower, hrun2, hdir1, htrace2⟩ (fun n hn => hall n (by simp [hn]))
  obtain ⟨t, ht⟩ := write_parameters_extends L p rest _ wf hwf
  have hfull : write_parameters L p ⟨[Emit.BeginMap], []⟩ p.getAllParameterNames
      = some wf := by
    rw [hnames, write_parameters_append, hw, Option.some_bind]
    simp only [write_parameters, hw1]
    exact hwf
  refine ⟨w, ⟨w.yaml ++ path ++ value_tokens nd, dir_of name⟩, path, value_tokens nd,
    t ++ (List.replicate wf.open_tokens.length Emit.EndMap ++ [Emit.EndMap]), es, es0,
    frames lower, frames lower0, (split name).getLast (split_ne_nil name), nd,
    hw, hw1, rfl, hval, rfl, ?_, hrun0, ?_, hrun1, ?_, hrun2, ?_⟩
  · simp only [yaml_stream, hfull, ht, List.append_assoc]
  · rw [open_keys_frames, hdir0]
  · rw [open_keys_frames, hdir1, dir_of, ← List.map_singleton, ← List.map_append,
      List.dropLast_append_getLast]
  · rw [open_keys_frames, hdir1]

/-- C24: for every store whose values are all of a supported type (every sorted list of
distinct names is the name list of such a store), the writer emits the value of each name
of `getAllParameterNames` at a point of the event stream where the loader has read the
leaf key and waits for its value, and the keys of the maps open at that point, outermost
first and without the root, followed by that leaf key are exactly the tokens the name
splits into at `/`; before and after every name the keys of the open maps are exactly
`open_tokens`. -/
theorem C24_key_paths (L : YamlLib) :
    (∀ p : ParameterInterface, (∀ e ∈ p.parameter_set_, e.2.ty.supported = true) →
      ∀ (done rest : List String) (name : String),
        p.getAllParameterNames = done ++ name :: rest →
        ∃ (w w1 : Writer) (path value tail : List Emit) (es es0 : List (Node × Node))
          (st st0 : List Frame) (leaf : String) (nd : Node),
          write_parameters L p ⟨[Emit.BeginMap], []⟩ done = some w ∧
          write_parameter L p w name = some w1 ∧
          w1.yaml = w.yaml ++ path ++ value ∧
          appendParameterToYaml L name p = some value ∧ value = value_tokens nd ∧
          yaml_stream L p = some (w1.yaml ++ tail) ∧
          Builder.run ⟨[], []⟩ w.yaml = some ⟨Frame.map es0 none :: st0, []⟩ ∧
          open_keys st0 = w.open_tokens.map Node.scalar ∧
          Builder.run ⟨[], []⟩ (w.yaml ++ path)
            = some ⟨Frame.map es (some (Node.scalar leaf)) :: st, []⟩ ∧
          open_keys st ++ [Node.scalar leaf] = (split name).map Node.scalar ∧
          Builder.run ⟨[], []⟩ w1.yaml
            = some ⟨Frame.map (es ++ [(Node.scalar leaf, nd)]) none :: st, []⟩ ∧
          open_keys st = w1.open_tokens.map Node.scalar) ∧
    (∀ names : List String, names.Pairwise (fun a b => string_less a b = true) →
      (store_of_names names).getAllParameterNames = names ∧
      (store_of_names names).valid ∧
      ∀ e ∈ (store_of_names names).parameter_set_, e.2.ty.supported = true) :=
  ⟨key_paths_of_store L, store_of_names_spec⟩

/-- Witness for C24: the second name `a/y` of the example store, written after `a/x`. -/
theorem C24_key_paths_witness :
    (∀ e ∈ order_store.parameter_set_, e.2.ty.supported = true) ∧
    order_store.getAllParameterNames = ["a/x"] ++ "a/y" :: ["b/x"] ∧
    ∃ (w w1 : Writer) (path value tail : List Emit) (es : List (Node × Node))
      (st : List Frame) (leaf : String),
      write_parameters reference_lib order_store ⟨[Emit.BeginMap], []⟩ ["a/x"] = some w ∧
      write_parameter reference_lib order_store w "a/y" = some w1 ∧
      w1.yaml = w.yaml ++ path ++ value ∧
      yaml_stream reference_lib order_store = some (w1.yaml ++ tail) ∧
      Builder.run ⟨[], []⟩ (w.yaml ++ path)
        = some ⟨Frame.map es (some (Node.scalar leaf)) :: st, []⟩ ∧
      open_keys st ++ [Node.scalar leaf] = [Node.scalar "a", Node.scalar "y"] :=
  ⟨by decide, by decide,
    let ⟨w, w1, path, value, tail, es, _, st, _, leaf, _, h1, h2, h3, _, _, h6, _, _, h9, h10,
      _, _⟩ := (C24_key_paths reference_lib).1 order_store (by decide) ["a/x"] ["b/x"] "a/y"
        (by decide)
    ⟨w, w1, path, value, tail, es, st, leaf, h1, h2, h3, h6, h9, h10⟩⟩

/-! ## The directories the writer opens -/

theorem nr_loop_max (open_tokens new_tokens : List String) (hn : new_tokens ≠ []) :
    ∀ budget i : Nat, open_tokens.length ≤ budget + i →
      ∀ k, k ≤ open_tokens.length → k ≤ new_tokens.length - 1 →
        open_tokens.take k = new_tokens.take k →
        k ≤ nr_of_same_tokens_loop open_tokens new_tokens budget i i := by
  intro budget
  induction budget with
  | zero =>
    intro i hb k hk1 _ _
    simp only [nr_of_same_tokens_loop]
    omega
  | succ b ih =>
    intro i hb k hk1 hk2 hk3
    simp only [nr_of_same_tokens_loop]
    split
    · exact ih (i + 1) (by omega) k hk1 hk2 hk3
    · rename_i hc
      by_contra hlt
      apply hc
      have hik : i < k := by omega
      refine ⟨by omega, ?_, ?_⟩
      · rw [size_minus_one_eq _ hn]
        omega
      · simp only [List.get?_eq_getElem?]
        have e1 : (new_tokens.take k)[i]? = new_tokens[i]? := List.getElem?_take_of_lt hik
        have e2 : (open_tokens.take k)[i]? = open_tokens[i]? := List.getElem?_take_of_lt hik
        rw [← e1, ← e2, hk3]

theorem nr_of_same_tokens_max (open_tokens new_tokens : List String) (hn : new_tokens ≠ [])
    (k : Nat) (hk1 : k ≤ open_tokens.length) (hk2 : k ≤ new_tokens.length - 1)
    (hk3 : open_tokens.take k = new_tokens.take k) :
    k ≤ nr_of_same_tokens open_tokens new_tokens :=
  nr_loop_max open_tokens new_tokens hn open_tokens.length 0 (by omega) k hk1 hk2 hk3

theorem mem_new_dirs (P : List String) :
    ∀ (toks base : List String),
      P ∈ new_dirs base toks ↔ P <+: base ++ toks ∧ base.length < P.length := by
  intro toks
  induction toks with
  | nil =>
    intro base
    simp only [new_dirs, List.not_mem_nil, List.append_nil, false_iff, not_and, not_lt]
    exact fun h => h.length_le
  | cons t ts ih =>
    intro base
    simp only [new_dirs, List.mem_cons, ih, List.append_assoc, List.singleton_append,
      List.length_append, List.length_singleton]
    constructor
    · rintro (h | ⟨h1, h2⟩)
      · subst h
        refine ⟨?_, by simp⟩
        exact ⟨ts, by simp⟩
      · exact ⟨h1, by omega⟩
    · rintro ⟨h1, h2⟩
      by_cases hl : P.length = base.length + 1
      · left
        rw [List.prefix_iff_eq_take] at h1
        rw [h1, hl, List.take_append_eq_append_take]
        simp
      · right
        exact ⟨h1, by omega⟩

theorem nodup_new_dirs : ∀ (toks base : List String), (new_dirs base toks).Nodup := by
  intro toks
  induction toks with
  | nil =>
    intro base
    simp [new_dirs]
  | cons t ts ih =>
    intro base
    simp only [new_dirs, List.nodup_cons]
    refine ⟨fun h => ?_, ih _⟩
    have h2 := ((mem_new_dirs _ ts (base ++ [t])).1 h).2
    omega

theorem mem_step_dirs (open_tokens : List String) (name : String) (P : List String) :
    P ∈ step_dirs open_tokens name ↔ P <+: dir_of name ∧ ¬ P <+: open_tokens := by
  have hn := split_ne_nil name
  obtain ⟨hnr1, hnr2, hnr3⟩ := nr_of_same_tokens_spec open_tokens (split name) hn
  have hlen := dir_of_length name
  have hd : dir_of name = (split name).dropLast := rfl
  have htake : ∀ k, k ≤ (split name).length - 1 →
      (dir_of name).take k = (split name).take k := fun k hk => by
    rw [hd, take_dropLast_of_le _ _ hk]
  unfold step_dirs
  rw [mem_new_dirs, List.take_append_drop, List.length_take, Nat.min_eq_left (by omega)]
  constructor
  · rintro ⟨h1, h2⟩
    refine ⟨h1, fun h3 => ?_⟩
    have h4 : open_tokens.take P.length = (split name).take P.length := by
      have e1 := List.prefix_iff_eq_take.1 h1
      have e2 := List.prefix_iff_eq_take.1 h3
      rw [← e2, ← htake _ (by have := h1.length_le; omega), ← e1]
    have := nr_of_same_tokens_max open_tokens (split name) hn P.length h3.length_le
      (by have := h1.length_le; omega) h4
    omega
  · rintro ⟨h1, h2⟩
    refine ⟨h1, ?_⟩
    by_contra hle
    apply h2
    have e1 := List.prefix_iff_eq_take.1 h1
    have h5 : P = open_tokens.take P.length := by
      have h6 : (dir_of name).take P.length
          = ((dir_of name).take (nr_of_same_tokens open_tokens (split name))).take
              P.length := by
        rw [List.take_take, Nat.min_eq_left (by omega)]
      rw [htake _ hnr2, ← hnr3, List.take_take, Nat.min_eq_left (by omega)] at h6
      rw [← h6]
      exact e1
    rw [h5]
    exact List.take_prefix _ _

theorem nodup_step_dirs (open_tokens : List String) (name : String) :
    (step_dirs open_tokens name).Nodup :=
  nodup_new_dirs _ _

theorem mem_dir_prefixes (name : String) (P : List String) :
    P ∈ dir_prefixes name ↔ P <+: dir_of name ∧ P ≠ [] := by
  unfold dir_prefixes
  rw [List.mem_filter, List.mem_inits]
  cases P <;> simp

theorem split_chars_no_slash : ∀ (cs t : List Char), t ∈ split_chars cs → '/' ∉ t := by
  intro cs
  induction cs with
  | nil =>
    intro t ht
    simp only [split_chars, List.mem_singleton] at ht
    subst ht
    simp
  | cons c cs ih =>
    intro t ht
    unfold split_chars at ht
    by_cases hc : c = '/'
    · simp only [hc, if_true, List.mem_cons] at ht
      rcases ht with h | h
      · subst h
        simp
      · exact ih t h
    · simp only [hc, if_false] at ht
      cases hs : split_chars cs with
      | nil => exact absurd hs (split_chars_ne_nil cs)
      | cons t1 ts =>
        rw [hs] at ht ih
        simp only [List.mem_cons] at ht
        rcases ht with h | h
        · subst h
          have h1 := ih t1 (List.mem_cons_self _ _)
          simp only [List.mem_cons, not_or]
          exact ⟨fun e => hc e.symm, h1⟩
        · exact ih t (List.mem_cons_of_mem _ h)

theorem split_chars_token (t rest : List Char) (h : '/' ∉ t) :
    split_chars (t ++ '/' :: rest) = t :: split_chars rest := by
  induction t with
  | nil => simp [split_chars]
  | cons c t1 ih =>
    simp only [List.mem_cons, not_or] at h
    have hc : c ≠ '/' := fun e => h.1 e.symm
    simp only [List.cons_append, split_chars, hc, if_false, List.append_eq, ih h.2]

theorem split_chars_dirs (P : List (List Char)) (tail : List Char)
    (h : ∀ t ∈ P, '/' ∉ t) :
    split_chars (P.flatMap (fun t => t ++ ['/']) ++ tail) = P ++ split_chars tail := by
  induction P with
  | nil => simp
  | cons t ts ih =>
    have h1 := ih (fun t1 ht1 => h t1 (List.mem_cons_of_mem _ ht1))
    simp only [List.flatMap_cons, List.append_assoc, List.singleton_append, List.cons_append]
    rw [split_chars_token _ _ (h t (List.mem_cons_self _ _)), List.nil_append, h1]

theorem chars_interval (Q : List Char) :
    ∀ (a1 c1 b : List Char), chars_less b (Q ++ a1) = false →
      chars_less (Q ++ c1) b = false → ∃ b1, b = Q ++ b1 := by
  induction Q with
  | nil =>
    intro a1 c1 b _ _
    exact ⟨b, rfl⟩
  | cons q Q1 ih =>
    intro a1 c1 b h1 h2
    cases b with
    | nil => simp [chars_less] at h1
    | cons x b2 =>
      simp only [List.cons_append, chars_less] at h1 h2
      have hx1 : ¬ x.toNat < q.toNat := fun hlt => by simp [hlt] at h1
      have hx2 : ¬ q.toNat < x.toNat := fun hlt => by simp [hlt] at h2
      simp only [hx1, hx2, if_false] at h1 h2
      have hxq : x = q := char_toNat_inj x q (by omega)
      obtain ⟨b1, hb1⟩ := ih a1 c1 b2 h1 h2
      exact ⟨b1, by rw [hxq, hb1]; rfl⟩

theorem dir_prefix_data (s : String) (P : List String) (h : P <+: dir_of s) :
    ∃ tail, s.data = P.flatMap (fun t => t.data ++ ['/']) ++ tail := by
  obtain ⟨Q, hQ⟩ := h
  have h1 := congrArg String.data (dir_path_split s)
  rw [String.data_append, dir_path_data] at h1
  have hd : (split s).dropLast = P ++ Q := hQ.symm
  rw [hd, List.flatMap_append, List.append_assoc] at h1
  exact ⟨_, h1.symm⟩

theorem data_dir_prefix (s : String) (P : List String) (tail : List Char)
    (h : s.data = P.flatMap (fun t => t.data ++ ['/']) ++ tail)
    (hP : ∀ t ∈ P, '/' ∉ t.data) : P <+: dir_of s := by
  have h1 : split_chars s.data = P.map String.data ++ split_chars tail := by
    rw [h, ← List.flatMap_map String.data (fun t => t ++ ['/'])]
    apply split_chars_dirs
    intro t ht
    obtain ⟨t1, ht1, e⟩ := List.mem_map.1 ht
    subst e
    exact hP t1 ht1
  have h2 : split s = P ++ (split_chars tail).map String.mk := by
    unfold split
    rw [h1, List.map_append, List.map_map]
    congr 1
    conv_rhs => rw [← List.map_id P]
    exact List.map_congr_left (fun t _ => rfl)
  have h3 : (split_chars tail).map String.mk ≠ [] := by
    simp [split_chars_ne_nil]
  unfold dir_of
  rw [h2, List.dropLast_append_of_ne_nil _ h3]
  exact List.prefix_append _ _

theorem dir_tokens_no_slash (s : String) (P : List String) (h : P <+: dir_of s) :
    ∀ t ∈ P, '/' ∉ t.data := by
  intro t ht
  have h1 : t ∈ split s := List.dropLast_subset _ (h.subset ht)
  unfold split at h1
  obtain ⟨cs, hcs, e⟩ := List.mem_map.1 h1
  subst e
  exact split_chars_no_slash _ cs hcs

theorem dir_prefix_between (a n c : String) (P : List String)
    (h1 : string_less n a = false) (h2 : string_less c n = false)
    (ha : P <+: dir_of a) (hc : P <+: dir_of c) : P <+: dir_of n := by
  obtain ⟨ta, hta⟩ := dir_prefix_data a P ha
  obtain ⟨tc, htc⟩ := dir_prefix_data c P hc
  unfold string_less at h1 h2
  rw [hta] at h1
  rw [htc] at h2
  obtain ⟨tn, htn⟩ := chars_interval _ ta tc n.data h1 h2
  exact data_dir_prefix n P tn htn (dir_tokens_no_slash a P ha)

/-! ## Minimal nesting -/

theorem opened_dirs_spec :
    ∀ (names : List String) (prev : String),
      (prev :: names).Pairwise (fun a b => string_less b a = false) →
      (opened_dirs (dir_of prev) names).Nodup ∧
      ∀ P, P ∈ opened_dirs (dir_of prev) names ↔
        (∃ n ∈ names, P <+: dir_of n) ∧ ¬ P <+: dir_of prev := by
  intro names
  induction names with
  | nil =>
    intro prev _
    simp [opened_dirs]
  | cons n rest ih =>
    intro prev hsorted
    rw [List.pairwise_cons] at hsorted
    obtain ⟨hprev, htail⟩ := hsorted
    obtain ⟨ih1, ih2⟩ := ih n htail
    have hn_rest : ∀ m ∈ rest, string_less m n = false := (List.pairwise_cons.1 htail).1
    have hmem : ∀ P, P ∈ opened_dirs (dir_of prev) (n :: rest) ↔
        (∃ m ∈ n :: rest, P <+: dir_of m) ∧ ¬ P <+: dir_of prev := by
      intro P
      simp only [opened_dirs, List.mem_append, mem_step_dirs, ih2]
      constructor
      · rintro (⟨h1, h2⟩ | ⟨⟨m, hm, h1⟩, h2⟩)
        · exact ⟨⟨n, List.mem_cons_self _ _, h1⟩, h2⟩
        · refine ⟨⟨m, List.mem_cons_of_mem _ hm, h1⟩, fun h3 => h2 ?_⟩
          exact dir_prefix_between prev n m P (hprev n (List.mem_cons_self _ _))
            (hn_rest m hm) h3 h1
      · rintro ⟨⟨m, hm, h1⟩, h2⟩
        by_cases h3 : P <+: dir_of n
        · exact Or.inl ⟨h3, h2⟩
        · rcases List.mem_cons.1 hm with e | hm2
          · subst e
            exact absurd h1 h3
          · exact Or.inr ⟨⟨m, hm2, h1⟩, h3⟩
    refine ⟨?_, hmem⟩
    simp only [opened_dirs]
    rw [List.nodup_append]
    refine ⟨nodup_step_dirs _ _, ih1, ?_⟩
    intro P h1 h2
    exact ((ih2 P).1 h2).2 ((mem_step_dirs _ _ P).1 h1).1

theorem opened_dirs_root (names : List String)
    (h : names.Pairwise (fun a b => string_less b a = false)) :
    (opened_dirs [] names).Nodup ∧
    ∀ P, P ∈ opened_dirs [] names ↔ ∃ n ∈ names, P ∈ dir_prefixes n := by
  have h0 : dir_of "" = [] := by decide
  have hs : ("" :: names).Pairwise (fun a b => string_less b a = false) := by
    rw [List.pairwise_cons]
    refine ⟨fun b _ => ?_, h⟩
    unfold string_less
    cases b.data <;> rfl
  obtain ⟨h1, h2⟩ := opened_dirs_spec names "" hs
  rw [h0] at h1 h2
  refine ⟨h1, fun P => ?_⟩
  rw [h2]
  simp only [mem_dir_prefixes, List.prefix_nil]
  constructor
  · rintro ⟨⟨n, hn, hp⟩, hne⟩
    exact ⟨n, hn, hp, hne⟩
  · rintro ⟨n, hn, hp, hne⟩
    exact ⟨⟨n, hn, hp⟩, hne⟩

theorem opened_dirs_length (names : List String)
    (h : names.Pairwise (fun a b => string_less b a = false)) :
    (opened_dirs [] names).length = (directories names).length := by
  obtain ⟨h1, h2⟩ := opened_dirs_root names h
  unfold directories
  apply List.Perm.length_eq
  refine (List.perm_ext_iff_of_nodup h1 (List.nodup_dedup _)).2 (fun P => ?_)
  rw [h2, List.mem_dedup, List.mem_flatMap]

theorem minimal_nesting_of_store (L : YamlLib) (p : ParameterInterface)
    (hsup : ∀ e ∈ p.parameter_set_, e.2.ty.supported = true) :
    ∃ (text : YamlText) (dirs : List (List String)), writeParametersToFile L true p = (true, some text) ∧
      opened_maps ⟨[], []⟩ text = [] :: dirs.map (List.map Node.scalar) ∧
      dirs.Nodup ∧
      (∀ P, P ∈ dirs ↔ ∃ n ∈ p.getAllParameterNames, P ∈ dir_prefixes n) ∧
      text.count Emit.BeginMap = (directories p.getAllParameterNames).length + 1 := by
  obtain ⟨w, hw, es, lower, hrun, _, htrace⟩ :=
    write_parameters_stack L p p.getAllParameterNames ⟨[Emit.BeginMap], []⟩ []
      writer_stack_inv_init (supported_values L p hsup)
  have hsorted : p.getAllParameterNames.Pairwise (fun a b => string_less b a = false) :=
    sort_ascending (p.parameter_set_.map Prod.fst)
  obtain ⟨hnd, hmem⟩ := opened_dirs_root p.getAllParameterNames hsorted
  have hclose : Emit.BeginMap ∉
      List.replicate w.open_tokens.length Emit.EndMap ++ [Emit.EndMap] := by
    simp
  have htext : opened_maps ⟨[], []⟩
      (w.yaml ++ List.replicate w.open_tokens.length Emit.EndMap ++ [Emit.EndMap])
      = [] :: (opened_dirs [] p.getAllParameterNames).map (List.map Node.scalar) := by
    rw [List.append_assoc, opened_maps_append _ _ _ _ hrun, htrace,
      opened_maps_nil_of_not_mem _ hclose]
    simp
  refine ⟨w.yaml ++ List.replicate w.open_tokens.length Emit.EndMap ++ [Emit.EndMap],
    opened_dirs [] p.getAllParameterNames, by simp [writeParametersToFile, yaml_stream, hw],
    htext, hnd, hmem, ?_⟩
  have hcount : (w.yaml ++ List.replicate w.open_tokens.length Emit.EndMap
      ++ [Emit.EndMap]).count Emit.BeginMap = w.yaml.count Emit.BeginMap := by
    rw [List.append_assoc, List.count_append, List.count_eq_zero_of_not_mem hclose]
    rfl
  rw [hcount, ← opened_maps_length _ _ _ hrun, htrace, List.length_cons, List.length_map,
    List.nil_append]
  exact congrArg (· + 1) (opened_dirs_length _ hsorted)

/-- C25: for every store whose values are all of a supported type (every sorted list of
distinct names is the name list of such a store), the maps the written event stream
opens are the root map followed by one map for each directory prefix of a name (each
non-empty proper prefix of its token list), each directory exactly once: no directory is
opened twice, so none is closed and opened again later, and the number of map-begin events
is the number of distinct directory prefixes plus one for the root map. -/
theorem C25_minimal_nesting (L : YamlLib) :
    (∀ p : ParameterInterface, (∀ e ∈ p.parameter_set_, e.2.ty.supported = true) →
      ∃ (text : YamlText) (dirs : List (List String)), writeParametersToFile L true p = (true, some text) ∧
        opened_maps ⟨[], []⟩ text = [] :: dirs.map (List.map Node.scalar) ∧
        dirs.Nodup ∧
        (∀ P, P ∈ dirs ↔ ∃ n ∈ p.getAllParameterNames, P ∈ dir_prefixes n) ∧
        text.count Emit.BeginMap = (directories p.getAllParameterNames).length + 1) ∧
    (∀ names : List String, names.Pairwise (fun a b => string_less a b = true) →
      (store_of_names names).getAllParameterNames = names ∧
      (store_of_names names).valid ∧
      ∀ e ∈ (store_of_names names).parameter_set_, e.2.ty.supported = true) :=
  ⟨minimal_nesting_of_store L, store_of_names_spec⟩

/-- Witness for C25: the example store with the names `a/x`, `a/y`, `b/x`, whose two
directories `a` and `b` give three map-begin events. -/
theorem C25_minimal_nesting_witness :
    (∀ e ∈ order_store.parameter_set_, e.2.ty.supported = true) ∧
    directories order_store.getAllParameterNames = [["a"], ["b"]] ∧
    ∃ (text : YamlText) (dirs : List (List String)), writeParametersToFile reference_lib true order_store = (true, some text) ∧
      opened_maps ⟨[], []⟩ text = [] :: dirs.map (List.map Node.scalar) ∧
      dirs.Nodup ∧
      text.count Emit.BeginMap = 2 + 1 :=
  ⟨by decide, by decide,
    let ⟨text, dirs, h1, h2, h3, _, h5⟩ :=
      (C25_minimal_nesting reference_lib).1 order_store (by decide)
    ⟨text, dirs, h1, h2, h3, h5⟩⟩

end paraminf
